import Mathlib

/-! Verification of the block pool allocator of `tier1/mempool.h` and of the data ownership
of `PackedEntity` (`engine/packed_entity.h`).

A shallow embedding of `CUtlMemoryPool`, `CClassMemoryPoolExt<T>` and the part of
`PackedEntity` that owns `m_pData` and `m_pChangeFrameList`.

* Addresses and machine words are integers; the null pointer is `0`.
* `int` counters are mathematical integers.  The arithmetic the operations below do on them
  is `m_BlocksAllocated--`, taken in the integers, and the product of `Size()`, which is
  reduced to the range of `int` after each multiplication.  The `unsigned short` fields
  `m_nAlignment` and `m_NumBlobs` are naturals; `Size()` reads `m_NumBlobs` modulo `2^16`.
* The blob list is kept at pointer level: blob headers live in a heap `blobs`, indexed by the
  address of the header, and are linked through `m_pNext`; the sentinel `m_BlobHead` is a
  field of the pool and `pBlobHead` is its address `&m_BlobHead`.
* Block memory is modelled at word granularity: `mem a` is the pointer-sized word stored at
  address `a`, and words at different addresses are independent cells.  This is what the
  intrusive free list reads and writes.  A store to the word at `a` is the store of the code
  for the word at `a` itself and for every word that shares no byte with it; the theorems that
  read another word after a store assume that the two words are apart (`WordsApart`), as the
  words of distinct blocks of a pool are.
* The element constructor, the element destructor and the heap's `free` are collaborators:
  a call to one of them is recorded as an event.
* Loops that follow pointers take a fuel argument; running out of fuel, reading a blob header
  that is not allocated, and a failed `Assert` are the three faults.
-/

namespace Mempool

/-! ## Data model -/

/-- Ways an operation of the model can stop without returning. -/
inductive Fault where
  /-- A failed `Assert` of a debug build. -/
  | assertion
  /-- A loop used up its fuel. -/
  | outOfFuel
  /-- A blob header was read through a pointer to no allocated blob. -/
  | badRead
deriving DecidableEq, Repr

/-- Calls made to collaborators outside the pool, in program order. -/
inductive Event where
  /-- The element constructor `Construct(p)`. -/
  | construct (p : Int)
  /-- The element destructor `Destruct(p)`. -/
  | destruct (p : Int)
  /-- The heap release `free(pBlob)` of a blob. -/
  | release (pBlob : Int)
deriving DecidableEq, Repr

/-- Header of `CUtlMemoryPool::CBlob`.  `m_Data` is the address of the blob's data area. -/
structure CBlob where
  m_pPrev : Int
  m_pNext : Int
  m_NumBytes : Int
  m_Data : Int
deriving DecidableEq, Repr

/-- State of a `CUtlMemoryPool` together with the memory it points into. -/
structure CUtlMemoryPool where
  m_BlockSize : Int
  m_BlocksPerBlob : Int
  m_GrowMode : Int
  m_pHeadOfFreeList : Int
  m_BlocksAllocated : Int
  m_PeakAlloc : Int
  m_nAlignment : Nat
  m_NumBlobs : Nat
  m_BlobHead : CBlob
  /-- The address `&m_BlobHead` of the sentinel. -/
  pBlobHead : Int
  /-- Heap of blob headers: `blobs a` is the header allocated at address `a`, if any. -/
  blobs : Int → Option CBlob
  /-- Block memory, one pointer-sized word per address. -/
  mem : Int → Int

namespace CUtlMemoryPool

def GROW_NONE : Int := 0
def GROW_FAST : Int := 1
def GROW_SLOW : Int := 2

/-- The word that `memset(p, 0xDD, n)` leaves in every pointer-sized word it covers
(32-bit target; no theorem below depends on its value). -/
def poisonWord : Int := 0xDDDDDDDD

/-- Effect of `memset(p, 0xDD, n)` on the word memory: every word whose address lies in
`[p, p + n)` is overwritten (none when `n` is not positive).  Words that start before `p` are
left as they are: this is the effect of the code on every word that ends at or before `p`. -/
def memsetDD (mem : Int → Int) (p n : Int) : Int → Int :=
  fun a => if p ≤ a ∧ a < p + n then poisonWord else mem a

/-- `int Count() const`. -/
def Count (s : CUtlMemoryPool) : Int := s.m_BlocksAllocated

/-- `int PeakCount() const`. -/
def PeakCount (s : CUtlMemoryPool) : Int := s.m_PeakAlloc

/-- `int BlockSize() const`. -/
def BlockSize (s : CUtlMemoryPool) : Int := s.m_BlockSize

/-- The value of type `int` (32 bits, two's complement) that an integer is reduced to. -/
def toInt (x : Int) : Int := (x + 2147483648) % 4294967296 - 2147483648

/-- `int Size() const`.  `m_NumBlobs` is an `unsigned short`: the value read is the blob
counter modulo `2^16`, promoted to `int`.  The two multiplications are `int` multiplications,
left to right; each result is reduced to the range of `int` (overflow of a signed
multiplication is undefined in C++; two's complement wrap-around is what the targets of the
SDK produce). -/
def Size (s : CUtlMemoryPool) : Int :=
  toInt (toInt (((s.m_NumBlobs % 65536 : Nat) : Int) * s.m_BlocksPerBlob) * s.m_BlockSize)

/-- `void Init()`: resets the pool. -/
def Init (s : CUtlMemoryPool) : CUtlMemoryPool :=
  { s with
    m_NumBlobs := 0
    m_BlocksAllocated := 0
    m_pHeadOfFreeList := 0
    m_BlobHead := { s.m_BlobHead with m_pNext := s.pBlobHead, m_pPrev := s.pBlobHead } }

/-- The debug loop of `Free`: scans the blob list from `pCur` and returns the final `bOK`. -/
def rangeScan (s : CUtlMemoryPool) (memBlock : Int) : Nat → Int → Bool → Except Fault Bool
  | 0, pCur, bOK => if pCur ≠ s.pBlobHead then .error .outOfFuel else .ok bOK
  | fuel + 1, pCur, bOK =>
    if pCur ≠ s.pBlobHead then
      match s.blobs pCur with
      | none => .error .badRead
      | some blob =>
        rangeScan s memBlock fuel blob.m_pNext
          (if memBlock ≥ blob.m_Data ∧ memBlock < blob.m_Data + blob.m_NumBytes then true else bOK)
    else .ok bOK

/-- The part of `Free` shared by both builds: decrement the counter and push the block.  The
store `*((void**)memBlock) = m_pHeadOfFreeList` writes the word at `memBlock`; the words at other
addresses are left as they are, which is the effect of the code on every word that shares no
byte with `[memBlock, memBlock + sizeof(void*))`. -/
def pushFree (s : CUtlMemoryPool) (memBlock : Int) : CUtlMemoryPool :=
  { s with
    m_BlocksAllocated := s.m_BlocksAllocated - 1
    mem := Function.update s.mem memBlock s.m_pHeadOfFreeList
    m_pHeadOfFreeList := memBlock }

/-- `void Free(void *memBlock)`.  `debug` selects the `_DEBUG` build.  `Assert` (tier0/dbg.h is
not among the sources) is modelled from the spec, "signals an assertion failure [...] deliberate
fail-fast corruption detection, not a recoverable error": a failed assertion stops the call
with the fault `assertion` and the pool untouched. -/
def Free (debug : Bool) (fuel : Nat) (s : CUtlMemoryPool) (memBlock : Int) :
    Except Fault CUtlMemoryPool :=
  if memBlock = 0 then .ok s
  else if debug then
    match rangeScan s memBlock fuel s.m_BlobHead.m_pNext false with
    | .error e => .error e
    | .ok bOK =>
      if bOK then
        .ok (pushFree { s with mem := memsetDD s.mem memBlock s.m_BlockSize } memBlock)
      else .error .assertion
  else .ok (pushFree s memBlock)

/-- The loop of `Clear`: releases every blob from `pCur` up to the sentinel, reading the link
of a blob before releasing it.  Returns the release events and the remaining heap. -/
def releaseBlobs (pBlobHead : Int) :
    Nat → Int → (Int → Option CBlob) → List Event → Except Fault (List Event × (Int → Option CBlob))
  | 0, pCur, heap, ev => if pCur ≠ pBlobHead then .error .outOfFuel else .ok (ev, heap)
  | fuel + 1, pCur, heap, ev =>
    if pCur ≠ pBlobHead then
      match heap pCur with
      | none => .error .badRead
      | some blob =>
        let pNext := blob.m_pNext
        releaseBlobs pBlobHead fuel pNext (Function.update heap pCur none)
          (ev ++ [Event.release pCur])
    else .ok (ev, heap)

/-- `void Clear()`: frees everything. -/
def Clear (fuel : Nat) (s : CUtlMemoryPool) : Except Fault (List Event × CUtlMemoryPool) :=
  match releaseBlobs s.pBlobHead fuel s.m_BlobHead.m_pNext s.blobs [] with
  | .error e => .error e
  | .ok (ev, heap) => .ok (ev, Init { s with blobs := heap })

/-! ### Operations declared in the header whose bodies are in `mempool.cpp` -/

/-- Modelled from the spec: `AlignValue` (tier0/platform.h is not among the sources), rounding
`v` up to a multiple of the alignment; alignment `0` means natural alignment, no rounding. -/
def alignUp (v : Int) (nAlignment : Nat) : Int :=
  if nAlignment = 0 then v else (v + (nAlignment - 1)) / nAlignment * nAlignment

/-- Modelled from the spec: the constructor (its body is in mempool.cpp, not among the
sources): "fails (construction error) if `blockSize < sizeof(pointer)` after alignment
rounding, or if `initialElementCount <= 0`.  Initializes empty blob list, empty free list, zero
counters."  `ptrSize` is `sizeof(void*)`, `pBlobHead` the address of the sentinel and `mem0`
the contents of memory at construction. -/
def construct (ptrSize : Nat) (pBlobHead : Int) (mem0 : Int → Int)
    (blockSize numElements growMode : Int) (nAlignment : Nat) : Option CUtlMemoryPool :=
  if alignUp blockSize nAlignment < ptrSize ∨ numElements ≤ 0 then none
  else some
    { m_BlockSize := alignUp blockSize nAlignment
      m_BlocksPerBlob := numElements
      m_GrowMode := growMode
      m_pHeadOfFreeList := 0
      m_BlocksAllocated := 0
      m_PeakAlloc := 0
      m_nAlignment := nAlignment
      m_NumBlobs := 0
      m_BlobHead := { m_pPrev := pBlobHead, m_pNext := pBlobHead, m_NumBytes := 0, m_Data := 0 }
      pBlobHead := pBlobHead
      blobs := fun _ => none
      mem := mem0 }

/-- Modelled from the spec: threading `n` back-to-back blocks of `blockSize` bytes starting at
`p` into a chain that ends in `last` ("thread all of its blocks onto the free list in one
pass"). -/
def threadBlocks (blockSize last : Int) : Nat → Int → (Int → Int) → (Int → Int)
  | 0, _, mem => mem
  | n + 1, p, mem =>
    Function.update (threadBlocks blockSize last n (p + blockSize) mem) p
      (if n = 0 then last else p + blockSize)

/-- Modelled from the spec: the number of elements of the next blob, "sized per growth policy
(FAST: size grows with blob index; SLOW: constant size)": "SLOW allocates blobs of constant size
`blocksPerBlob`; FAST allocates the i-th blob with `blocksPerBlob * (i+1)` elements". -/
def newBlobElements (s : CUtlMemoryPool) : Int :=
  if s.m_GrowMode = GROW_FAST then s.m_BlocksPerBlob * (s.m_NumBlobs + 1) else s.m_BlocksPerBlob

/-- Modelled from the spec: `AddNewBlob` (its body is in mempool.cpp, not among the sources):
"allocate one new blob sized per growth policy [...], thread all of its blocks onto the free
list in one pass, append the blob to the blob list".  `pBlob` and `pData` are the addresses the
heap returns for the new header and its data area; the first block is placed at `pData`
rounded up to the alignment. -/
def AddNewBlob (pBlob pData : Int) (s : CUtlMemoryPool) : CUtlMemoryPool :=
  let pLast : Int := s.m_BlobHead.m_pPrev
  { s with
    m_NumBlobs := s.m_NumBlobs + 1
    blobs :=
      Function.update
        (if pLast = s.pBlobHead then s.blobs
         else Function.update s.blobs pLast
            ((s.blobs pLast).map fun b => { b with m_pNext := pBlob }))
        pBlob
        (some
          { m_pPrev := pLast
            m_pNext := s.pBlobHead
            m_NumBytes := s.m_BlockSize * newBlobElements s
            m_Data := pData })
    m_BlobHead :=
      { s.m_BlobHead with
        m_pPrev := pBlob
        m_pNext := if pLast = s.pBlobHead then pBlob else s.m_BlobHead.m_pNext }
    mem :=
      threadBlocks s.m_BlockSize s.m_pHeadOfFreeList (newBlobElements s).toNat
        (alignUp pData s.m_nAlignment) s.mem
    m_pHeadOfFreeList :=
      if 0 < newBlobElements s then alignUp pData s.m_nAlignment else s.m_pHeadOfFreeList }

/-- Modelled from the spec: `Alloc(size_t amount)` (its body is in mempool.cpp, not among the
sources): "requested `size` must not exceed `blockSize`.  If the free list is non-empty, pop its
head, return it, increment `blocksAllocated`, update `peakAllocated = max(peakAllocated,
blocksAllocated)`.  If the free list is empty: if `growthMode == NONE`, fail (pool exhausted);
otherwise grow [...] then retry the pop."  Returns the block, null on failure. -/
def AllocAmount (pBlob pData : Int) (amount : Int) (s : CUtlMemoryPool) : Int × CUtlMemoryPool :=
  if amount > s.m_BlockSize then (0, s)
  else
    let grown : Option CUtlMemoryPool :=
      if s.m_pHeadOfFreeList ≠ 0 then some s
      else if s.m_GrowMode = GROW_NONE then none
      else some (AddNewBlob pBlob pData s)
    match grown with
    | none => (0, s)
    | some t =>
      if t.m_pHeadOfFreeList = 0 then (0, t)
      else
        (t.m_pHeadOfFreeList,
          { t with
            m_pHeadOfFreeList := t.mem t.m_pHeadOfFreeList
            m_BlocksAllocated := t.m_BlocksAllocated + 1
            m_PeakAlloc := max t.m_PeakAlloc (t.m_BlocksAllocated + 1) })

/-- Modelled from the spec: `Alloc()`, "Allocate the element size you specified in the
constructor". -/
def Alloc (pBlob pData : Int) (s : CUtlMemoryPool) : Int × CUtlMemoryPool :=
  AllocAmount pBlob pData s.m_BlockSize s

/-- Modelled from the spec: `AllocZero()`, "identical to Allocate but the returned block is
zero-filled before being handed to the caller". -/
def AllocZero (pBlob pData : Int) (s : CUtlMemoryPool) : Int × CUtlMemoryPool :=
  let r := Alloc pBlob pData s
  if r.1 = 0 then r
  else (r.1, { r.2 with mem := fun a => if r.1 ≤ a ∧ a < r.1 + s.m_BlockSize then 0 else r.2.mem a })

end CUtlMemoryPool

/-! ## The typed pool `CClassMemoryPoolExt<T>`

`sizeofT` is `sizeof(T)`.  The element constructor and destructor are collaborators: a call is
recorded as an event and has no effect on the pool. -/

namespace CClassMemoryPoolExt

/-- Modelled from the spec: `CUtlRBTree<void *>` (tier1/utlrbtree.h is not among the sources),
"an ordered set of all addresses currently reachable from the free list", as the list of the
inserted addresses: this is `freeBlocks.Insert(p)`. -/
def Insert (freeBlocks : List Int) (p : Int) : List Int := freeBlocks ++ [p]

/-- Modelled from the spec: `freeBlocks.Find(p) == freeBlocks.InvalidIndex()`, that is, `p` is
not in the set. -/
def notFound (freeBlocks : List Int) (p : Int) : Bool := decide (p ∉ freeBlocks)

/-- `T* Alloc()`, over a raw allocation `rawAlloc` standing for `CUtlMemoryPool::Alloc()`.
Returns the pointer, the constructor calls made and the pool. -/
def Alloc (rawAlloc : CUtlMemoryPool → Int × CUtlMemoryPool) (s : CUtlMemoryPool) :
    Int × List Event × CUtlMemoryPool :=
  let pRet := (rawAlloc s).1
  if pRet ≠ 0 then (pRet, [Event.construct pRet], (rawAlloc s).2)
  else (pRet, [], (rawAlloc s).2)

/-- `T* AllocZero()`, over a raw allocation `rawAllocZero` standing for
`CUtlMemoryPool::AllocZero()`. -/
def AllocZero (rawAllocZero : CUtlMemoryPool → Int × CUtlMemoryPool) (s : CUtlMemoryPool) :
    Int × List Event × CUtlMemoryPool :=
  let pRet := (rawAllocZero s).1
  if pRet ≠ 0 then (pRet, [Event.construct pRet], (rawAllocZero s).2)
  else (pRet, [], (rawAllocZero s).2)

/-- The first loop of `Clear` and `Free`: inserts every address on the free list, from
`pCurFree` on, into `freeBlocks`. -/
def collectFree (mem : Int → Int) : Nat → Int → List Int → Except Fault (List Int)
  | 0, pCurFree, freeBlocks => if pCurFree ≠ 0 then .error .outOfFuel else .ok freeBlocks
  | fuel + 1, pCurFree, freeBlocks =>
    if pCurFree ≠ 0 then collectFree mem fuel (mem pCurFree) (Insert freeBlocks pCurFree)
    else .ok freeBlocks

/-- The inner loop of `Clear` and `Free`: walks the slots `p, p + sizeof(T), ...` below
`pLimit` and destructs those that are not in `freeBlocks`. -/
def destructSlots (sizeofT : Nat) (freeBlocks : List Int) (pLimit : Int) :
    Nat → Int → List Event → Except Fault (List Event)
  | 0, p, ev => if p < pLimit then .error .outOfFuel else .ok ev
  | fuel + 1, p, ev =>
    if p < pLimit then
      destructSlots sizeofT freeBlocks pLimit fuel (p + sizeofT)
        (if notFound freeBlocks p then ev ++ [Event.destruct p] else ev)
    else .ok ev

/-- The outer loop of `Clear` and `Free`: walks the blob list from `pCur` to the sentinel.
`slotFuel` is the fuel handed to each inner loop. -/
def destructBlobs (s : CUtlMemoryPool) (sizeofT : Nat) (freeBlocks : List Int) (slotFuel : Nat) :
    Nat → Int → List Event → Except Fault (List Event)
  | 0, pCur, ev => if pCur ≠ s.pBlobHead then .error .outOfFuel else .ok ev
  | fuel + 1, pCur, ev =>
    if pCur ≠ s.pBlobHead then
      match s.blobs pCur with
      | none => .error .badRead
      | some blob =>
        match destructSlots sizeofT freeBlocks (blob.m_Data + blob.m_NumBytes) slotFuel
            blob.m_Data ev with
        | .error e => .error e
        | .ok ev1 => destructBlobs s sizeofT freeBlocks slotFuel fuel blob.m_pNext ev1
    else .ok ev

/-- `void Clear()` of the typed pool. -/
def Clear (sizeofT : Nat) (fuel : Nat) (s : CUtlMemoryPool) :
    Except Fault (List Event × CUtlMemoryPool) :=
  match collectFree s.mem fuel s.m_pHeadOfFreeList [] with
  | .error e => .error e
  | .ok freeBlocks =>
    match destructBlobs s sizeofT freeBlocks fuel fuel s.m_BlobHead.m_pNext [] with
    | .error e => .error e
    | .ok ev =>
      match CUtlMemoryPool.Clear fuel s with
      | .error e => .error e
      | .ok (ev1, s1) => .ok (ev ++ ev1, s1)

/-- `void Free(T *pMem)` of the typed pool.  The body does not mention `pMem`. -/
def Free (sizeofT : Nat) (fuel : Nat) (s : CUtlMemoryPool) (_pMem : Int) :
    Except Fault (List Event × CUtlMemoryPool) :=
  match collectFree s.mem fuel s.m_pHeadOfFreeList [] with
  | .error e => .error e
  | .ok freeBlocks =>
    match destructBlobs s sizeofT freeBlocks fuel fuel s.m_BlobHead.m_pNext [] with
    | .error e => .error e
    | .ok ev =>
      match CUtlMemoryPool.Clear fuel s with
      | .error e => .error e
      | .ok (ev1, s1) => .ok (ev ++ ev1, s1)

end CClassMemoryPoolExt

/-! ## Predicates on pool states -/

/-- Following `next` from `p` visits exactly the addresses `l`, in order, and then reaches
`stop`; every address of `l` differs from `stop` and has a successor. -/
def IsPath (next : Int → Option Int) (stop : Int) : Int → List Int → Prop
  | p, [] => p = stop
  | p, a :: l =>
    p = a ∧ a ≠ stop ∧
      match next a with
      | some q => IsPath next stop q l
      | none => False

instance instDecidableIsPath (next : Int → Option Int) (stop : Int) :
    ∀ (p : Int) (l : List Int), Decidable (IsPath next stop p l)
  | p, [] => inferInstanceAs (Decidable (p = stop))
  | p, a :: l =>
    match h : next a with
    | some q =>
      match instDecidableIsPath next stop q l with
      | isTrue hq =>
        if hp : p = a ∧ a ≠ stop then isTrue (by unfold IsPath; rw [h]; exact ⟨hp.1, hp.2, hq⟩)
        else isFalse (by unfold IsPath; exact fun hh => hp ⟨hh.1, hh.2.1⟩)
      | isFalse hq => isFalse (by unfold IsPath; rw [h]; exact fun hh => hq hh.2.2)
    | none => isFalse (by unfold IsPath; rw [h]; exact fun hh => hh.2.2)

/-- The free list from `p` is the finite chain `l` ending in null: `l` lists the addresses
reachable from `p` through the first word of each block. -/
def IsFreeChain (mem : Int → Int) (p : Int) (l : List Int) : Prop :=
  IsPath (fun a => some (mem a)) 0 p l

instance (mem : Int → Int) (p : Int) (l : List Int) : Decidable (IsFreeChain mem p l) :=
  instDecidableIsPath _ _ p l

/-- The blob list from `p` is the finite path `l` of allocated headers ending at the
sentinel. -/
def IsBlobPath (heap : Int → Option CBlob) (pBlobHead : Int) (p : Int) (l : List Int) : Prop :=
  IsPath (fun a => (heap a).map CBlob.m_pNext) pBlobHead p l

instance (heap : Int → Option CBlob) (pBlobHead p : Int) (l : List Int) :
    Decidable (IsBlobPath heap pBlobHead p l) :=
  instDecidableIsPath _ _ p l

/-- The blob list of `s` is a finite circular list through the sentinel whose blobs are, in
order, the headers at the addresses `l`. -/
def BlobList (s : CUtlMemoryPool) (l : List Int) : Prop :=
  IsBlobPath s.blobs s.pBlobHead s.m_BlobHead.m_pNext l

instance (s : CUtlMemoryPool) (l : List Int) : Decidable (BlobList s l) :=
  instDecidableIsPath _ _ _ l

/-- The address `b` lies in the data range `[m_Data, m_Data + m_NumBytes)` of the blob whose
header is at `a`. -/
def inBlob (s : CUtlMemoryPool) (a b : Int) : Bool :=
  match s.blobs a with
  | some blob => decide (blob.m_Data ≤ b ∧ b < blob.m_Data + blob.m_NumBytes)
  | none => false

/-- The address `p` is a slot of the blob whose header is at `a`, for elements of `sizeofT`
bytes: it lies in the data range at a multiple of `sizeofT` from its start. -/
def isSlotOf (sizeofT : Nat) (s : CUtlMemoryPool) (a p : Int) : Bool :=
  match s.blobs a with
  | some blob =>
    decide (blob.m_Data ≤ p ∧ p < blob.m_Data + blob.m_NumBytes ∧ (p - blob.m_Data) % sizeofT = 0)
  | none => false

/-- Byte length of the blob whose header is at `a`. -/
def numBytesAt (s : CUtlMemoryPool) (a : Int) : Int :=
  match s.blobs a with
  | some blob => blob.m_NumBytes
  | none => 0

/-- Fuel that lets every loop of the pool finish on a state with free list `fl` and blob
list `bl`: no loop makes more steps than this. -/
def fuelBound (s : CUtlMemoryPool) (fl bl : List Int) : Nat :=
  fl.length + bl.length + (bl.map fun a => (numBytesAt s a).toNat).sum

/-- The first `n` addresses reachable from `p` through the first word of each block, stopping
at null: the sequence of addresses on the free list from `p`, cut off after `n` entries. -/
def reach (mem : Int → Int) : Nat → Int → List Int
  | 0, _ => []
  | n + 1, p => if p = 0 then [] else p :: reach mem n (mem p)

/-- Number of blocks of the blob whose header is at `a`: `byteLength / blockSize`. -/
def blocksIn (s : CUtlMemoryPool) (a : Int) : Int := numBytesAt s a / s.m_BlockSize

/-- Total number of blocks contained in the blobs `bl`. -/
def totalBlocks (s : CUtlMemoryPool) (bl : List Int) : Int := (bl.map (blocksIn s)).sum

/-- The counter equation for a pool with free list `fl` and blob list `bl`: `blocksAllocated`
is the number of blocks in the blobs minus the number of blocks on the free list. -/
def CountInv (s : CUtlMemoryPool) (fl bl : List Int) : Prop :=
  s.m_BlocksAllocated = totalBlocks s bl - fl.length

instance (s : CUtlMemoryPool) (fl bl : List Int) : Decidable (CountInv s fl bl) :=
  inferInstanceAs (Decidable (s.m_BlocksAllocated = totalBlocks s bl - fl.length))

/-- The sentinel's `m_pPrev` points to the last blob of the list `bl`, to the sentinel itself
when the list is empty. -/
def PrevOk (s : CUtlMemoryPool) (bl : List Int) : Prop :=
  s.m_BlobHead.m_pPrev = bl.getLastD s.pBlobHead

instance (s : CUtlMemoryPool) (bl : List Int) : Decidable (PrevOk s bl) :=
  inferInstanceAs (Decidable (s.m_BlobHead.m_pPrev = bl.getLastD s.pBlobHead))

/-- The invariant of the raw pool: the free list is a finite null-terminated chain, the blob
list a finite circular list through the sentinel, and `blocksAllocated` equals the number of
blocks in all blobs minus the number of blocks reachable from the free-list head. -/
def PoolInvariant (s : CUtlMemoryPool) : Prop :=
  ∃ fl bl, IsFreeChain s.mem s.m_pHeadOfFreeList fl ∧ BlobList s bl ∧ PrevOk s bl ∧
    CountInv s fl bl

/-- The addresses of `n` back-to-back blocks of `blockSize` bytes starting at `p`. -/
def blockList (blockSize : Int) : Nat → Int → List Int
  | 0, _ => []
  | n + 1, p => p :: blockList blockSize n (p + blockSize)

/-- A call made on the raw pool.  An allocation carries the addresses that the heap hands out
for a new blob header and its data area, should the pool grow. -/
inductive Op where
  | alloc (pBlob pData : Int)
  | free (memBlock : Int)
  | clear
deriving DecidableEq, Repr

/-- Is the call an allocation. -/
def Op.isAlloc : Op → Bool
  | .alloc _ _ => true
  | _ => false

/-- Is the call a `Free`. -/
def Op.isFree : Op → Bool
  | .free _ => true
  | _ => false

/-- Is the call a `Free` of a block, that is, of a non-null pointer. -/
def Op.freesBlock : Op → Bool
  | .free memBlock => decide (memBlock ≠ 0)
  | _ => false

/-- One call on the raw pool: the pointer it returns (null for `Free` and `Clear`) and the
state it leaves. -/
def step (debug : Bool) (fuel : Nat) (s : CUtlMemoryPool) : Op → Except Fault (Int × CUtlMemoryPool)
  | .alloc pBlob pData => .ok (CUtlMemoryPool.Alloc pBlob pData s)
  | .free memBlock =>
    match CUtlMemoryPool.Free debug fuel s memBlock with
    | .error e => .error e
    | .ok s1 => .ok (0, s1)
  | .clear =>
    match CUtlMemoryPool.Clear fuel s with
    | .error e => .error e
    | .ok (_, s1) => .ok (0, s1)

/-- A sequence of calls on the raw pool, run in order. -/
def runOps (debug : Bool) (fuel : Nat) : List Op → CUtlMemoryPool → Except Fault CUtlMemoryPool
  | [], s => .ok s
  | op :: ops, s =>
    match step debug fuel s op with
    | .error e => .error e
    | .ok (_, s1) => runOps debug fuel ops s1

/-- The sequence `ops`, run from `s` with `live` the blocks handed out and not yet freed, is a
sequence of allocate and `Free` calls in which every allocate returns a block (the pool is
never asked for more than it can give) and every `Free` returns and is given null or a block
that is live at that time (no block is freed twice). -/
def admissible (debug : Bool) (fuel : Nat) : List Op → CUtlMemoryPool → List Int → Bool
  | [], _, _ => true
  | .alloc pBlob pData :: ops, s, live =>
    decide ((CUtlMemoryPool.Alloc pBlob pData s).1 ≠ 0) &&
      admissible debug fuel ops (CUtlMemoryPool.Alloc pBlob pData s).2
        ((CUtlMemoryPool.Alloc pBlob pData s).1 :: live)
  | .free memBlock :: ops, s, live =>
    (decide (memBlock = 0) || decide (memBlock ∈ live)) &&
      match CUtlMemoryPool.Free debug fuel s memBlock with
      | .error _ => false
      | .ok s1 => admissible debug fuel ops s1 (live.erase memBlock)
  | .clear :: _, _, _ => false

/-- Is the call a destructor call. -/
def Event.isDestruct : Event → Bool
  | .destruct _ => true
  | _ => false

/-- Address of the data area of the blob whose header is at `a`. -/
def dataAt (s : CUtlMemoryPool) (a : Int) : Int :=
  match s.blobs a with
  | some blob => blob.m_Data
  | none => 0

/-- The blocks of the blob whose header is at `a`, for elements of `sizeofT` bytes laid out
from the start of the data area: the addresses `data + k * sizeofT` for
`k < byteLength / sizeofT`. -/
def slotsOf (sizeofT : Nat) (s : CUtlMemoryPool) (a : Int) : List Int :=
  blockList sizeofT (numBytesAt s a / sizeofT).toNat (dataAt s a)

/-- Modelled from the spec: the blocks of the blob whose header is at `a`, "a blob's data
region is subdivided into `byteLength / blockSize` blocks, laid out back-to-back with alignment
padding computed once at blob-creation time": `byteLength / blockSize` addresses, `blockSize`
apart, from the data address rounded up to the alignment.  These are the addresses that
`AddNewBlob` threads onto the free list. -/
def blobBlocks (s : CUtlMemoryPool) (a : Int) : List Int :=
  blockList s.m_BlockSize (numBytesAt s a / s.m_BlockSize).toNat
    (CUtlMemoryPool.alignUp (dataAt s a) s.m_nAlignment)

/-- An upper bound of `sizeof(void*)` on the targets of the SDK: 8 on 64-bit targets, where
it is the size of a pointer, and twice that size on 32-bit ones. -/
def maxPtrSize : Int := 8

/-- The pointer-sized words at `a` and at `c` share no byte, on any target: the two addresses
are at least `maxPtrSize` bytes apart.  A store to one of the words then leaves the other as
it is. -/
def WordsApart (a c : Int) : Prop := a + maxPtrSize ≤ c ∨ c + maxPtrSize ≤ a

instance (a c : Int) : Decidable (WordsApart a c) :=
  inferInstanceAs (Decidable (a + maxPtrSize ≤ c ∨ c + maxPtrSize ≤ a))

/-- Every address of `l` is a block of one of the blobs `bl`. -/
def BlocksOf (s : CUtlMemoryPool) (bl l : List Int) : Prop :=
  ∀ c ∈ l, ∃ a ∈ bl, c ∈ blobBlocks s a

instance (s : CUtlMemoryPool) (bl l : List Int) : Decidable (BlocksOf s bl l) :=
  inferInstanceAs (Decidable (∀ c ∈ l, ∃ a ∈ bl, c ∈ blobBlocks s a))

/-- Blocks of different blobs of `bl` do not overlap: the blobs are distinct regions of the
heap. -/
def BlobsApart (s : CUtlMemoryPool) (bl : List Int) : Prop :=
  ∀ a ∈ bl, ∀ b ∈ bl, a ≠ b → ∀ x ∈ blobBlocks s a, ∀ y ∈ blobBlocks s b,
    x + s.m_BlockSize ≤ y ∨ y + s.m_BlockSize ≤ x

instance (s : CUtlMemoryPool) (bl : List Int) : Decidable (BlobsApart s bl) :=
  inferInstanceAs (Decidable (∀ a ∈ bl, ∀ b ∈ bl, a ≠ b → ∀ x ∈ blobBlocks s a,
    ∀ y ∈ blobBlocks s b, x + s.m_BlockSize ≤ y ∨ y + s.m_BlockSize ≤ x))

/-- Number of elements that the growth policy of `s` gives to the blob of index `k`
(0-indexed): `blocksPerBlob * (k+1)` for `GROW_FAST`, `blocksPerBlob` otherwise. -/
def blobElements (s : CUtlMemoryPool) (k : Nat) : Int :=
  if s.m_GrowMode = CUtlMemoryPool.GROW_FAST then s.m_BlocksPerBlob * (k + 1)
  else s.m_BlocksPerBlob

/-- The blobs `bl` of `s` are sized per growth policy: there are `m_NumBlobs` of them and the
one of index `k` has `m_BlockSize * blobElements s k` bytes. -/
def SizedBlobs (s : CUtlMemoryPool) (bl : List Int) : Prop :=
  s.m_NumBlobs = bl.length ∧
    bl.map (numBytesAt s) = (List.range bl.length).map fun k => s.m_BlockSize * blobElements s k

/-- What a run of pool operations started from `s0` keeps true of the state `s` it reaches,
`bl` being the blob list of `s`: the blob list is well formed, its blobs are sized per growth
policy, and block size, element count and growth mode are those of `s0`. -/
def GrowthInv (s0 s : CUtlMemoryPool) (bl : List Int) : Prop :=
  BlobList s bl ∧ PrevOk s bl ∧ SizedBlobs s bl ∧ s.m_BlockSize = s0.m_BlockSize ∧
    s.m_BlocksPerBlob = s0.m_BlocksPerBlob ∧ s.m_GrowMode = s0.m_GrowMode

/-- The true capacity in bytes of a pool with blob list `bl`: the sum of `byteLength` over
all blobs. -/
def capacity (s : CUtlMemoryPool) (bl : List Int) : Int := (bl.map (numBytesAt s)).sum

/-- The run of `ops` from `s` hands every allocation a header address that is not in use:
no header is allocated there and it is not the sentinel. -/
def freshRun (debug : Bool) (fuel : Nat) : List Op → CUtlMemoryPool → Bool
  | [], _ => true
  | .alloc pBlob pData :: ops, s =>
    (s.blobs pBlob).isNone && decide (pBlob ≠ s.pBlobHead) &&
      freshRun debug fuel ops (CUtlMemoryPool.Alloc pBlob pData s).2
  | .free memBlock :: ops, s =>
    match CUtlMemoryPool.Free debug fuel s memBlock with
    | .error _ => true
    | .ok s1 => freshRun debug fuel ops s1
  | .clear :: ops, s =>
    match CUtlMemoryPool.Clear fuel s with
    | .error _ => true
    | .ok (_, s1) => freshRun debug fuel ops s1

/-! ## `PackedEntity` (engine/packed_entity.h)

The packed data buffer and the change-frame list are collaborators: `free(m_pData)` and
`m_pChangeFrameList->Release()` are recorded as events. -/

/-- Calls a `PackedEntity` makes to its collaborators. -/
inductive PackedEvent where
  /-- The heap release `free(m_pData)` of the packed data buffer at `p`. -/
  | freeData (p : Int)
  /-- The call `m_pChangeFrameList->Release()` on the list at `p`. -/
  | releaseList (p : Int)
deriving DecidableEq, Repr

/-- Is the call a release of the data buffer. -/
def PackedEvent.isFreeData : PackedEvent → Bool
  | .freeData _ => true
  | _ => false

/-- Is the call a release of the change-frame list. -/
def PackedEvent.isReleaseList : PackedEvent → Bool
  | .releaseList _ => true
  | _ => false

/-- The members of `PackedEntity` that its constructor, its destructor and `FreeData` read or
write. -/
structure PackedEntity where
  m_pData : Int
  m_pChangeFrameList : Int
  m_nSnapshotCreationTick : Nat
  m_nShouldCheckCreationTick : Nat
deriving DecidableEq, Repr

namespace PackedEntity

/-- The constructor `PackedEntity()`. -/
def construct : PackedEntity :=
  { m_pData := 0
    m_pChangeFrameList := 0
    m_nSnapshotCreationTick := 0
    m_nShouldCheckCreationTick := 0 }

/-- `void FreeData()`: the calls it makes and the entity it leaves. -/
def FreeData (e : PackedEntity) : List PackedEvent × PackedEntity :=
  if e.m_pData ≠ 0 then ([PackedEvent.freeData e.m_pData], { e with m_pData := 0 })
  else ([], e)

/-- The destructor `~PackedEntity()`: the calls it makes and the entity it leaves. -/
def destroy (e : PackedEntity) : List PackedEvent × PackedEntity :=
  let r := FreeData e
  if r.2.m_pChangeFrameList ≠ 0 then
    (r.1 ++ [PackedEvent.releaseList r.2.m_pChangeFrameList],
      { r.2 with m_pChangeFrameList := 0 })
  else r

/-- `n` successive calls of `FreeData()`. -/
def freeDataTimes : Nat → PackedEntity → List PackedEvent × PackedEntity
  | 0, e => ([], e)
  | n + 1, e => ((FreeData e).1 ++ (freeDataTimes n (FreeData e).2).1,
      (freeDataTimes n (FreeData e).2).2)

/-- `n` successive calls of `FreeData()` followed by the destructor. -/
def lifetime (n : Nat) (e : PackedEntity) : List PackedEvent × PackedEntity :=
  ((freeDataTimes n e).1 ++ (destroy (freeDataTimes n e).2).1, (destroy (freeDataTimes n e).2).2)

end PackedEntity

/-! ## A concrete pool

A `GROW_SLOW` pool of 8-byte blocks, two per blob, with its sentinel at address 1000 and two
blobs: the header at 2000 holds the blocks 2020 and 2028, the header at 3000 the blocks 3020
and 3028.  The blocks 2020, 2028 and 3020 are live; 3028 is the only block on the free
list. -/

/-- Blob headers of `exPool`. -/
def exBlobs : Int → Option CBlob := fun a =>
  if a = 2000 then some { m_pPrev := 1000, m_pNext := 3000, m_NumBytes := 16, m_Data := 2020 }
  else if a = 3000 then some { m_pPrev := 2000, m_pNext := 1000, m_NumBytes := 16, m_Data := 3020 }
  else none

/-- Block memory of `exPool`: the live blocks hold the words 11, 22 and 33. -/
def exMem : Int → Int := fun a =>
  if a = 2020 then 11 else if a = 2028 then 22 else if a = 3020 then 33 else 0

/-- The concrete pool described above. -/
def exPool : CUtlMemoryPool :=
  { m_BlockSize := 8
    m_BlocksPerBlob := 2
    m_GrowMode := CUtlMemoryPool.GROW_SLOW
    m_pHeadOfFreeList := 3028
    m_BlocksAllocated := 3
    m_PeakAlloc := 3
    m_nAlignment := 0
    m_NumBlobs := 2
    m_BlobHead := { m_pPrev := 3000, m_pNext := 2000, m_NumBytes := 0, m_Data := 0 }
    pBlobHead := 1000
    blobs := exBlobs
    mem := exMem }

/-- A freshly constructed `GROW_SLOW` pool of 8-byte blocks, two per blob, on a target with
8-byte pointers: the sentinel is at address 1000 and memory is all zero. -/
def exFresh : CUtlMemoryPool :=
  { m_BlockSize := 8
    m_BlocksPerBlob := 2
    m_GrowMode := CUtlMemoryPool.GROW_SLOW
    m_pHeadOfFreeList := 0
    m_BlocksAllocated := 0
    m_PeakAlloc := 0
    m_nAlignment := 0
    m_NumBlobs := 0
    m_BlobHead := { m_pPrev := 1000, m_pNext := 1000, m_NumBytes := 0, m_Data := 0 }
    pBlobHead := 1000
    blobs := fun _ => none
    mem := fun _ => 0 }

/-- A freshly constructed `GROW_FAST` pool of 8-byte blocks with element count 1. -/
def exFastFresh : CUtlMemoryPool :=
  { exFresh with m_BlocksPerBlob := 1, m_GrowMode := CUtlMemoryPool.GROW_FAST }

/-- Four allocations on `exFastFresh`; the first, the second and the fourth grow the pool by
the blobs with headers at 2000, 3000 and 4000. -/
def exFastOps : List Op :=
  [.alloc 2000 2020, .alloc 3000 3020, .alloc 0 0, .alloc 4000 4020]

/-- A freshly constructed `GROW_SLOW` pool with element count 2 and alignment 16, for
elements of 24 or of 32 bytes: either size is rounded to a block size of 32. -/
def exAlignedFresh : CUtlMemoryPool :=
  { exFresh with m_BlockSize := 32, m_nAlignment := 16 }

/-- The pool `exAlignedFresh` after two allocations.  The heap places the header of the
first blob at 2000 and its 64-byte data area at 2020, which is not a multiple of 16; the blocks
are 2032 and 2064, and both are live. -/
def exAligned : CUtlMemoryPool :=
  (CUtlMemoryPool.Alloc 0 0 (CUtlMemoryPool.Alloc 2000 2020 exAlignedFresh).2).2

/-- A sequence of calls on `exFresh`: three allocations, the first and the third of which
grow the pool by a blob (headers at 2000 and 3000), then `Free(2020)`, `Free(null)`, an
allocation that reuses 2020, and `Free(2028)`. -/
def exOps : List Op :=
  [.alloc 2000 2020, .alloc 0 0, .alloc 3000 3020, .free 2020, .free 0, .alloc 0 0, .free 2028]

/-! ## Loops on well-formed lists -/

theorem isPath_unique {next : Int → Option Int} {stop : Int} :
    ∀ {l₁ l₂ : List Int} {p : Int}, IsPath next stop p l₁ → IsPath next stop p l₂ → l₁ = l₂
  | [], [], _, _, _ => rfl
  | [], _ :: _, _, h₁, h₂ => by
    simp only [IsPath] at h₁ h₂
    exact absurd (h₂.1 ▸ h₁) h₂.2.1
  | _ :: _, [], _, h₁, h₂ => by
    simp only [IsPath] at h₁ h₂
    exact absurd (h₁.1 ▸ h₂) h₁.2.1
  | a :: l₁, b :: l₂, p, h₁, h₂ => by
    simp only [IsPath] at h₁ h₂
    obtain ⟨rfl, -, h₁⟩ := h₁
    obtain ⟨rfl, -, h₂⟩ := h₂
    cases hn : next p with
    | none => rw [hn] at h₁; exact h₁.elim
    | some q =>
      rw [hn] at h₁ h₂
      rw [isPath_unique h₁ h₂]

theorem isPath_of_mem {next : Int → Option Int} {stop : Int} :
    ∀ {l : List Int} {p a : Int}, IsPath next stop p l → a ∈ l →
      ∃ l₁, IsPath next stop a l₁ ∧ l₁.length ≤ l.length
  | [], _, _, _, ha => by simp at ha
  | b :: l, p, a, h, ha => by
    rcases List.mem_cons.1 ha with rfl | ha
    · have hp : p = a := by simp only [IsPath] at h; exact h.1
      exact ⟨a :: l, hp ▸ h, le_rfl⟩
    · simp only [IsPath] at h
      obtain ⟨-, -, h⟩ := h
      cases hn : next b with
      | none => rw [hn] at h; exact h.elim
      | some q =>
        rw [hn] at h
        obtain ⟨l₁, h₁, hlen⟩ := isPath_of_mem h ha
        exact ⟨l₁, h₁, by simp only [List.length_cons]; omega⟩

theorem isPath_nodup {next : Int → Option Int} {stop : Int} :
    ∀ {l : List Int} {p : Int}, IsPath next stop p l → l.Nodup
  | [], _, _ => List.nodup_nil
  | a :: l, p, h => by
    have h0 := h
    simp only [IsPath] at h
    obtain ⟨rfl, -, h⟩ := h
    cases hn : next p with
    | none => rw [hn] at h; exact h.elim
    | some q =>
      rw [hn] at h
      refine List.nodup_cons.2 ⟨fun hmem => ?_, isPath_nodup h⟩
      obtain ⟨l₁, h₁, hlen⟩ := isPath_of_mem h hmem
      have := isPath_unique h₁ h0
      subst this
      simp at hlen

theorem isPath_ne_stop {next : Int → Option Int} {stop : Int} :
    ∀ {l : List Int} {p a : Int}, IsPath next stop p l → a ∈ l → a ≠ stop
  | [], _, _, _, ha => by simp at ha
  | b :: l, p, a, h, ha => by
    simp only [IsPath] at h
    rcases List.mem_cons.1 ha with rfl | ha
    · exact h.2.1
    · cases hn : next b with
      | none => rw [hn] at h; exact h.2.2.elim
      | some q =>
        rw [hn] at h
        exact isPath_ne_stop h.2.2 ha

theorem isPath_congr {next next₁ : Int → Option Int} {stop : Int} :
    ∀ {l : List Int} {p : Int}, (∀ a ∈ l, next₁ a = next a) → IsPath next stop p l →
      IsPath next₁ stop p l
  | [], _, _, h => h
  | a :: l, p, hn, h => by
    simp only [IsPath] at h ⊢
    refine ⟨h.1, h.2.1, ?_⟩
    rw [hn a (List.mem_cons_self _ _)]
    cases hq : next a with
    | none => rw [hq] at h; exact h.2.2.elim
    | some q =>
      rw [hq] at h
      exact isPath_congr (fun x hx => hn x (List.mem_cons_of_mem _ hx)) h.2.2

theorem isBlobPath_cons {heap : Int → Option CBlob} {hd p a : Int} {l : List Int} :
    IsBlobPath heap hd p (a :: l) ↔
      p = a ∧ a ≠ hd ∧ ∃ blob, heap a = some blob ∧ IsBlobPath heap hd blob.m_pNext l := by
  unfold IsBlobPath
  simp only [IsPath]
  cases h : heap a with
  | none => simp
  | some blob => simp

theorem isFreeChain_cons {mem : Int → Int} {p a : Int} {l : List Int} :
    IsFreeChain mem p (a :: l) ↔ p = a ∧ a ≠ 0 ∧ IsFreeChain mem (mem a) l := by
  unfold IsFreeChain
  simp only [IsPath]

theorem isFreeChain_nil {mem : Int → Int} {p : Int} : IsFreeChain mem p [] ↔ p = 0 := by
  unfold IsFreeChain
  simp only [IsPath]

theorem isBlobPath_nil {heap : Int → Option CBlob} {hd p : Int} :
    IsBlobPath heap hd p [] ↔ p = hd := by
  unfold IsBlobPath
  simp only [IsPath]

theorem collectFree_eq {mem : Int → Int} :
    ∀ {l : List Int} {fuel : Nat} {p : Int} (acc : List Int), IsFreeChain mem p l →
      l.length ≤ fuel → CClassMemoryPoolExt.collectFree mem fuel p acc = .ok (acc ++ l)
  | [], fuel, p, acc, h, _ => by
    rw [isFreeChain_nil] at h
    subst h
    cases fuel <;> simp [CClassMemoryPoolExt.collectFree]
  | a :: l, 0, _, _, _, hf => by simp at hf
  | a :: l, fuel + 1, p, acc, h, hf => by
    rw [isFreeChain_cons] at h
    obtain ⟨rfl, hp, h⟩ := h
    have hf1 : l.length ≤ fuel := by simpa using hf
    simp only [CClassMemoryPoolExt.collectFree, ne_eq, hp, not_false_eq_true, if_true]
    rw [collectFree_eq _ h hf1]
    simp [CClassMemoryPoolExt.Insert]

theorem rangeScan_eq (s : CUtlMemoryPool) (b : Int) :
    ∀ {l : List Int} {fuel : Nat} {p : Int} (acc : Bool),
      IsBlobPath s.blobs s.pBlobHead p l → l.length ≤ fuel →
      CUtlMemoryPool.rangeScan s b fuel p acc = .ok (acc || l.any fun a => inBlob s a b)
  | [], fuel, p, acc, h, _ => by
    rw [isBlobPath_nil] at h
    subst h
    cases fuel <;> simp [CUtlMemoryPool.rangeScan]
  | a :: l, 0, _, _, _, hf => by simp at hf
  | a :: l, fuel + 1, p, acc, h, hf => by
    rw [isBlobPath_cons] at h
    obtain ⟨rfl, hp, blob, hb, h⟩ := h
    have hf1 : l.length ≤ fuel := by simpa using hf
    simp only [CUtlMemoryPool.rangeScan, ne_eq, hp, not_false_eq_true, if_true, hb]
    rw [rangeScan_eq s b _ h hf1]
    simp only [List.any_cons, inBlob, hb]
    by_cases hin : blob.m_Data ≤ b ∧ b < blob.m_Data + blob.m_NumBytes
    · simp [hin]
    · simp [hin]

theorem releaseBlobs_eq (hd : Int) :
    ∀ {l : List Int} {fuel : Nat} {p : Int} (heap : Int → Option CBlob) (ev : List Event),
      IsBlobPath heap hd p l → l.length ≤ fuel →
      CUtlMemoryPool.releaseBlobs hd fuel p heap ev =
        .ok (ev ++ l.map Event.release, fun a => if a ∈ l then none else heap a)
  | [], fuel, p, heap, ev, h, _ => by
    rw [isBlobPath_nil] at h
    subst h
    cases fuel <;> simp [CUtlMemoryPool.releaseBlobs]
  | a :: l, 0, _, _, _, _, hf => by simp at hf
  | a :: l, fuel + 1, p, heap, ev, h, hf => by
    have hnd : (a :: l).Nodup := isPath_nodup h
    rw [isBlobPath_cons] at h
    obtain ⟨rfl, hp, blob, hb, h⟩ := h
    have hf1 : l.length ≤ fuel := by simpa using hf
    have hnot : p ∉ l := (List.nodup_cons.1 hnd).1
    have h1 : IsBlobPath (Function.update heap p none) hd blob.m_pNext l := by
      refine isPath_congr (fun x hx => ?_) h
      have : x ≠ p := fun hxp => hnot (hxp ▸ hx)
      simp [Function.update_noteq this]
    simp only [CUtlMemoryPool.releaseBlobs, ne_eq, hp, not_false_eq_true, if_true, hb]
    rw [releaseBlobs_eq hd _ _ h1 hf1]
    simp only [List.map_cons, List.append_assoc, List.singleton_append, List.mem_cons]
    congr 2
    funext x
    by_cases hx : x = p
    · subst hx
      simp [hnot]
    · simp [hx, Function.update_noteq hx]

theorem slot_step (sz : Nat) (p q : Int) (hne : q ≠ p) :
    (p + sz ≤ q ∧ (q - (p + sz)) % sz = 0) ↔ (p ≤ q ∧ (q - p) % sz = 0) := by
  have e : (q - (p + sz)) % (sz : Int) = (q - p) % sz := by
    rw [show q - (p + sz) = (q - p) - sz by ring, Int.emod_sub_cancel]
  rw [e]
  constructor
  · rintro ⟨h1, h2⟩
    exact ⟨by omega, h2⟩
  · rintro ⟨h1, h2⟩
    refine ⟨?_, h2⟩
    have hd : (sz : Int) ∣ q - p := Int.dvd_of_emod_eq_zero h2
    have hpos : 0 < q - p := by omega
    have := Int.le_of_dvd hpos hd
    omega

theorem destructSlots_spec (sz : Nat) (hsz : 0 < sz) (free : List Int) (pLimit : Int) :
    ∀ (fuel : Nat) (p : Int) (ev : List Event), (pLimit - p).toNat ≤ fuel →
      ∃ ev1, CClassMemoryPoolExt.destructSlots sz free pLimit fuel p ev = .ok (ev ++ ev1) ∧
        (∀ e ∈ ev1, ∃ q, e = Event.destruct q) ∧
        ∀ q, ev1.count (Event.destruct q) =
          if p ≤ q ∧ q < pLimit ∧ (q - p) % sz = 0 ∧ q ∉ free then 1 else 0
  | 0, p, ev, hf => by
    have hp : ¬ p < pLimit := by omega
    refine ⟨[], by simp [CClassMemoryPoolExt.destructSlots, hp], by simp, fun q => ?_⟩
    have : ¬ (p ≤ q ∧ q < pLimit ∧ (q - p) % sz = 0 ∧ q ∉ free) := fun h => hp (by omega)
    rw [if_neg this, List.count_nil]
  | fuel + 1, p, ev, hf => by
    by_cases hp : p < pLimit
    · have hf1 : (pLimit - (p + sz)).toNat ≤ fuel := by omega
      obtain ⟨ev2, hrun, hall, hcount⟩ :=
        destructSlots_spec sz hsz free pLimit fuel (p + sz)
          (if CClassMemoryPoolExt.notFound free p then ev ++ [Event.destruct p] else ev) hf1
      simp only [CClassMemoryPoolExt.destructSlots, hp, if_true]
      by_cases hfr : p ∈ free
      · have hnf : CClassMemoryPoolExt.notFound free p = false := by
          simp [CClassMemoryPoolExt.notFound, hfr]
        rw [hnf] at hrun
        refine ⟨ev2, by simpa [hnf] using hrun, hall, fun q => ?_⟩
        rw [hcount q]
        by_cases hq : q = p
        · subst hq
          have h1 : ¬ (q + (sz : Int) ≤ q ∧ q < pLimit ∧ (q - (q + sz)) % sz = 0 ∧ q ∉ free) :=
            fun h => h.2.2.2 hfr
          have h2 : ¬ (q ≤ q ∧ q < pLimit ∧ (q - q) % (sz : Int) = 0 ∧ q ∉ free) :=
            fun h => h.2.2.2 hfr
          simp only [h1, h2, if_false]
        · have := slot_step sz p q hq
          have hiff : (p + (sz : Int) ≤ q ∧ q < pLimit ∧ (q - (p + sz)) % sz = 0 ∧ q ∉ free) ↔
              (p ≤ q ∧ q < pLimit ∧ (q - p) % sz = 0 ∧ q ∉ free) := by tauto
          simp only [hiff]
      · have hnf : CClassMemoryPoolExt.notFound free p = true := by
          simp [CClassMemoryPoolExt.notFound, hfr]
        rw [hnf] at hrun
        refine ⟨Event.destruct p :: ev2, by simpa [hnf] using hrun, ?_, fun q => ?_⟩
        · intro e he
          rcases List.mem_cons.1 he with rfl | he
          · exact ⟨p, rfl⟩
          · exact hall e he
        · rw [List.count_cons, hcount q]
          by_cases hq : q = p
          · subst hq
            have h1 : ¬ (q + (sz : Int) ≤ q ∧ q < pLimit ∧ (q - (q + sz)) % sz = 0 ∧ q ∉ free) :=
              fun h => by omega
            have h2 : (q ≤ q ∧ q < pLimit ∧ (q - q) % (sz : Int) = 0 ∧ q ∉ free) :=
              ⟨le_rfl, hp, by simp, hfr⟩
            rw [if_neg h1, if_pos h2]
            simp
          · have := slot_step sz p q hq
            have hiff : (p + (sz : Int) ≤ q ∧ q < pLimit ∧ (q - (p + sz)) % sz = 0 ∧ q ∉ free) ↔
                (p ≤ q ∧ q < pLimit ∧ (q - p) % sz = 0 ∧ q ∉ free) := by tauto
            have hne : (Event.destruct p == Event.destruct q) = false := by
              simpa using fun h : p = q => hq h.symm
            rw [hne]
            simp only [hiff, Bool.false_eq_true, if_false, add_zero]
    · refine ⟨[], by simp [CClassMemoryPoolExt.destructSlots, hp], by simp, fun q => ?_⟩
      have : ¬ (p ≤ q ∧ q < pLimit ∧ (q - p) % sz = 0 ∧ q ∉ free) := fun h => hp (by omega)
      rw [if_neg this, List.count_nil]

theorem destructBlobs_spec (s : CUtlMemoryPool) (sz : Nat) (hsz : 0 < sz) (free : List Int)
    (slotFuel : Nat) :
    ∀ {l : List Int} {fuel : Nat} {p : Int} (ev : List Event),
      IsBlobPath s.blobs s.pBlobHead p l → l.length ≤ fuel →
      (∀ a ∈ l, (numBytesAt s a).toNat ≤ slotFuel) →
      ∃ ev1, CClassMemoryPoolExt.destructBlobs s sz free slotFuel fuel p ev = .ok (ev ++ ev1) ∧
        (∀ e ∈ ev1, ∃ q, e = Event.destruct q) ∧
        ∀ q, ev1.count (Event.destruct q) =
          if q ∈ free then 0 else l.countP fun a => isSlotOf sz s a q
  | [], fuel, p, ev, h, _, _ => by
    rw [isBlobPath_nil] at h
    subst h
    refine ⟨[], ?_, by simp, fun q => by simp⟩
    cases fuel <;> simp [CClassMemoryPoolExt.destructBlobs]
  | a :: l, 0, _, _, _, hf, _ => by simp at hf
  | a :: l, fuel + 1, p, ev, h, hf, hs => by
    rw [isBlobPath_cons] at h
    obtain ⟨rfl, hp, blob, hb, h⟩ := h
    have hf1 : l.length ≤ fuel := by simpa using hf
    have hnb : (blob.m_Data + blob.m_NumBytes - blob.m_Data).toNat ≤ slotFuel := by
      have := hs p (List.mem_cons_self _ _)
      simp only [numBytesAt, hb] at this
      simpa using this
    obtain ⟨ev1, hrun1, hall1, hcount1⟩ :=
      destructSlots_spec sz hsz free (blob.m_Data + blob.m_NumBytes) slotFuel blob.m_Data ev hnb
    obtain ⟨ev2, hrun2, hall2, hcount2⟩ :=
      destructBlobs_spec s sz hsz free slotFuel (ev ++ ev1) h hf1
        (fun x hx => hs x (List.mem_cons_of_mem _ hx))
    refine ⟨ev1 ++ ev2, ?_, ?_, fun q => ?_⟩
    · simp only [CClassMemoryPoolExt.destructBlobs, ne_eq, hp, not_false_eq_true, if_true, hb,
        hrun1, hrun2, List.append_assoc]
    · intro e he
      rcases List.mem_append.1 he with he | he
      · exact hall1 e he
      · exact hall2 e he
    · rw [List.count_append, hcount1 q, hcount2 q, List.countP_cons]
      by_cases hfr : q ∈ free
      · simp [hfr]
      · simp only [hfr, not_false_eq_true, and_true, if_false, isSlotOf, hb]
        by_cases hsl : blob.m_Data ≤ q ∧ q < blob.m_Data + blob.m_NumBytes ∧
            (q - blob.m_Data) % (sz : Int) = 0
        · rw [if_pos hsl, decide_eq_true hsl]
          simp only [if_true]
          omega
        · rw [if_neg hsl, decide_eq_false hsl]
          simp

theorem countP_eq_one_of_unique {α : Type} (f : α → Bool) :
    ∀ {l : List α} {a : α}, l.Nodup → a ∈ l → f a = true →
      (∀ x ∈ l, f x = true → x = a) → l.countP f = 1
  | [], _, _, ha, _, _ => by simp at ha
  | b :: l, a, hnd, ha, hfa, huniq => by
    obtain ⟨hb, hnd1⟩ := List.nodup_cons.1 hnd
    rw [List.countP_cons]
    rcases List.mem_cons.1 ha with rfl | hal
    · have hz : l.countP f = 0 := by
        rw [List.countP_eq_zero]
        intro x hx hfx
        exact hb (huniq x (List.mem_cons_of_mem _ hx) hfx ▸ hx)
      simp [hz, hfa]
    · have hfb : f b ≠ true := fun h =>
        hb (huniq b (List.mem_cons_self _ _) h ▸ hal)
      rw [countP_eq_one_of_unique f hnd1 hal hfa
        (fun x hx => huniq x (List.mem_cons_of_mem _ hx))]
      simp [hfb]

theorem rawClear_eq {s : CUtlMemoryPool} {bl : List Int} {fuel : Nat} (hbl : BlobList s bl)
    (hfuel : bl.length ≤ fuel) :
    CUtlMemoryPool.Clear fuel s =
      .ok (bl.map Event.release,
        CUtlMemoryPool.Init { s with blobs := fun a => if a ∈ bl then none else s.blobs a }) := by
  unfold CUtlMemoryPool.Clear
  rw [releaseBlobs_eq s.pBlobHead s.blobs [] hbl hfuel]
  simp

theorem free_debug_eq {s : CUtlMemoryPool} {bl : List Int} {fuel : Nat} {b : Int}
    (hbl : BlobList s bl) (hfuel : bl.length ≤ fuel) (hb : b ≠ 0) :
    CUtlMemoryPool.Free true fuel s b =
      if (bl.any fun a => inBlob s a b) = true then
        .ok (CUtlMemoryPool.pushFree
          { s with mem := CUtlMemoryPool.memsetDD s.mem b s.m_BlockSize } b)
      else .error .assertion := by
  unfold CUtlMemoryPool.Free
  simp only [hb, if_false, if_true]
  rw [rangeScan_eq s b false hbl hfuel]
  cases bl.any fun a => inBlob s a b <;> simp

theorem free_release_eq (fuel : Nat) (s : CUtlMemoryPool) {b : Int} (hb : b ≠ 0) :
    CUtlMemoryPool.Free false fuel s b = .ok (CUtlMemoryPool.pushFree s b) := by
  simp [CUtlMemoryPool.Free, hb]

theorem fuelBound_free_le (s : CUtlMemoryPool) (fl bl : List Int) :
    fl.length ≤ fuelBound s fl bl := by
  unfold fuelBound
  omega

theorem fuelBound_blob_le (s : CUtlMemoryPool) (fl bl : List Int) :
    bl.length ≤ fuelBound s fl bl := by
  unfold fuelBound
  omega

theorem fuelBound_slot_le (s : CUtlMemoryPool) (fl bl : List Int) :
    ∀ a ∈ bl, (numBytesAt s a).toNat ≤ fuelBound s fl bl := by
  intro a ha
  have := List.single_le_sum (l := bl.map fun a => (numBytesAt s a).toNat)
    (fun x _ => Nat.zero_le x) _ (List.mem_map_of_mem _ ha)
  unfold fuelBound
  omega

/-! ## C1: typed `Clear` destructs exactly the slots that are not on the free list -/

/-- C1. On a typed pool whose free list is the finite null-terminated chain `fl` (and whose
blob list is the circular list `bl`), typed `Clear()` returns once it has enough fuel; the calls
it makes are destructor calls `evD` followed by the release calls `evR` of the raw pool's
`Clear()`, run on the unchanged pool state.  An address on the free list is destructed zero
times; any other address is destructed once for each blob of which it is a slot, hence exactly
once when it is a slot of one blob only, which is always so when blobs do not overlap. -/
theorem typedClear_destructs_live_slots (sizeofT fuel : Nat) (s : CUtlMemoryPool)
    (fl bl : List Int) (hT : 0 < sizeofT)
    (hfree : IsFreeChain s.mem s.m_pHeadOfFreeList fl) (hblob : BlobList s bl)
    (hfuel : fuelBound s fl bl ≤ fuel) :
    ∃ evD evR s1,
      CClassMemoryPoolExt.Clear sizeofT fuel s = .ok (evD ++ evR, s1) ∧
      CUtlMemoryPool.Clear fuel s = .ok (evR, s1) ∧
      (∀ e ∈ evD, ∃ p, e = Event.destruct p) ∧
      (∀ e ∈ evR, ∃ a, e = Event.release a) ∧
      (∀ p, p ∈ fl → evD.count (Event.destruct p) = 0) ∧
      (∀ p, p ∉ fl → evD.count (Event.destruct p) = bl.countP fun a => isSlotOf sizeofT s a p) ∧
      (∀ p a, p ∉ fl → a ∈ bl → isSlotOf sizeofT s a p = true →
        (∀ a1 ∈ bl, isSlotOf sizeofT s a1 p = true → a1 = a) →
        evD.count (Event.destruct p) = 1) := by
  have hf1 : fl.length ≤ fuel := le_trans (fuelBound_free_le s fl bl) hfuel
  have hf2 : bl.length ≤ fuel := le_trans (fuelBound_blob_le s fl bl) hfuel
  have hf3 : ∀ a ∈ bl, (numBytesAt s a).toNat ≤ fuel := fun a ha =>
    le_trans (fuelBound_slot_le s fl bl a ha) hfuel
  obtain ⟨evD, hrun, hall, hcount⟩ :=
    destructBlobs_spec s sizeofT hT fl fuel [] hblob hf2 hf3
  have hclear := rawClear_eq hblob hf2
  refine ⟨evD, bl.map Event.release, _, ?_, hclear, hall, ?_, ?_, ?_, ?_⟩
  · unfold CClassMemoryPoolExt.Clear
    rw [collectFree_eq [] hfree hf1, List.nil_append]
    simp only [hrun, List.nil_append, hclear]
  · intro e he
    obtain ⟨a, -, rfl⟩ := List.mem_map.1 he
    exact ⟨a, rfl⟩
  · intro p hp
    rw [hcount p, if_pos hp]
  · intro p hp
    rw [hcount p, if_neg hp]
  · intro p a hp ha hsl huniq
    rw [hcount p, if_neg hp]
    exact countP_eq_one_of_unique _ (isPath_nodup hblob) ha hsl huniq

/-- Witness for C1 on the concrete pool: 3028 is free, 2020 is a live slot of the first blob
only. -/
theorem typedClear_destructs_live_slots_witness :
    (0 < 8 ∧ IsFreeChain exPool.mem exPool.m_pHeadOfFreeList [3028] ∧
      BlobList exPool [2000, 3000] ∧ fuelBound exPool [3028] [2000, 3000] ≤ 40) ∧
    ∃ evD evR s1,
      CClassMemoryPoolExt.Clear 8 40 exPool = .ok (evD ++ evR, s1) ∧
      CUtlMemoryPool.Clear 40 exPool = .ok (evR, s1) ∧
      (∀ e ∈ evD, ∃ p, e = Event.destruct p) ∧
      (∀ e ∈ evR, ∃ a, e = Event.release a) ∧
      (∀ p, p ∈ [3028] → evD.count (Event.destruct p) = 0) ∧
      (∀ p, p ∉ [3028] →
        evD.count (Event.destruct p) = [2000, 3000].countP fun a => isSlotOf 8 exPool a p) ∧
      (∀ p a, p ∉ [3028] → a ∈ [2000, 3000] → isSlotOf 8 exPool a p = true →
        (∀ a1 ∈ [2000, 3000], isSlotOf 8 exPool a1 p = true → a1 = a) →
        evD.count (Event.destruct p) = 1) :=
  ⟨⟨by decide, by decide, by decide, by decide⟩,
    typedClear_destructs_live_slots 8 40 exPool [3028] [2000, 3000] (by decide) (by decide)
      (by decide) (by decide)⟩

/-! ## C2: typed `Free` releases the whole pool -/

/-- C2 (evaluation of the code at the failing input).  On the concrete pool, which holds the
three live elements 2020, 2028 and 3020, typed `Free(2020)` destructs all three, releases both
blobs and resets the pool: afterwards `Count()` is 0 instead of 2, the free-list head is null
instead of 2020 and the blob list is empty. -/
theorem typedFree_releases_every_element :
    ∃ s1, CClassMemoryPoolExt.Free 8 40 exPool 2020 =
        .ok ([Event.destruct 2020, Event.destruct 2028, Event.destruct 3020,
              Event.release 2000, Event.release 3000], s1) ∧
      exPool.Count = 3 ∧ s1.Count = 0 ∧ s1.m_pHeadOfFreeList = 0 ∧ BlobList s1 [] ∧
      s1.blobs 2000 = none ∧ s1.blobs 3000 = none :=
  ⟨_, rfl, by decide, by decide, by decide, by decide, by decide, by decide⟩

/-! ## C3: raw `Free` pushes the block on the free list -/

theorem reach_congr {mem mem1 : Int → Int} :
    ∀ (n : Nat) (p : Int), (∀ c ∈ reach mem n p, mem1 c = mem c) →
      reach mem1 n p = reach mem n p
  | 0, _, _ => rfl
  | n + 1, p, h => by
    by_cases hp : p = 0
    · simp [reach, hp]
    · have hmem : mem1 p = mem p := h p (by simp [reach, hp])
      simp only [reach, hp, if_false, hmem]
      rw [reach_congr n (mem p)]
      intro c hc
      exact h c (by simp [reach, hp, hc])

theorem rangeScan_ok_of_inBlob {s : CUtlMemoryPool} {bl : List Int} {fuel : Nat} {b : Int}
    (hbl : BlobList s bl) (hfuel : bl.length ≤ fuel) (hin : ∃ a ∈ bl, inBlob s a b = true) :
    CUtlMemoryPool.rangeScan s b fuel s.m_BlobHead.m_pNext false = .ok true := by
  rw [rangeScan_eq s b false hbl hfuel]
  obtain ⟨a, ha, hab⟩ := hin
  have : (bl.any fun a => inBlob s a b) = true := List.any_eq_true.2 ⟨a, ha, hab⟩
  simp [this]

/-- C3 as stated fails: in the concrete pool the block 3028 is already on the free list
(it is its head).  `Free(3028)`, in either build, makes the link word of 3028 point to 3028
itself, so three steps from the new head read 3028 three times, whereas 3028 followed by the
sequence reachable before is 3028, 3028 and then the end of the list. -/
theorem rawFree_sequence_counterexample :
    (3028 : Int) ≠ 0 ∧
    (∃ s1, CUtlMemoryPool.Free false 2 exPool 3028 = .ok s1 ∧
      reach s1.mem 3 s1.m_pHeadOfFreeList = [3028, 3028, 3028] ∧
      reach s1.mem 3 s1.m_pHeadOfFreeList ≠
        3028 :: reach exPool.mem 2 exPool.m_pHeadOfFreeList) ∧
    (∃ s1, CUtlMemoryPool.Free true 2 exPool 3028 = .ok s1 ∧
      reach s1.mem 3 s1.m_pHeadOfFreeList = [3028, 3028, 3028] ∧
      reach s1.mem 3 s1.m_pHeadOfFreeList ≠
        3028 :: reach exPool.mem 2 exPool.m_pHeadOfFreeList) ∧
    3028 :: reach exPool.mem 2 exPool.m_pHeadOfFreeList = [3028, 3028] :=
  ⟨by decide, ⟨_, rfl, by decide, by decide⟩, ⟨_, rfl, by decide, by decide⟩, by decide⟩

/-- C3, amended.  Let `b` be a non-null address whose pointer-sized word shares no byte with
the word of any address reachable from the free-list head: `b` is at least `maxPtrSize` bytes
away from each of them, and in particular is not reachable itself.  In a debug build let
moreover `b` lie in a blob of the blob list `bl` (so that the range check passes), let the block
size be positive and let no reachable address lie in the slot `[b, b + m_BlockSize)` that is
poisoned.  Then raw `Free(b)` returns, stores the previous free-list head in the first word of
`b`, makes `b` the free-list head and lowers `Count()` by one, and the sequence of addresses
reachable from the head afterwards is `b` followed by the sequence reachable before. -/
theorem rawFree_pushes_block (debug : Bool) (fuel : Nat) (s : CUtlMemoryPool) (bl : List Int)
    (b : Int) (hb : b ≠ 0)
    (hapart : ∀ n, ∀ c ∈ reach s.mem n s.m_pHeadOfFreeList, WordsApart b c)
    (hdbg : debug = true → BlobList s bl ∧ bl.length ≤ fuel ∧ (∃ a ∈ bl, inBlob s a b = true) ∧
      0 < s.m_BlockSize ∧
      ∀ n, ∀ c ∈ reach s.mem n s.m_pHeadOfFreeList, ¬ (b ≤ c ∧ c < b + s.m_BlockSize)) :
    ∃ s1, CUtlMemoryPool.Free debug fuel s b = .ok s1 ∧
      s1.mem b = s.m_pHeadOfFreeList ∧ s1.m_pHeadOfFreeList = b ∧ s1.Count = s.Count - 1 ∧
      ∀ n, reach s1.mem (n + 1) s1.m_pHeadOfFreeList = b :: reach s.mem n s.m_pHeadOfFreeList := by
  have hnot : ∀ n, b ∉ reach s.mem n s.m_pHeadOfFreeList := by
    intro n h
    have := hapart n b h
    unfold WordsApart maxPtrSize at this
    omega
  cases debug with
  | false =>
    refine ⟨CUtlMemoryPool.pushFree s b, by simp [CUtlMemoryPool.Free, hb], ?_, rfl, rfl, ?_⟩
    · simp [CUtlMemoryPool.pushFree]
    · intro n
      simp only [reach, CUtlMemoryPool.pushFree, hb, if_false, Function.update_same]
      rw [reach_congr n s.m_pHeadOfFreeList]
      intro c hc
      have hcb : c ≠ b := fun h => hnot n (h ▸ hc)
      simp [Function.update_noteq hcb]
  | true =>
    obtain ⟨hbl, hfuel, hin, -, hslot⟩ := hdbg rfl
    refine ⟨CUtlMemoryPool.pushFree
        { s with mem := CUtlMemoryPool.memsetDD s.mem b s.m_BlockSize } b, ?_, ?_, rfl, rfl, ?_⟩
    · simp [CUtlMemoryPool.Free, hb, rangeScan_ok_of_inBlob hbl hfuel hin]
    · simp [CUtlMemoryPool.pushFree]
    · intro n
      simp only [reach, CUtlMemoryPool.pushFree, hb, if_false, Function.update_same]
      rw [reach_congr n s.m_pHeadOfFreeList]
      intro c hc
      have hcb : c ≠ b := fun h => hnot n (h ▸ hc)
      simp [Function.update_noteq hcb, CUtlMemoryPool.memsetDD, hslot n c hc]

/-- Witness for the amended C3: freeing the live block 2020 of the concrete pool in a debug
build; the only address on the free list is 3028. -/
theorem rawFree_pushes_block_witness :
    (2020 ≠ 0 ∧
      (∀ n, ∀ c ∈ reach exPool.mem n exPool.m_pHeadOfFreeList, WordsApart 2020 c)) ∧
    ∃ s1, CUtlMemoryPool.Free true 2 exPool 2020 = .ok s1 ∧
      s1.mem 2020 = exPool.m_pHeadOfFreeList ∧ s1.m_pHeadOfFreeList = 2020 ∧
      s1.Count = exPool.Count - 1 ∧
      ∀ n, reach s1.mem (n + 1) s1.m_pHeadOfFreeList =
        2020 :: reach exPool.mem n exPool.m_pHeadOfFreeList :=
  have hreach : ∀ n, ∀ c ∈ reach exPool.mem n exPool.m_pHeadOfFreeList, c = 3028 := by
    intro n c hc
    match n, hc with
    | 0, hc => simp [reach] at hc
    | 1, hc => simpa [reach, exPool] using hc
    | n + 2, hc => simpa [reach, exPool, exMem] using hc
  have hapart : ∀ n, ∀ c ∈ reach exPool.mem n exPool.m_pHeadOfFreeList, WordsApart 2020 c :=
    fun n c hc => by rw [hreach n c hc]; decide
  ⟨⟨by decide, hapart⟩,
    rawFree_pushes_block true 2 exPool [2000, 3000] 2020 (by decide) hapart
      (fun _ => ⟨by decide, by decide, ⟨2000, by decide, by decide⟩, by decide,
        fun n c hc => by rw [hreach n c hc]; decide⟩)⟩

/-! ## C4: raw `Clear` resets the pool, except for the peak counter -/

/-- C4 as stated fails: raw `Clear()` on the concrete pool, whose peak counter is 3, leaves
`PeakCount()` at 3, not at 0. -/
theorem rawClear_keeps_peak_counterexample :
    ∃ ev s1, CUtlMemoryPool.Clear 2 exPool = .ok (ev, s1) ∧ s1.PeakCount = 3 ∧
      s1.PeakCount ≠ 0 :=
  ⟨_, _, rfl, by decide, by decide⟩

/-- C4, amended.  On a pool whose blob list is the circular list `bl`, raw `Clear()` returns
with the blob list empty (the sentinel's next and prev both point to the sentinel and the blob
count is 0), the free-list head null and `Count() == 0`; `PeakCount()` keeps the value it had
before the call. -/
theorem rawClear_resets_pool (fuel : Nat) (s : CUtlMemoryPool) (bl : List Int)
    (hbl : BlobList s bl) (hfuel : bl.length ≤ fuel) :
    ∃ ev s1, CUtlMemoryPool.Clear fuel s = .ok (ev, s1) ∧
      s1.pBlobHead = s.pBlobHead ∧
      s1.m_BlobHead.m_pNext = s1.pBlobHead ∧ s1.m_BlobHead.m_pPrev = s1.pBlobHead ∧
      s1.m_NumBlobs = 0 ∧ BlobList s1 [] ∧
      s1.m_pHeadOfFreeList = 0 ∧ IsFreeChain s1.mem s1.m_pHeadOfFreeList [] ∧
      s1.Count = 0 ∧ s1.PeakCount = s.PeakCount := by
  refine ⟨_, _, rawClear_eq hbl hfuel, rfl, rfl, rfl, rfl, ?_, rfl, ?_, rfl, rfl⟩
  · exact isBlobPath_nil.2 rfl
  · exact isFreeChain_nil.2 rfl

/-- Witness for the amended C4 on the concrete pool. -/
theorem rawClear_resets_pool_witness :
    (BlobList exPool [2000, 3000] ∧ [2000, 3000].length ≤ 2) ∧
    ∃ ev s1, CUtlMemoryPool.Clear 2 exPool = .ok (ev, s1) ∧
      s1.pBlobHead = exPool.pBlobHead ∧
      s1.m_BlobHead.m_pNext = s1.pBlobHead ∧ s1.m_BlobHead.m_pPrev = s1.pBlobHead ∧
      s1.m_NumBlobs = 0 ∧ BlobList s1 [] ∧
      s1.m_pHeadOfFreeList = 0 ∧ IsFreeChain s1.mem s1.m_pHeadOfFreeList [] ∧
      s1.Count = 0 ∧ s1.PeakCount = exPool.PeakCount :=
  ⟨⟨by decide, by decide⟩,
    rawClear_resets_pool 2 exPool [2000, 3000] (by decide) (by decide)⟩

/-! ## C5: the counter invariant -/

theorem isFreeChain_congr {mem mem1 : Int → Int} {l : List Int} {p : Int}
    (h : ∀ c ∈ l, mem1 c = mem c) (hc : IsFreeChain mem p l) : IsFreeChain mem1 p l :=
  @isPath_congr (fun a => some (mem a)) (fun a => some (mem1 a)) 0 l p
    (fun a ha => by simp [h a ha]) hc

theorem blockList_ge (bs : Int) (hbs : 0 < bs) :
    ∀ (n : Nat) (p c : Int), c ∈ blockList bs n p → p ≤ c
  | 0, _, _, h => by simp [blockList] at h
  | n + 1, p, c, h => by
    simp only [blockList, List.mem_cons] at h
    rcases h with rfl | h
    · exact le_rfl
    · have := blockList_ge bs hbs n (p + bs) c h
      omega

theorem blockList_length (bs : Int) : ∀ (n : Nat) (p : Int), (blockList bs n p).length = n
  | 0, _ => rfl
  | n + 1, p => by simp [blockList, blockList_length bs n]

theorem threadBlocks_chain (bs : Int) (hbs : 0 < bs) (mem : Int → Int) :
    ∀ (n : Nat) (p : Int), 0 < p →
      IsFreeChain (CUtlMemoryPool.threadBlocks bs 0 n p mem) (if n = 0 then 0 else p)
        (blockList bs n p)
  | 0, p, _ => by simp [blockList, isFreeChain_nil]
  | n + 1, p, hp => by
    have ih := threadBlocks_chain bs hbs mem n (p + bs) (by omega)
    simp only [Nat.succ_ne_zero, if_false, blockList, isFreeChain_cons,
      CUtlMemoryPool.threadBlocks, Function.update_same, true_and]
    refine ⟨by omega, ?_⟩
    have hcongr : ∀ c ∈ blockList bs n (p + bs),
        Function.update (CUtlMemoryPool.threadBlocks bs 0 n (p + bs) mem) p
            (if n = 0 then 0 else p + bs) c =
          CUtlMemoryPool.threadBlocks bs 0 n (p + bs) mem c := by
      intro c hc
      have := blockList_ge bs hbs n (p + bs) c hc
      exact Function.update_noteq (by omega) _ _
    have := isFreeChain_congr hcongr ih
    by_cases hn : n = 0
    · subst hn
      simp [blockList, isFreeChain_nil]
    · simpa [hn] using this

theorem alignUp_ge (v : Int) (n : Nat) : v ≤ CUtlMemoryPool.alignUp v n := by
  unfold CUtlMemoryPool.alignUp
  by_cases hn : n = 0
  · simp [hn]
  · simp only [hn, if_false]
    have hpos : (0 : Int) < n := by exact_mod_cast Nat.pos_of_ne_zero hn
    have h1 := Int.emod_add_ediv (v + ((n : Int) - 1)) n
    have h2 := Int.emod_lt_of_pos (v + ((n : Int) - 1)) hpos
    have h3 : (v + ((n : Int) - 1)) / n * n = n * ((v + ((n : Int) - 1)) / n) := by ring
    omega

theorem isBlobPath_mem_ne {heap : Int → Option CBlob} {hd p a : Int} {l : List Int}
    (h : IsBlobPath heap hd p l) (ha : a ∈ l) : a ≠ hd :=
  isPath_ne_stop h ha

theorem isBlobPath_snoc {heap : Int → Option CBlob} {hd pBlob : Int} (nb : CBlob)
    (hne : pBlob ≠ hd) (hnb : nb.m_pNext = hd) :
    ∀ {bl : List Int} {p : Int}, IsBlobPath heap hd p bl → pBlob ∉ bl →
      IsBlobPath
        (Function.update
          (if bl.getLastD hd = hd then heap
           else Function.update heap (bl.getLastD hd)
              ((heap (bl.getLastD hd)).map fun b => { b with m_pNext := pBlob }))
          pBlob (some nb))
        hd (if bl.getLastD hd = hd then pBlob else p) (bl ++ [pBlob])
  | [], p, _, _ => by
    simp only [List.getLastD_nil, if_true, List.nil_append]
    rw [isBlobPath_cons]
    exact ⟨rfl, hne, nb, by simp, by rw [hnb]; exact isBlobPath_nil.2 rfl⟩
  | [a], p, h, hfresh => by
    rw [isBlobPath_cons] at h
    obtain ⟨rfl, hp, blob, hb, h⟩ := h
    have hap : p ≠ pBlob := fun e => hfresh (by simp [e])
    simp only [List.getLastD_cons, List.getLastD_nil, hp, if_false, List.singleton_append]
    rw [isBlobPath_cons]
    refine ⟨rfl, hp, { blob with m_pNext := pBlob }, ?_, ?_⟩
    · rw [Function.update_noteq hap, Function.update_same, hb]
      rfl
    · rw [isBlobPath_cons]
      exact ⟨rfl, hne, nb, by simp, by rw [hnb]; exact isBlobPath_nil.2 rfl⟩
  | a :: b :: t, p, h, hfresh => by
    have hnd : (a :: b :: t).Nodup := isPath_nodup h
    have hall := h
    rw [isBlobPath_cons] at h
    obtain ⟨rfl, hp, blob, hb, h⟩ := h
    have hfresh1 : pBlob ∉ b :: t := fun hm => hfresh (List.mem_cons_of_mem _ hm)
    have ih := isBlobPath_snoc nb hne hnb h hfresh1
    have hL : (p :: b :: t).getLastD hd = (b :: t).getLastD hd := by
      simp [List.getLastD_cons]
    have hLmem : (b :: t).getLastD hd ∈ b :: t := by
      rw [List.getLastD_cons]
      have := List.getLast_mem (List.cons_ne_nil b t)
      rwa [List.getLast_eq_getLastD] at this
    have hLne : (b :: t).getLastD hd ≠ hd := isBlobPath_mem_ne h hLmem
    have hpL : p ≠ (b :: t).getLastD hd := fun e =>
      (List.nodup_cons.1 hnd).1 (e ▸ hLmem)
    have hap : p ≠ pBlob := fun e => hfresh (by simp [e])
    rw [hL]
    simp only [hLne, if_false] at ih ⊢
    rw [List.cons_append, isBlobPath_cons]
    refine ⟨rfl, hp, blob, ?_, ih⟩
    rw [Function.update_noteq hap, Function.update_noteq hpL, hb]

theorem newBlobElements_pos {s : CUtlMemoryPool} (hbpb : 0 < s.m_BlocksPerBlob) :
    0 < CUtlMemoryPool.newBlobElements s := by
  unfold CUtlMemoryPool.newBlobElements
  split
  · have : (0 : Int) < (s.m_NumBlobs : Int) + 1 := by omega
    exact Int.mul_pos hbpb this
  · exact hbpb

theorem numBytesAt_addNewBlob {s : CUtlMemoryPool} {pBlob pData a : Int} (ha : a ≠ pBlob) :
    numBytesAt (CUtlMemoryPool.AddNewBlob pBlob pData s) a = numBytesAt s a := by
  simp only [numBytesAt, CUtlMemoryPool.AddNewBlob]
  rw [Function.update_noteq ha]
  by_cases h1 : s.m_BlobHead.m_pPrev = s.pBlobHead
  · simp [h1]
  · simp only [h1, if_false]
    by_cases h2 : a = s.m_BlobHead.m_pPrev
    · subst h2
      rw [Function.update_same]
      cases s.blobs s.m_BlobHead.m_pPrev <;> rfl
    · rw [Function.update_noteq h2]

theorem totalBlocks_addNewBlob {s : CUtlMemoryPool} {pBlob : Int} (pData : Int)
    {bl : List Int} (hfresh : pBlob ∉ bl) (hbs : 0 < s.m_BlockSize) :
    totalBlocks (CUtlMemoryPool.AddNewBlob pBlob pData s) (bl ++ [pBlob]) =
      totalBlocks s bl + CUtlMemoryPool.newBlobElements s := by
  have hold : ∀ a ∈ bl, blocksIn (CUtlMemoryPool.AddNewBlob pBlob pData s) a = blocksIn s a := by
    intro a ha
    have hne : a ≠ pBlob := fun e => hfresh (e ▸ ha)
    unfold blocksIn
    rw [numBytesAt_addNewBlob hne]
    rfl
  have hnew : blocksIn (CUtlMemoryPool.AddNewBlob pBlob pData s) pBlob =
      CUtlMemoryPool.newBlobElements s := by
    simp only [blocksIn, numBytesAt, CUtlMemoryPool.AddNewBlob, Function.update_same]
    exact Int.mul_ediv_cancel_left _ (by omega)
  unfold totalBlocks
  rw [List.map_append, List.sum_append, List.map_congr_left hold]
  simp [hnew]

theorem blobList_addNewBlob {s : CUtlMemoryPool} {pBlob : Int} (pData : Int)
    {bl : List Int} (hbl : BlobList s bl) (hprev : PrevOk s bl) (hfresh : pBlob ∉ bl)
    (hne : pBlob ≠ s.pBlobHead) :
    BlobList (CUtlMemoryPool.AddNewBlob pBlob pData s) (bl ++ [pBlob]) ∧
      PrevOk (CUtlMemoryPool.AddNewBlob pBlob pData s) (bl ++ [pBlob]) := by
  constructor
  · have h := isBlobPath_snoc
        { m_pPrev := s.m_BlobHead.m_pPrev
          m_pNext := s.pBlobHead
          m_NumBytes := s.m_BlockSize * CUtlMemoryPool.newBlobElements s
          m_Data := pData } hne rfl hbl hfresh
    unfold PrevOk at hprev
    rw [← hprev] at h
    exact h
  · simp [PrevOk, CUtlMemoryPool.AddNewBlob]

theorem blockList_pairwise (bs : Int) (hbs : 0 < bs) :
    ∀ (n : Nat) (p : Int), (blockList bs n p).Pairwise fun x y => x + bs ≤ y
  | 0, _ => List.Pairwise.nil
  | n + 1, p =>
    List.Pairwise.cons
      (fun y hy => by
        have := blockList_ge bs hbs n (p + bs) y hy
        omega)
      (blockList_pairwise bs hbs n (p + bs))

/-- Two distinct blocks of a run of back-to-back blocks do not overlap. -/
theorem blockList_apart (bs : Int) (hbs : 0 < bs) (n : Nat) (p : Int) {x y : Int}
    (hx : x ∈ blockList bs n p) (hy : y ∈ blockList bs n p) (hne : x ≠ y) :
    x + bs ≤ y ∨ y + bs ≤ x := by
  have hp : (blockList bs n p).Pairwise fun x y => x + bs ≤ y ∨ y + bs ≤ x :=
    (blockList_pairwise bs hbs n p).imp fun h => Or.inl h
  exact hp.forall (fun _ _ h => h.symm) hx hy hne

/-- Two distinct blocks of a pool do not overlap, when its blobs do not. -/
theorem blocks_apart {s : CUtlMemoryPool} {bl : List Int} (hbs : 0 < s.m_BlockSize)
    (hblobs : BlobsApart s bl) {x y : Int} (hx : ∃ a ∈ bl, x ∈ blobBlocks s a)
    (hy : ∃ a ∈ bl, y ∈ blobBlocks s a) (hne : x ≠ y) :
    x + s.m_BlockSize ≤ y ∨ y + s.m_BlockSize ≤ x := by
  obtain ⟨a, ha, hxa⟩ := hx
  obtain ⟨a1, ha1, hya⟩ := hy
  by_cases h : a = a1
  · subst h
    exact blockList_apart _ hbs _ _ hxa hya hne
  · exact hblobs a ha a1 ha1 h x hxa y hya

/-- Raw `Free(b)` keeps the counter invariant when the word of `b` shares no byte with the
word of a free-list entry; it changes neither the blobs nor the block size nor the
alignment. -/
theorem free_preserves_inv (debug : Bool) (fuel : Nat) (s : CUtlMemoryPool) (fl bl : List Int)
    (b : Int) (hb : b ≠ 0) (hfl : IsFreeChain s.mem s.m_pHeadOfFreeList fl)
    (hbl : BlobList s bl) (hprev : PrevOk s bl) (hinv : CountInv s fl bl)
    (hapart : ∀ c ∈ fl, WordsApart b c)
    (hdbg : debug = true → bl.length ≤ fuel ∧ (∃ a ∈ bl, inBlob s a b = true) ∧
      0 < s.m_BlockSize ∧ ∀ c ∈ fl, ¬ (b ≤ c ∧ c < b + s.m_BlockSize)) :
    ∃ s1, CUtlMemoryPool.Free debug fuel s b = .ok s1 ∧
      IsFreeChain s1.mem s1.m_pHeadOfFreeList (b :: fl) ∧ BlobList s1 bl ∧ PrevOk s1 bl ∧
      CountInv s1 (b :: fl) bl ∧
      s1.blobs = s.blobs ∧ s1.m_BlockSize = s.m_BlockSize ∧ s1.m_nAlignment = s.m_nAlignment := by
  have hnot : b ∉ fl := by
    intro h
    have := hapart b h
    unfold WordsApart maxPtrSize at this
    omega
  have hcount : ∀ m : Int → Int,
      CountInv (CUtlMemoryPool.pushFree { s with mem := m } b) (b :: fl) bl := by
    intro m
    unfold CountInv at hinv ⊢
    have ht : totalBlocks (CUtlMemoryPool.pushFree { s with mem := m } b) bl = totalBlocks s bl :=
      rfl
    rw [ht]
    simp only [CUtlMemoryPool.pushFree, hinv, List.length_cons]
    push_cast
    ring
  cases debug with
  | false =>
    refine ⟨CUtlMemoryPool.pushFree s b, by simp [CUtlMemoryPool.Free, hb], ?_, hbl, hprev,
      hcount s.mem, rfl, rfl, rfl⟩
    rw [isFreeChain_cons]
    refine ⟨rfl, hb, ?_⟩
    simp only [CUtlMemoryPool.pushFree, Function.update_same]
    refine isFreeChain_congr (fun c hc => ?_) hfl
    have hcb : c ≠ b := fun e => hnot (e ▸ hc)
    exact Function.update_noteq hcb _ _
  | true =>
    obtain ⟨hfuel, hin, -, hslot⟩ := hdbg rfl
    refine ⟨CUtlMemoryPool.pushFree
        { s with mem := CUtlMemoryPool.memsetDD s.mem b s.m_BlockSize } b, ?_, ?_, hbl, hprev,
      hcount _, rfl, rfl, rfl⟩
    · simp [CUtlMemoryPool.Free, hb, rangeScan_ok_of_inBlob hbl hfuel hin]
    · rw [isFreeChain_cons]
      refine ⟨rfl, hb, ?_⟩
      simp only [CUtlMemoryPool.pushFree, Function.update_same]
      refine isFreeChain_congr (fun c hc => ?_) hfl
      have hcb : c ≠ b := fun e => hnot (e ▸ hc)
      rw [Function.update_noteq hcb]
      simp [CUtlMemoryPool.memsetDD, hslot c hc]

/-- The blocks of the blobs depend on the blob headers, the block size and the alignment
only. -/
theorem blobBlocks_congr {s s1 : CUtlMemoryPool} (h1 : s1.blobs = s.blobs)
    (h2 : s1.m_BlockSize = s.m_BlockSize) (h3 : s1.m_nAlignment = s.m_nAlignment) (a : Int) :
    blobBlocks s1 a = blobBlocks s a := by
  simp only [blobBlocks, numBytesAt, dataAt, h1, h2, h3]

theorem isFreeChain_of_head_zero {mem : Int → Int} {fl : List Int}
    (h : IsFreeChain mem 0 fl) : fl = [] := by
  cases fl with
  | nil => rfl
  | cons a l =>
    rw [isFreeChain_cons] at h
    exact absurd h.1.symm h.2.1

theorem isFreeChain_of_head_ne {mem : Int → Int} {p : Int} {fl : List Int}
    (h : IsFreeChain mem p fl) (hp : p ≠ 0) :
    ∃ l, fl = p :: l ∧ IsFreeChain mem (mem p) l := by
  cases fl with
  | nil => exact absurd (isFreeChain_nil.1 h) hp
  | cons a l =>
    rw [isFreeChain_cons] at h
    obtain ⟨rfl, -, h⟩ := h
    exact ⟨l, rfl, h⟩

/-- The state after the pop of `Alloc`, on a pool whose free list is not empty. -/
theorem allocAmount_pop {s : CUtlMemoryPool} (pBlob pData amount : Int)
    (ha : ¬ amount > s.m_BlockSize) (hh : s.m_pHeadOfFreeList ≠ 0) :
    CUtlMemoryPool.AllocAmount pBlob pData amount s =
      (s.m_pHeadOfFreeList,
        { s with
          m_pHeadOfFreeList := s.mem s.m_pHeadOfFreeList
          m_BlocksAllocated := s.m_BlocksAllocated + 1
          m_PeakAlloc := max s.m_PeakAlloc (s.m_BlocksAllocated + 1) }) := by
  simp [CUtlMemoryPool.AllocAmount, ha, hh]

/-- The state after a growing `Alloc`, on a pool whose free list is empty. -/
theorem allocAmount_grow {s : CUtlMemoryPool} (pBlob pData amount : Int)
    (ha : ¬ amount > s.m_BlockSize) (hh : s.m_pHeadOfFreeList = 0)
    (hg : s.m_GrowMode ≠ CUtlMemoryPool.GROW_NONE)
    (ht : (CUtlMemoryPool.AddNewBlob pBlob pData s).m_pHeadOfFreeList ≠ 0) :
    CUtlMemoryPool.AllocAmount pBlob pData amount s =
      ((CUtlMemoryPool.AddNewBlob pBlob pData s).m_pHeadOfFreeList,
        { CUtlMemoryPool.AddNewBlob pBlob pData s with
          m_pHeadOfFreeList :=
            (CUtlMemoryPool.AddNewBlob pBlob pData s).mem
              (CUtlMemoryPool.AddNewBlob pBlob pData s).m_pHeadOfFreeList
          m_BlocksAllocated := (CUtlMemoryPool.AddNewBlob pBlob pData s).m_BlocksAllocated + 1
          m_PeakAlloc := max (CUtlMemoryPool.AddNewBlob pBlob pData s).m_PeakAlloc
            ((CUtlMemoryPool.AddNewBlob pBlob pData s).m_BlocksAllocated + 1) }) := by
  simp [CUtlMemoryPool.AllocAmount, ha, hh, hg, ht]

/-- The spec's allocate keeps the counter invariant; the free list it leaves stays clear of
the block it returns when the free list it started from did. -/
theorem allocAmount_inv_strong (pBlob pData amount : Int) (s : CUtlMemoryPool)
    (fl bl : List Int) (hfl : IsFreeChain s.mem s.m_pHeadOfFreeList fl) (hbl : BlobList s bl)
    (hprev : PrevOk s bl) (hinv : CountInv s fl bl) (hbs : 0 < s.m_BlockSize)
    (hbpb : 0 < s.m_BlocksPerBlob) (hfresh : pBlob ∉ bl) (hne : pBlob ≠ s.pBlobHead)
    (hdata : 0 < pData) :
    ∃ fl1 bl1,
      IsFreeChain (CUtlMemoryPool.AllocAmount pBlob pData amount s).2.mem
        (CUtlMemoryPool.AllocAmount pBlob pData amount s).2.m_pHeadOfFreeList fl1 ∧
      BlobList (CUtlMemoryPool.AllocAmount pBlob pData amount s).2 bl1 ∧
      PrevOk (CUtlMemoryPool.AllocAmount pBlob pData amount s).2 bl1 ∧
      CountInv (CUtlMemoryPool.AllocAmount pBlob pData amount s).2 fl1 bl1 ∧
      ((CUtlMemoryPool.AllocAmount pBlob pData amount s).1 ≠ 0 →
        (∀ c ∈ fl.tail,
          ¬ (s.m_pHeadOfFreeList ≤ c ∧ c < s.m_pHeadOfFreeList + s.m_BlockSize)) →
        ∀ c ∈ fl1, ¬ ((CUtlMemoryPool.AllocAmount pBlob pData amount s).1 ≤ c ∧
          c < (CUtlMemoryPool.AllocAmount pBlob pData amount s).1 + s.m_BlockSize)) := by
  by_cases ha : amount > s.m_BlockSize
  · have : CUtlMemoryPool.AllocAmount pBlob pData amount s = (0, s) := by
      simp [CUtlMemoryPool.AllocAmount, ha]
    rw [this]
    exact ⟨fl, bl, hfl, hbl, hprev, hinv, fun h => absurd rfl h⟩
  by_cases hh : s.m_pHeadOfFreeList = 0
  · by_cases hg : s.m_GrowMode = CUtlMemoryPool.GROW_NONE
    · have : CUtlMemoryPool.AllocAmount pBlob pData amount s = (0, s) := by
        simp [CUtlMemoryPool.AllocAmount, ha, hh, hg]
      rw [this]
      exact ⟨fl, bl, hfl, hbl, hprev, hinv, fun h => absurd rfl h⟩
    · have hn := newBlobElements_pos hbpb
      have hfirst : 0 < CUtlMemoryPool.alignUp pData s.m_nAlignment :=
        lt_of_lt_of_le hdata (alignUp_ge _ _)
      have hthead : (CUtlMemoryPool.AddNewBlob pBlob pData s).m_pHeadOfFreeList =
          CUtlMemoryPool.alignUp pData s.m_nAlignment := by
        simp [CUtlMemoryPool.AddNewBlob, hn]
      have ht : (CUtlMemoryPool.AddNewBlob pBlob pData s).m_pHeadOfFreeList ≠ 0 := by
        rw [hthead]
        omega
      rw [allocAmount_grow pBlob pData amount ha hh hg ht]
      obtain ⟨k, hk⟩ : ∃ k : Nat, (CUtlMemoryPool.newBlobElements s).toNat = k + 1 :=
        ⟨(CUtlMemoryPool.newBlobElements s).toNat - 1, by omega⟩
      have hflnil : fl = [] := isFreeChain_of_head_zero (hh ▸ hfl)
      have hchain := threadBlocks_chain s.m_BlockSize hbs s.mem (k + 1)
        (CUtlMemoryPool.alignUp pData s.m_nAlignment) hfirst
      simp only [Nat.succ_ne_zero, if_false, blockList, isFreeChain_cons] at hchain
      obtain ⟨hb1, hb2⟩ := blobList_addNewBlob pData hbl hprev hfresh hne
      refine ⟨blockList s.m_BlockSize k
          (CUtlMemoryPool.alignUp pData s.m_nAlignment + s.m_BlockSize), bl ++ [pBlob],
        ?_, hb1, hb2, ?_, ?_⟩
      · simp only [hthead]
        simp only [CUtlMemoryPool.AddNewBlob, hh, hk]
        exact hchain.2.2
      · unfold CountInv at hinv ⊢
        have htot := totalBlocks_addNewBlob pData hfresh hbs
        have htot1 : totalBlocks
            { CUtlMemoryPool.AddNewBlob pBlob pData s with
              m_pHeadOfFreeList :=
                (CUtlMemoryPool.AddNewBlob pBlob pData s).mem
                  (CUtlMemoryPool.AddNewBlob pBlob pData s).m_pHeadOfFreeList
              m_BlocksAllocated :=
                (CUtlMemoryPool.AddNewBlob pBlob pData s).m_BlocksAllocated + 1
              m_PeakAlloc := max (CUtlMemoryPool.AddNewBlob pBlob pData s).m_PeakAlloc
                ((CUtlMemoryPool.AddNewBlob pBlob pData s).m_BlocksAllocated + 1) }
            (bl ++ [pBlob]) =
            totalBlocks (CUtlMemoryPool.AddNewBlob pBlob pData s) (bl ++ [pBlob]) := rfl
        rw [htot1, htot, blockList_length]
        have hcnt : (CUtlMemoryPool.AddNewBlob pBlob pData s).m_BlocksAllocated =
            s.m_BlocksAllocated := rfl
        simp only [hcnt, hinv, hflnil, List.length_nil]
        have hkz : CUtlMemoryPool.newBlobElements s = (k : Int) + 1 := by omega
        rw [hkz]
        push_cast
        ring
      · intro _ _ c hc
        have := blockList_ge s.m_BlockSize hbs k _ c hc
        simp only [hthead]
        omega
  · rw [allocAmount_pop pBlob pData amount ha hh]
    obtain ⟨l, rfl, hl⟩ := isFreeChain_of_head_ne hfl hh
    refine ⟨l, bl, hl, hbl, hprev, ?_, fun _ h => h⟩
    unfold CountInv at hinv ⊢
    have ht : totalBlocks
        { s with
          m_pHeadOfFreeList := s.mem s.m_pHeadOfFreeList
          m_BlocksAllocated := s.m_BlocksAllocated + 1
          m_PeakAlloc := max s.m_PeakAlloc (s.m_BlocksAllocated + 1) } bl =
        totalBlocks s bl := rfl
    rw [ht]
    simp only [hinv, List.length_cons]
    push_cast
    ring

theorem allocAmount_preserves_inv (pBlob pData amount : Int) (s : CUtlMemoryPool)
    (fl bl : List Int) (hfl : IsFreeChain s.mem s.m_pHeadOfFreeList fl) (hbl : BlobList s bl)
    (hprev : PrevOk s bl) (hinv : CountInv s fl bl) (hbs : 0 < s.m_BlockSize)
    (hbpb : 0 < s.m_BlocksPerBlob) (hfresh : pBlob ∉ bl) (hne : pBlob ≠ s.pBlobHead)
    (hdata : 0 < pData) :
    PoolInvariant (CUtlMemoryPool.AllocAmount pBlob pData amount s).2 := by
  obtain ⟨fl1, bl1, h1, h2, h3, h4, -⟩ :=
    allocAmount_inv_strong pBlob pData amount s fl bl hfl hbl hprev hinv hbs hbpb hfresh hne hdata
  exact ⟨fl1, bl1, h1, h2, h3, h4⟩

theorem allocZero_preserves_inv (pBlob pData : Int) (s : CUtlMemoryPool)
    (fl bl : List Int) (hfl : IsFreeChain s.mem s.m_pHeadOfFreeList fl) (hbl : BlobList s bl)
    (hprev : PrevOk s bl) (hinv : CountInv s fl bl) (hbs : 0 < s.m_BlockSize)
    (hbpb : 0 < s.m_BlocksPerBlob) (hfresh : pBlob ∉ bl) (hne : pBlob ≠ s.pBlobHead)
    (hdata : 0 < pData)
    (hclear : ∀ c ∈ fl.tail,
      ¬ (s.m_pHeadOfFreeList ≤ c ∧ c < s.m_pHeadOfFreeList + s.m_BlockSize)) :
    PoolInvariant (CUtlMemoryPool.AllocZero pBlob pData s).2 := by
  obtain ⟨fl1, bl1, h1, h2, h3, h4, h5⟩ :=
    allocAmount_inv_strong pBlob pData s.m_BlockSize s fl bl hfl hbl hprev hinv hbs hbpb hfresh
      hne hdata
  unfold CUtlMemoryPool.AllocZero CUtlMemoryPool.Alloc
  by_cases hr : (CUtlMemoryPool.AllocAmount pBlob pData s.m_BlockSize s).1 = 0
  · simp only [hr, if_true]
    exact ⟨fl1, bl1, h1, h2, h3, h4⟩
  · simp only [hr, if_false]
    refine ⟨fl1, bl1, ?_, h2, h3, h4⟩
    refine isFreeChain_congr (fun c hc => ?_) h1
    have := h5 hr hclear c hc
    simp only [this, if_false]

/-- C5.  The predicate "the free list is a finite chain `fl`, the blob list a finite circular
list `bl`, and `blocksAllocated` equals the number of blocks in the blobs of `bl` minus the
number of blocks on `fl`" is an invariant of the raw pool.
(1) It holds after `Clear()`, which returns on every pool with a well-formed blob list.
(2) `Free(b)` returns and preserves it for every non-null `b` that is a block of some blob and
is not on the free list, in a pool whose blocks hold a pointer (`maxPtrSize ≤ m_BlockSize`),
whose blobs do not overlap and whose free list holds blocks of the blobs only (in a debug build
`b` must pass the range check); the free list becomes `b :: fl`, again a list of blocks.
(3) The allocate of the spec preserves it, for any requested size, when the blocks hold a
pointer and the element count is positive, as the constructor guarantees, and the heap hands
out a fresh header address and a positive data address.
(4) So does the zero-filling allocate, when the block at the head of the free list overlaps
the word of no other free-list entry. -/
theorem counter_invariant :
    (∀ (fuel : Nat) (s : CUtlMemoryPool) (bl : List Int), BlobList s bl → bl.length ≤ fuel →
      ∃ ev s1, CUtlMemoryPool.Clear fuel s = .ok (ev, s1) ∧
        IsFreeChain s1.mem s1.m_pHeadOfFreeList [] ∧ BlobList s1 [] ∧ PrevOk s1 [] ∧
        CountInv s1 [] [] ∧ PoolInvariant s1) ∧
    (∀ (debug : Bool) (fuel : Nat) (s : CUtlMemoryPool) (fl bl : List Int) (b : Int),
      IsFreeChain s.mem s.m_pHeadOfFreeList fl → BlobList s bl → PrevOk s bl →
      CountInv s fl bl → maxPtrSize ≤ s.m_BlockSize → BlobsApart s bl → BlocksOf s bl fl →
      b ≠ 0 → (∃ a ∈ bl, b ∈ blobBlocks s a) → b ∉ fl →
      (debug = true → bl.length ≤ fuel ∧ ∃ a ∈ bl, inBlob s a b = true) →
      ∃ s1, CUtlMemoryPool.Free debug fuel s b = .ok s1 ∧
        IsFreeChain s1.mem s1.m_pHeadOfFreeList (b :: fl) ∧ BlobList s1 bl ∧ PrevOk s1 bl ∧
        CountInv s1 (b :: fl) bl ∧ BlobsApart s1 bl ∧ BlocksOf s1 bl (b :: fl) ∧
        PoolInvariant s1) ∧
    (∀ (pBlob pData amount : Int) (s : CUtlMemoryPool) (fl bl : List Int),
      IsFreeChain s.mem s.m_pHeadOfFreeList fl → BlobList s bl → PrevOk s bl →
      CountInv s fl bl → maxPtrSize ≤ s.m_BlockSize → 0 < s.m_BlocksPerBlob →
      pBlob ∉ bl → pBlob ≠ s.pBlobHead → 0 < pData →
      PoolInvariant (CUtlMemoryPool.AllocAmount pBlob pData amount s).2 ∧
      PoolInvariant (CUtlMemoryPool.Alloc pBlob pData s).2) ∧
    (∀ (pBlob pData : Int) (s : CUtlMemoryPool) (fl bl : List Int),
      IsFreeChain s.mem s.m_pHeadOfFreeList fl → BlobList s bl → PrevOk s bl →
      CountInv s fl bl → maxPtrSize ≤ s.m_BlockSize → 0 < s.m_BlocksPerBlob →
      pBlob ∉ bl → pBlob ≠ s.pBlobHead → 0 < pData →
      (∀ c ∈ fl.tail, WordsApart s.m_pHeadOfFreeList c ∧
        ¬ (s.m_pHeadOfFreeList ≤ c ∧ c < s.m_pHeadOfFreeList + s.m_BlockSize)) →
      PoolInvariant (CUtlMemoryPool.AllocZero pBlob pData s).2) := by
  refine ⟨?_, ?_, ?_, ?_⟩
  · intro fuel s bl hbl hfuel
    have h1 : IsFreeChain (CUtlMemoryPool.Init
        { s with blobs := fun a => if a ∈ bl then none else s.blobs a }).mem
        (CUtlMemoryPool.Init
          { s with blobs := fun a => if a ∈ bl then none else s.blobs a }).m_pHeadOfFreeList
        [] := isFreeChain_nil.2 rfl
    have h2 : BlobList (CUtlMemoryPool.Init
        { s with blobs := fun a => if a ∈ bl then none else s.blobs a }) [] :=
      isBlobPath_nil.2 rfl
    have h3 : PrevOk (CUtlMemoryPool.Init
        { s with blobs := fun a => if a ∈ bl then none else s.blobs a }) [] := rfl
    have h4 : CountInv (CUtlMemoryPool.Init
        { s with blobs := fun a => if a ∈ bl then none else s.blobs a }) [] [] := by
      simp [CountInv, CUtlMemoryPool.Init, totalBlocks]
    exact ⟨_, _, rawClear_eq hbl hfuel, h1, h2, h3, h4, [], [], h1, h2, h3, h4⟩
  · intro debug fuel s fl bl b hfl hbl hprev hinv hptr hblobs hblocks hb hblock hnot hdbg
    have hbs : 0 < s.m_BlockSize := by
      unfold maxPtrSize at hptr
      omega
    have hsep : ∀ c ∈ fl, c + s.m_BlockSize ≤ b ∨ b + s.m_BlockSize ≤ c := fun c hc =>
      blocks_apart hbs hblobs (hblocks c hc) hblock (fun e => hnot (e ▸ hc))
    have hapart : ∀ c ∈ fl, WordsApart b c := by
      intro c hc
      have := hsep c hc
      unfold WordsApart
      omega
    obtain ⟨s1, e, h1, h2, h3, h4, h5, h6, h7⟩ :=
      free_preserves_inv debug fuel s fl bl b hb hfl hbl hprev hinv hapart
        (fun hd => ⟨(hdbg hd).1, (hdbg hd).2, hbs, fun c hc => by
          have := hsep c hc
          omega⟩)
    have hcongr := blobBlocks_congr h5 h6 h7
    refine ⟨s1, e, h1, h2, h3, h4, ?_, ?_, b :: fl, bl, h1, h2, h3, h4⟩
    · intro a ha a1 ha1 hne x hx y hy
      rw [hcongr] at hx hy
      rw [h6]
      exact hblobs a ha a1 ha1 hne x hx y hy
    · intro c hc
      rcases List.mem_cons.1 hc with rfl | hc
      · obtain ⟨a, ha, hca⟩ := hblock
        exact ⟨a, ha, by rw [hcongr]; exact hca⟩
      · obtain ⟨a, ha, hca⟩ := hblocks c hc
        exact ⟨a, ha, by rw [hcongr]; exact hca⟩
  · intro pBlob pData amount s fl bl hfl hbl hprev hinv hptr hbpb hfresh hne hdata
    have hbs : 0 < s.m_BlockSize := by
      unfold maxPtrSize at hptr
      omega
    exact ⟨allocAmount_preserves_inv pBlob pData amount s fl bl hfl hbl hprev hinv hbs hbpb
        hfresh hne hdata,
      allocAmount_preserves_inv pBlob pData s.m_BlockSize s fl bl hfl hbl hprev hinv hbs hbpb
        hfresh hne hdata⟩
  · intro pBlob pData s fl bl hfl hbl hprev hinv hptr hbpb hfresh hne hdata hclear
    have hbs : 0 < s.m_BlockSize := by
      unfold maxPtrSize at hptr
      omega
    exact allocZero_preserves_inv pBlob pData s fl bl hfl hbl hprev hinv hbs hbpb hfresh hne
      hdata (fun c hc => (hclear c hc).2)

/-- Witness for C5 on the concrete pool, whose counter 3 is 4 blocks minus 1 free block:
`Clear()`, a debug `Free(2020)`, an allocate that pops the free block 3028, and, on the fresh
pool, an allocate that grows the pool by its first blob. -/
theorem counter_invariant_witness :
    (IsFreeChain exPool.mem exPool.m_pHeadOfFreeList [3028] ∧ BlobList exPool [2000, 3000] ∧
      PrevOk exPool [2000, 3000] ∧ CountInv exPool [3028] [2000, 3000] ∧
      maxPtrSize ≤ exPool.m_BlockSize ∧ BlobsApart exPool [2000, 3000] ∧
      BlocksOf exPool [2000, 3000] [3028] ∧ (2020 : Int) ∈ blobBlocks exPool 2000) ∧
    (∃ ev s1, CUtlMemoryPool.Clear 2 exPool = .ok (ev, s1) ∧
      IsFreeChain s1.mem s1.m_pHeadOfFreeList [] ∧ BlobList s1 [] ∧ PrevOk s1 [] ∧
      CountInv s1 [] [] ∧ PoolInvariant s1) ∧
    (∃ s1, CUtlMemoryPool.Free true 2 exPool 2020 = .ok s1 ∧
      IsFreeChain s1.mem s1.m_pHeadOfFreeList [2020, 3028] ∧ BlobList s1 [2000, 3000] ∧
      PrevOk s1 [2000, 3000] ∧ CountInv s1 [2020, 3028] [2000, 3000] ∧
      BlobsApart s1 [2000, 3000] ∧ BlocksOf s1 [2000, 3000] [2020, 3028] ∧ PoolInvariant s1) ∧
    (PoolInvariant (CUtlMemoryPool.AllocAmount 4000 4020 8 exPool).2 ∧
      PoolInvariant (CUtlMemoryPool.Alloc 4000 4020 exPool).2) ∧
    (PoolInvariant (CUtlMemoryPool.AllocAmount 2000 2020 8 exFresh).2 ∧
      PoolInvariant (CUtlMemoryPool.Alloc 2000 2020 exFresh).2) ∧
    PoolInvariant (CUtlMemoryPool.AllocZero 4000 4020 exPool).2 :=
  ⟨⟨by decide, by decide, by decide, by decide, by decide, by decide, by decide, by decide⟩,
    counter_invariant.1 2 exPool [2000, 3000] (by decide) (by decide),
    counter_invariant.2.1 true 2 exPool [3028] [2000, 3000] 2020 (by decide) (by decide)
      (by decide) (by decide) (by decide) (by decide) (by decide) (by decide)
      ⟨2000, by decide, by decide⟩ (by decide)
      (fun _ => ⟨by decide, ⟨2000, by decide, by decide⟩⟩),
    counter_invariant.2.2.1 4000 4020 8 exPool [3028] [2000, 3000] (by decide) (by decide)
      (by decide) (by decide) (by decide) (by decide) (by decide) (by decide) (by decide),
    counter_invariant.2.2.1 2000 2020 8 exFresh [] [] (by decide) (by decide)
      (by decide) (by decide) (by decide) (by decide) (by decide) (by decide) (by decide),
    counter_invariant.2.2.2 4000 4020 exPool [3028] [2000, 3000] (by decide) (by decide)
      (by decide) (by decide) (by decide) (by decide) (by decide) (by decide) (by decide)
      (by decide)⟩

/-! ## C6: `Count()` is the number of allocates minus the number of frees -/

theorem allocAmount_counters (pBlob pData amount : Int) (s : CUtlMemoryPool) :
    ((CUtlMemoryPool.AllocAmount pBlob pData amount s).1 ≠ 0 →
      (CUtlMemoryPool.AllocAmount pBlob pData amount s).2.m_BlocksAllocated =
          s.m_BlocksAllocated + 1 ∧
        (CUtlMemoryPool.AllocAmount pBlob pData amount s).2.m_PeakAlloc =
          max s.m_PeakAlloc (s.m_BlocksAllocated + 1)) ∧
    ((CUtlMemoryPool.AllocAmount pBlob pData amount s).1 = 0 →
      (CUtlMemoryPool.AllocAmount pBlob pData amount s).2.m_BlocksAllocated =
          s.m_BlocksAllocated ∧
        (CUtlMemoryPool.AllocAmount pBlob pData amount s).2.m_PeakAlloc = s.m_PeakAlloc) := by
  by_cases ha : amount > s.m_BlockSize
  · have : CUtlMemoryPool.AllocAmount pBlob pData amount s = (0, s) := by
      simp [CUtlMemoryPool.AllocAmount, ha]
    rw [this]
    simp
  by_cases hh : s.m_pHeadOfFreeList = 0
  · by_cases hg : s.m_GrowMode = CUtlMemoryPool.GROW_NONE
    · have : CUtlMemoryPool.AllocAmount pBlob pData amount s = (0, s) := by
        simp [CUtlMemoryPool.AllocAmount, ha, hh, hg]
      rw [this]
      simp
    · by_cases ht : (CUtlMemoryPool.AddNewBlob pBlob pData s).m_pHeadOfFreeList = 0
      · have : CUtlMemoryPool.AllocAmount pBlob pData amount s =
            (0, CUtlMemoryPool.AddNewBlob pBlob pData s) := by
          simp [CUtlMemoryPool.AllocAmount, ha, hh, hg, ht]
        rw [this]
        simp [CUtlMemoryPool.AddNewBlob]
      · rw [allocAmount_grow pBlob pData amount ha hh hg ht]
        exact ⟨fun _ => ⟨rfl, rfl⟩, fun h => absurd h ht⟩
  · rw [allocAmount_pop pBlob pData amount ha hh]
    exact ⟨fun _ => ⟨rfl, rfl⟩, fun h => absurd h hh⟩

theorem free_counters {debug : Bool} {fuel : Nat} {s s1 : CUtlMemoryPool} {b : Int}
    (hb : b ≠ 0) (h : CUtlMemoryPool.Free debug fuel s b = .ok s1) :
    s1.m_BlocksAllocated = s.m_BlocksAllocated - 1 ∧ s1.m_PeakAlloc = s.m_PeakAlloc := by
  unfold CUtlMemoryPool.Free at h
  simp only [hb, if_false] at h
  cases debug with
  | false =>
    simp only [Bool.false_eq_true, if_false, Except.ok.injEq] at h
    subst h
    exact ⟨rfl, rfl⟩
  | true =>
    simp only [if_true] at h
    cases hscan : CUtlMemoryPool.rangeScan s b fuel s.m_BlobHead.m_pNext false with
    | error e => rw [hscan] at h; simp at h
    | ok bOK =>
      rw [hscan] at h
      cases bOK with
      | false => simp at h
      | true =>
        simp only [if_true, Except.ok.injEq] at h
        subst h
        exact ⟨rfl, rfl⟩

theorem free_null (debug : Bool) (fuel : Nat) (s : CUtlMemoryPool) :
    CUtlMemoryPool.Free debug fuel s 0 = .ok s := by
  simp [CUtlMemoryPool.Free]

theorem runOps_count (debug : Bool) (fuel : Nat) :
    ∀ (ops : List Op) (s : CUtlMemoryPool) (live : List Int), (0 : Int) ∉ live →
      admissible debug fuel ops s live = true →
      ∃ s1, runOps debug fuel ops s = .ok s1 ∧
        s1.Count = s.Count + ops.countP Op.isAlloc - ops.countP Op.freesBlock
  | [], s, _, _, _ => ⟨s, rfl, by simp⟩
  | .alloc pBlob pData :: ops, s, live, h0, hadm => by
    simp only [admissible, Bool.and_eq_true, decide_eq_true_eq] at hadm
    obtain ⟨hr, hadm⟩ := hadm
    have h0' : (0 : Int) ∉ (CUtlMemoryPool.Alloc pBlob pData s).1 :: live := by
      simp only [List.mem_cons, not_or]
      exact ⟨fun e => hr e.symm, h0⟩
    obtain ⟨s1, hrun, hcount⟩ := runOps_count debug fuel ops _ _ h0' hadm
    refine ⟨s1, by simpa [runOps, step] using hrun, ?_⟩
    have hc := ((allocAmount_counters pBlob pData s.m_BlockSize s).1 hr).1
    have hc' : (CUtlMemoryPool.Alloc pBlob pData s).2.Count = s.Count + 1 := hc
    rw [hcount, hc']
    simp only [List.countP_cons, Op.isAlloc, Op.freesBlock, if_true, Bool.false_eq_true,
      if_false]
    push_cast
    ring
  | .free b :: ops, s, live, h0, hadm => by
    simp only [admissible, Bool.and_eq_true, Bool.or_eq_true, decide_eq_true_eq] at hadm
    obtain ⟨hb, hadm⟩ := hadm
    cases hf : CUtlMemoryPool.Free debug fuel s b with
    | error e => rw [hf] at hadm; simp at hadm
    | ok t =>
      rw [hf] at hadm
      have h0' : (0 : Int) ∉ live.erase b := fun h => h0 (List.mem_of_mem_erase h)
      obtain ⟨s1, hrun, hcount⟩ := runOps_count debug fuel ops t _ h0' hadm
      refine ⟨s1, by simpa [runOps, step, hf] using hrun, ?_⟩
      by_cases hb0 : b = 0
      · subst hb0
        have ht : t = s := by
          rw [free_null] at hf
          exact (Except.ok.inj hf).symm
        rw [hcount, ht]
        simp [List.countP_cons, Op.isAlloc, Op.freesBlock]
      · have hc : t.Count = s.Count - 1 := (free_counters hb0 hf).1
        rw [hcount, hc]
        simp only [List.countP_cons, Op.isAlloc, Op.freesBlock, hb0, ne_eq, not_false_eq_true,
          decide_True, if_true, Bool.false_eq_true, if_false]
        push_cast
        ring
  | .clear :: _, _, _, _, hadm => by simp [admissible] at hadm

/-- C6.  Take a freshly constructed pool `s0` and a sequence `ops` of allocate and `Free`
calls in which every allocate returns a block and every `Free` returns and is given null or a
block that is live at that time.  Then the sequence runs to the end and `Count()` afterwards is
the number of allocates minus the number of frees of a block (`Free(null)` frees nothing and is
not counted).  Moreover, in any state, a `Free` of a non-null block
that returns lowers `Count()` by exactly one, an allocate that returns a block raises it by
exactly one, and a failed allocate and `Free(null)` leave it unchanged.  `Free` always returns
in a release build, and in a debug build it returns for every address in a blob of a
well-formed blob list. -/
theorem count_is_allocs_minus_frees (debug : Bool) (fuel ptrSize : Nat) (pBlobHead : Int)
    (mem0 : Int → Int) (blockSize numElements growMode : Int) (nAlignment : Nat)
    (s0 : CUtlMemoryPool) (ops : List Op)
    (hnew : CUtlMemoryPool.construct ptrSize pBlobHead mem0 blockSize numElements growMode
      nAlignment = some s0)
    (hadm : admissible debug fuel ops s0 [] = true) :
    (∃ s1, runOps debug fuel ops s0 = .ok s1 ∧
      s1.Count = (ops.countP Op.isAlloc : Int) - ops.countP Op.freesBlock) ∧
    (∀ (s s1 : CUtlMemoryPool) (b : Int), b ≠ 0 → CUtlMemoryPool.Free debug fuel s b = .ok s1 →
      s1.Count = s.Count - 1) ∧
    (∀ (s : CUtlMemoryPool) (pBlob pData : Int), (CUtlMemoryPool.Alloc pBlob pData s).1 ≠ 0 →
      (CUtlMemoryPool.Alloc pBlob pData s).2.Count = s.Count + 1) ∧
    (∀ (s : CUtlMemoryPool) (pBlob pData : Int), (CUtlMemoryPool.Alloc pBlob pData s).1 = 0 →
      (CUtlMemoryPool.Alloc pBlob pData s).2.Count = s.Count) ∧
    (∀ s : CUtlMemoryPool, CUtlMemoryPool.Free debug fuel s 0 = .ok s) ∧
    (debug = false → ∀ (s : CUtlMemoryPool) (b : Int),
      ∃ s1, CUtlMemoryPool.Free debug fuel s b = .ok s1) ∧
    (∀ (s : CUtlMemoryPool) (bl : List Int) (b : Int), BlobList s bl → bl.length ≤ fuel →
      (∃ a ∈ bl, inBlob s a b = true) → ∃ s1, CUtlMemoryPool.Free debug fuel s b = .ok s1) := by
  refine ⟨?_, ?_, ?_, ?_, free_null debug fuel, ?_, ?_⟩
  · obtain ⟨s1, hrun, hcount⟩ := runOps_count debug fuel ops s0 [] (by simp) hadm
    refine ⟨s1, hrun, ?_⟩
    have h0 : s0.Count = 0 := by
      unfold CUtlMemoryPool.construct at hnew
      split at hnew
      · simp at hnew
      · simp only [Option.some.injEq] at hnew
        subst hnew
        rfl
    rw [hcount, h0, zero_add]
  · intro s s1 b hb h
    exact (free_counters hb h).1
  · intro s pBlob pData h
    exact ((allocAmount_counters pBlob pData s.m_BlockSize s).1 h).1
  · intro s pBlob pData h
    exact ((allocAmount_counters pBlob pData s.m_BlockSize s).2 h).1
  · intro hd s b
    subst hd
    by_cases hb : b = 0
    · exact ⟨s, by rw [hb]; exact free_null false fuel s⟩
    · exact ⟨_, free_release_eq fuel s hb⟩
  · intro s bl b hbl hfuel hin
    by_cases hb : b = 0
    · exact ⟨s, by rw [hb]; exact free_null debug fuel s⟩
    · cases debug with
      | false => exact ⟨_, free_release_eq fuel s hb⟩
      | true =>
        obtain ⟨a, ha, hab⟩ := hin
        have hany : (bl.any fun a => inBlob s a b) = true := List.any_eq_true.2 ⟨a, ha, hab⟩
        exact ⟨_, by rw [free_debug_eq hbl hfuel hb, if_pos hany]⟩

/-- Witness for C6: four allocates, two frees of a block and one `Free(null)` on a fresh
pool, in a debug build, leave `Count() == 2`. -/
theorem count_is_allocs_minus_frees_witness :
    (CUtlMemoryPool.construct 8 1000 (fun _ => 0) 8 2 CUtlMemoryPool.GROW_SLOW 0 = some exFresh ∧
      admissible true 4 exOps exFresh [] = true) ∧
    (∃ s1, runOps true 4 exOps exFresh = .ok s1 ∧
      s1.Count = (exOps.countP Op.isAlloc : Int) - exOps.countP Op.freesBlock) ∧
    (exOps.countP Op.isAlloc : Int) - exOps.countP Op.freesBlock = 2 :=
  ⟨⟨rfl, by decide⟩,
    (count_is_allocs_minus_frees true 4 8 1000 (fun _ => 0) 8 2 CUtlMemoryPool.GROW_SLOW 0
      exFresh exOps rfl (by decide)).1,
    by decide⟩

/-! ## C7: the peak counter -/

/-- C7.  On a pool with a well-formed blob list every operation (allocate, `Free`, `Clear`)
either returns or is a debug `Free` of an address outside every blob, which stops at the
assertion and changes nothing.  When it returns, `PeakCount()` has not decreased, and
`PeakCount() >= Count()` holds afterwards if it held before with `Count()` non-negative.
`Free` leaves `PeakCount()` as it was and does not raise `Count()`; `Clear` leaves `PeakCount()`
as it was and sets `Count()` to 0. -/
theorem peak_never_decreases (debug : Bool) (fuel : Nat) (s : CUtlMemoryPool) (bl : List Int)
    (op : Op) (hbl : BlobList s bl) (hfuel : bl.length ≤ fuel) :
    (∃ r s1, step debug fuel s op = .ok (r, s1) ∧
      s.PeakCount ≤ s1.PeakCount ∧
      (0 ≤ s.Count → s.Count ≤ s.PeakCount → s1.Count ≤ s1.PeakCount) ∧
      (op.isFree = true → s1.PeakCount = s.PeakCount ∧ s1.Count ≤ s.Count) ∧
      (op = Op.clear → s1.PeakCount = s.PeakCount ∧ s1.Count = 0)) ∨
    (debug = true ∧ ∃ b, op = Op.free b ∧ b ≠ 0 ∧ (∀ a ∈ bl, inBlob s a b = false) ∧
      step debug fuel s op = .error .assertion) := by
  cases op with
  | alloc pBlob pData =>
    left
    refine ⟨_, _, rfl, ?_, ?_, by simp [Op.isFree], by simp⟩
    · by_cases hr : (CUtlMemoryPool.Alloc pBlob pData s).1 = 0
      · have := ((allocAmount_counters pBlob pData s.m_BlockSize s).2 hr).2
        exact le_of_eq this.symm
      · have := ((allocAmount_counters pBlob pData s.m_BlockSize s).1 hr).2
        show s.m_PeakAlloc ≤ (CUtlMemoryPool.AllocAmount pBlob pData s.m_BlockSize s).2.m_PeakAlloc
        rw [this]
        exact le_max_left _ _
    · intro _ hle
      by_cases hr : (CUtlMemoryPool.Alloc pBlob pData s).1 = 0
      · obtain ⟨h1, h2⟩ := (allocAmount_counters pBlob pData s.m_BlockSize s).2 hr
        show (CUtlMemoryPool.AllocAmount pBlob pData s.m_BlockSize s).2.m_BlocksAllocated ≤
          (CUtlMemoryPool.AllocAmount pBlob pData s.m_BlockSize s).2.m_PeakAlloc
        rw [h1, h2]
        exact hle
      · obtain ⟨h1, h2⟩ := (allocAmount_counters pBlob pData s.m_BlockSize s).1 hr
        show (CUtlMemoryPool.AllocAmount pBlob pData s.m_BlockSize s).2.m_BlocksAllocated ≤
          (CUtlMemoryPool.AllocAmount pBlob pData s.m_BlockSize s).2.m_PeakAlloc
        rw [h1, h2]
        exact le_max_right _ _
  | free b =>
    by_cases hb : b = 0
    · left
      subst hb
      refine ⟨0, s, by simp [step, free_null], le_rfl, fun _ h => h, fun _ => ⟨rfl, le_rfl⟩,
        by simp⟩
    · have hpush : ∀ m : Int → Int,
          s.PeakCount ≤ (CUtlMemoryPool.pushFree { s with mem := m } b).PeakCount ∧
          (0 ≤ s.Count → s.Count ≤ s.PeakCount →
            (CUtlMemoryPool.pushFree { s with mem := m } b).Count ≤
              (CUtlMemoryPool.pushFree { s with mem := m } b).PeakCount) ∧
          (Op.isFree (Op.free b) = true →
            (CUtlMemoryPool.pushFree { s with mem := m } b).PeakCount = s.PeakCount ∧
            (CUtlMemoryPool.pushFree { s with mem := m } b).Count ≤ s.Count) := by
        intro m
        simp only [CUtlMemoryPool.PeakCount, CUtlMemoryPool.Count, CUtlMemoryPool.pushFree]
        refine ⟨le_rfl, fun _ h => by omega, fun _ => ⟨trivial, by omega⟩⟩
      cases debug with
      | false =>
        left
        obtain ⟨h1, h2, h3⟩ := hpush s.mem
        exact ⟨0, CUtlMemoryPool.pushFree s b, by simp [step, free_release_eq fuel s hb], h1, h2,
          h3, by simp⟩
      | true =>
        by_cases hany : (bl.any fun a => inBlob s a b) = true
        · left
          obtain ⟨h1, h2, h3⟩ := hpush (CUtlMemoryPool.memsetDD s.mem b s.m_BlockSize)
          exact ⟨0, _, by simp [step, free_debug_eq hbl hfuel hb, hany], h1, h2, h3, by simp⟩
        · right
          refine ⟨by simp, b, rfl, hb, ?_, by simp [step, free_debug_eq hbl hfuel hb, hany]⟩
          intro a ha
          by_contra hcon
          exact hany (List.any_eq_true.2 ⟨a, ha, by simpa using hcon⟩)
  | clear =>
    left
    refine ⟨0,
      CUtlMemoryPool.Init { s with blobs := fun a => if a ∈ bl then none else s.blobs a },
      by simp [step, rawClear_eq hbl hfuel], le_rfl, ?_, by simp [Op.isFree],
      fun _ => ⟨rfl, rfl⟩⟩
    intro h0 hle
    show (0 : Int) ≤ s.m_PeakAlloc
    exact le_trans h0 hle

/-- Witness for C7: `Clear` on the concrete pool returns, and so does a debug `Free(2020)`;
the debug `Free(5000)` of a foreign address is the assertion. -/
theorem peak_never_decreases_witness :
    (BlobList exPool [2000, 3000] ∧ [2000, 3000].length ≤ 2) ∧
    ((∃ r s1, step true 2 exPool Op.clear = .ok (r, s1) ∧
      exPool.PeakCount ≤ s1.PeakCount ∧
      (0 ≤ exPool.Count → exPool.Count ≤ exPool.PeakCount → s1.Count ≤ s1.PeakCount) ∧
      (Op.clear.isFree = true → s1.PeakCount = exPool.PeakCount ∧ s1.Count ≤ exPool.Count) ∧
      (Op.clear = Op.clear → s1.PeakCount = exPool.PeakCount ∧ s1.Count = 0)) ∨
    (true = true ∧ ∃ b, Op.clear = Op.free b ∧ b ≠ 0 ∧
      (∀ a ∈ [2000, 3000], inBlob exPool a b = false) ∧
      step true 2 exPool Op.clear = .error .assertion)) :=
  ⟨⟨by decide, by decide⟩,
    peak_never_decreases true 2 exPool [2000, 3000] Op.clear (by decide) (by decide)⟩

/-! ## C8: typed allocation constructs exactly when the raw pool returned a block -/

/-- C8.  Whatever the raw allocation does, typed `Alloc()` and typed `AllocZero()` return the
pointer and leave the pool state that the raw allocation returned; when that pointer is null
they call no constructor, and otherwise they call the constructor exactly once, on that
pointer. -/
theorem typedAlloc_constructs_iff_allocated
    (rawAlloc rawAllocZero : CUtlMemoryPool → Int × CUtlMemoryPool) (s : CUtlMemoryPool) :
    CClassMemoryPoolExt.Alloc rawAlloc s =
      ((rawAlloc s).1,
        (if (rawAlloc s).1 = 0 then [] else [Event.construct (rawAlloc s).1]),
        (rawAlloc s).2) ∧
    CClassMemoryPoolExt.AllocZero rawAllocZero s =
      ((rawAllocZero s).1,
        (if (rawAllocZero s).1 = 0 then [] else [Event.construct (rawAllocZero s).1]),
        (rawAllocZero s).2) ∧
    (∀ a, ((CClassMemoryPoolExt.Alloc rawAlloc s).2.1.count (Event.construct a) =
      if (rawAlloc s).1 ≠ 0 ∧ a = (rawAlloc s).1 then 1 else 0) ∧
      ((CClassMemoryPoolExt.AllocZero rawAllocZero s).2.1.count (Event.construct a) =
      if (rawAllocZero s).1 ≠ 0 ∧ a = (rawAllocZero s).1 then 1 else 0)) := by
  have key : ∀ f : CUtlMemoryPool → Int × CUtlMemoryPool,
      (if (f s).1 ≠ 0 then ((f s).1, [Event.construct (f s).1], (f s).2)
        else ((f s).1, ([] : List Event), (f s).2)) =
      ((f s).1, (if (f s).1 = 0 then [] else [Event.construct (f s).1]), (f s).2) := by
    intro f
    by_cases h : (f s).1 = 0 <;> simp [h]
  have hcount : ∀ (f : CUtlMemoryPool → Int × CUtlMemoryPool) (a : Int),
      (if (f s).1 = 0 then ([] : List Event) else [Event.construct (f s).1]).count
          (Event.construct a) =
        if (f s).1 ≠ 0 ∧ a = (f s).1 then 1 else 0 := by
    intro f a
    by_cases h : (f s).1 = 0
    · simp [h]
    · by_cases ha : a = (f s).1
      · simp [h, ha]
      · have hne : ((Event.construct (f s).1) == (Event.construct a)) = false := by
          simpa using fun e : (f s).1 = a => ha e.symm
        simp [h, ha, List.count_cons, hne]
  have h1 : CClassMemoryPoolExt.Alloc rawAlloc s = _ := key rawAlloc
  have h2 : CClassMemoryPoolExt.AllocZero rawAllocZero s = _ := key rawAllocZero
  refine ⟨h1, h2, fun a => ⟨?_, ?_⟩⟩
  · rw [h1]
    exact hcount rawAlloc a
  · rw [h2]
    exact hcount rawAllocZero a

/-! ## C9 and C10: the debug range check of `Free` -/

theorem inBlob_iff (s : CUtlMemoryPool) (a b : Int) :
    inBlob s a b = true ↔
      ∃ blob, s.blobs a = some blob ∧ blob.m_Data ≤ b ∧ b < blob.m_Data + blob.m_NumBytes := by
  unfold inBlob
  cases h : s.blobs a with
  | none => simp
  | some blob => simp

/-- C9.  In a debug build, on a pool whose blob list is the circular list `bl`, `Free(b)` of a
non-null address returns or stops at the assertion, and it stops at the assertion if and only
if no blob of the list has `m_Data <= b < m_Data + m_NumBytes`.  In particular an address that
does not come from this pool, so that it lies in the data range of none of its blobs, takes
the fail-fast path, and the pool is not touched. -/
theorem debugFree_asserts_iff_outside (fuel : Nat) (s : CUtlMemoryPool) (bl : List Int) (b : Int)
    (hbl : BlobList s bl) (hfuel : bl.length ≤ fuel) (hb : b ≠ 0) :
    (CUtlMemoryPool.Free true fuel s b = .error .assertion ↔
      ¬ ∃ a ∈ bl, ∃ blob, s.blobs a = some blob ∧
        blob.m_Data ≤ b ∧ b < blob.m_Data + blob.m_NumBytes) ∧
    ((∃ a ∈ bl, ∃ blob, s.blobs a = some blob ∧
        blob.m_Data ≤ b ∧ b < blob.m_Data + blob.m_NumBytes) →
      ∃ s1, CUtlMemoryPool.Free true fuel s b = .ok s1) ∧
    ((∀ a ∈ bl, ∀ blob, s.blobs a = some blob →
        ¬ (blob.m_Data ≤ b ∧ b < blob.m_Data + blob.m_NumBytes)) →
      CUtlMemoryPool.Free true fuel s b = .error .assertion) := by
  have hany : (bl.any fun a => inBlob s a b) = true ↔
      ∃ a ∈ bl, ∃ blob, s.blobs a = some blob ∧
        blob.m_Data ≤ b ∧ b < blob.m_Data + blob.m_NumBytes := by
    rw [List.any_eq_true]
    constructor
    · rintro ⟨a, ha, h⟩
      exact ⟨a, ha, (inBlob_iff s a b).1 h⟩
    · rintro ⟨a, ha, h⟩
      exact ⟨a, ha, (inBlob_iff s a b).2 h⟩
  rw [free_debug_eq hbl hfuel hb]
  refine ⟨?_, ?_, ?_⟩
  · rw [← hany]
    by_cases h : (bl.any fun a => inBlob s a b) = true <;> simp [h]
  · intro h
    rw [if_pos (hany.2 h)]
    exact ⟨_, rfl⟩
  · intro h
    have : ¬ (bl.any fun a => inBlob s a b) = true := by
      rw [hany]
      rintro ⟨a, ha, blob, hblob, hr⟩
      exact h a ha blob hblob hr
    rw [if_neg this]

/-- Witness for C9: 5000 lies in neither blob of the concrete pool, and the debug `Free(5000)`
stops at the assertion. -/
theorem debugFree_asserts_iff_outside_witness :
    (BlobList exPool [2000, 3000] ∧ [2000, 3000].length ≤ 2 ∧ (5000 : Int) ≠ 0) ∧
    (∀ a ∈ [2000, 3000], ∀ blob, exPool.blobs a = some blob →
        ¬ (blob.m_Data ≤ 5000 ∧ 5000 < blob.m_Data + blob.m_NumBytes)) ∧
    CUtlMemoryPool.Free true 2 exPool 5000 = .error .assertion :=
  have hout : ∀ a ∈ [2000, 3000], ∀ blob, exPool.blobs a = some blob →
      ¬ (blob.m_Data ≤ 5000 ∧ 5000 < blob.m_Data + blob.m_NumBytes) := by
    intro a ha blob hblob
    simp only [List.mem_cons, List.mem_singleton, List.not_mem_nil, or_false] at ha
    rcases ha with rfl | rfl
    · have : blob = { m_pPrev := 1000, m_pNext := 3000, m_NumBytes := 16, m_Data := 2020 } := by
        simpa [exPool, exBlobs] using hblob.symm
      subst this
      decide
    · have : blob = { m_pPrev := 2000, m_pNext := 1000, m_NumBytes := 16, m_Data := 3020 } := by
        simpa [exPool, exBlobs] using hblob.symm
      subst this
      decide
  ⟨⟨by decide, by decide, by decide⟩, hout,
    (debugFree_asserts_iff_outside 2 exPool [2000, 3000] 5000 (by decide) (by decide)
      (by decide)).2.2 hout⟩

/-- C10 as stated fails: in a debug build the second `Free(2020)` on the concrete pool does not
stop at the assertion.  Both calls return; the second lowers `Count()` from 2 to 1 and leaves
the link word of 2020 pointing to 2020 itself. -/
theorem double_free_counterexample :
    ∃ s1 s2, CUtlMemoryPool.Free true 2 exPool 2020 = .ok s1 ∧
      CUtlMemoryPool.Free true 2 s1 2020 = .ok s2 ∧
      exPool.Count = 3 ∧ s1.Count = 2 ∧ s2.Count = 1 ∧
      s2.m_pHeadOfFreeList = 2020 ∧ s2.mem 2020 = 2020 :=
  ⟨_, _, rfl, rfl, by decide, by decide, by decide, by decide, by decide⟩

/-- C10, amended.  In a debug build a second `Free(b)` is checked like the first one, against
the blob ranges only: for every pool whose blob list is the circular list `bl` and every
non-null `b` in the data range of one of its blobs, `Free(b)` followed by `Free(b)` returns
twice without an assertion failure, lowers `Count()` by two, and leaves `b` at the head of the
free list with its link word pointing to `b` itself. -/
theorem debugFree_twice_not_detected (fuel : Nat) (s : CUtlMemoryPool) (bl : List Int) (b : Int)
    (hbl : BlobList s bl) (hfuel : bl.length ≤ fuel) (hb : b ≠ 0)
    (hin : ∃ a ∈ bl, ∃ blob, s.blobs a = some blob ∧
      blob.m_Data ≤ b ∧ b < blob.m_Data + blob.m_NumBytes) :
    ∃ s1 s2, CUtlMemoryPool.Free true fuel s b = .ok s1 ∧
      CUtlMemoryPool.Free true fuel s1 b = .ok s2 ∧
      s1.Count = s.Count - 1 ∧ s2.Count = s.Count - 2 ∧
      s2.m_pHeadOfFreeList = b ∧ s2.mem b = b ∧
      ∀ n, reach s2.mem n s2.m_pHeadOfFreeList = List.replicate n b := by
  have hany : (bl.any fun a => inBlob s a b) = true := by
    obtain ⟨a, ha, h⟩ := hin
    exact List.any_eq_true.2 ⟨a, ha, (inBlob_iff s a b).2 h⟩
  have hbl1 : BlobList (CUtlMemoryPool.pushFree
      { s with mem := CUtlMemoryPool.memsetDD s.mem b s.m_BlockSize } b) bl := hbl
  have hany1 : (bl.any fun a => inBlob (CUtlMemoryPool.pushFree
      { s with mem := CUtlMemoryPool.memsetDD s.mem b s.m_BlockSize } b) a b) = true := hany
  refine ⟨CUtlMemoryPool.pushFree
      { s with mem := CUtlMemoryPool.memsetDD s.mem b s.m_BlockSize } b,
    CUtlMemoryPool.pushFree
      { CUtlMemoryPool.pushFree
          { s with mem := CUtlMemoryPool.memsetDD s.mem b s.m_BlockSize } b with
        mem := CUtlMemoryPool.memsetDD
          (CUtlMemoryPool.pushFree
            { s with mem := CUtlMemoryPool.memsetDD s.mem b s.m_BlockSize } b).mem b
          (CUtlMemoryPool.pushFree
            { s with mem := CUtlMemoryPool.memsetDD s.mem b s.m_BlockSize } b).m_BlockSize } b,
    ?_, ?_, ?_, ?_, rfl, ?_, ?_⟩
  · rw [free_debug_eq hbl hfuel hb, if_pos hany]
  · rw [free_debug_eq hbl1 hfuel hb, if_pos hany1]
  · simp [CUtlMemoryPool.Count, CUtlMemoryPool.pushFree]
  · simp only [CUtlMemoryPool.Count, CUtlMemoryPool.pushFree]
    ring
  · simp [CUtlMemoryPool.pushFree]
  · have hlink : ∀ m : Int → Int, (Function.update m b b) b = b := fun m => by simp
    intro n
    induction n with
    | zero => rfl
    | succ n ih =>
      simp only [CUtlMemoryPool.pushFree, Function.update_same] at ih ⊢
      simp only [reach, hb, if_false, Function.update_same, List.replicate_succ, ih]

/-- Witness for the amended C10: the live block 2020 of the concrete pool, freed twice in a
debug build. -/
theorem debugFree_twice_not_detected_witness :
    (BlobList exPool [2000, 3000] ∧ [2000, 3000].length ≤ 2 ∧ (2020 : Int) ≠ 0 ∧
      ∃ a ∈ [2000, 3000], ∃ blob, exPool.blobs a = some blob ∧
        blob.m_Data ≤ 2020 ∧ 2020 < blob.m_Data + blob.m_NumBytes) ∧
    ∃ s1 s2, CUtlMemoryPool.Free true 2 exPool 2020 = .ok s1 ∧
      CUtlMemoryPool.Free true 2 s1 2020 = .ok s2 ∧
      s1.Count = exPool.Count - 1 ∧ s2.Count = exPool.Count - 2 ∧
      s2.m_pHeadOfFreeList = 2020 ∧ s2.mem 2020 = 2020 ∧
      ∀ n, reach s2.mem n s2.m_pHeadOfFreeList = List.replicate n 2020 :=
  have hin : ∃ a ∈ [2000, 3000], ∃ blob, exPool.blobs a = some blob ∧
      blob.m_Data ≤ 2020 ∧ 2020 < blob.m_Data + blob.m_NumBytes :=
    ⟨2000, by decide, { m_pPrev := 1000, m_pNext := 3000, m_NumBytes := 16, m_Data := 2020 },
      rfl, by decide, by decide⟩
  ⟨⟨by decide, by decide, by decide, hin⟩,
    debugFree_twice_not_detected 2 exPool [2000, 3000] 2020 (by decide) (by decide) (by decide)
      hin⟩

/-! ## C13: `Free(null)` -/

/-- C13.  `Free(null)` is a no-op in both builds, on every pool state and whatever the fuel:
it returns, raising no assertion, and the state it returns has the same free-list head,
`blocksAllocated`, `peakAllocated`, blob count, sentinel, blob headers and block memory as
before; it is the state it was given. -/
theorem free_null_is_noop (debug : Bool) (fuel : Nat) (s : CUtlMemoryPool) :
    ∃ s1, CUtlMemoryPool.Free debug fuel s 0 = .ok s1 ∧
      s1.m_pHeadOfFreeList = s.m_pHeadOfFreeList ∧
      s1.m_BlocksAllocated = s.m_BlocksAllocated ∧ s1.m_PeakAlloc = s.m_PeakAlloc ∧
      s1.m_NumBlobs = s.m_NumBlobs ∧ s1.m_BlobHead = s.m_BlobHead ∧
      s1.blobs = s.blobs ∧ s1.mem = s.mem ∧ s1.Count = s.Count ∧
      s1.PeakCount = s.PeakCount ∧
      CUtlMemoryPool.Free debug fuel s 0 = .ok s :=
  ⟨s, free_null debug fuel s, rfl, rfl, rfl, rfl, rfl, rfl, rfl, rfl, rfl, free_null debug fuel s⟩

/-! ## C17: raw `Clear` releases every blob once -/

/-- C17.  On a pool whose blob list is the finite circular list `bl`, whatever its free list,
counters and block memory are, raw `Clear()` returns and the calls it makes to the heap are
exactly one release per blob of the list, in list order: every blob of the list is released
exactly once, the sentinel and every address outside the list zero times.  Every released
header is gone from the heap afterwards and no other header is touched.  The call does not stop
at the fault that a read of a released (or never allocated) header raises in the model: the
link of a blob is read before the blob is released. -/
theorem rawClear_releases_each_blob_once (fuel : Nat) (s : CUtlMemoryPool) (bl : List Int)
    (hbl : BlobList s bl) (hfuel : bl.length ≤ fuel) :
    ∃ s1, CUtlMemoryPool.Clear fuel s = .ok (bl.map Event.release, s1) ∧
      (∀ a ∈ bl, (bl.map Event.release).count (Event.release a) = 1) ∧
      (∀ a, a ∉ bl → (bl.map Event.release).count (Event.release a) = 0) ∧
      (bl.map Event.release).count (Event.release s.pBlobHead) = 0 ∧
      (∀ a ∈ bl, s1.blobs a = none) ∧ (∀ a, a ∉ bl → s1.blobs a = s.blobs a) ∧
      CUtlMemoryPool.Clear fuel s ≠ .error .badRead := by
  have hinj : Function.Injective Event.release := fun a b h => by injection h
  have hcount : ∀ a, (bl.map Event.release).count (Event.release a) = bl.count a :=
    fun a => List.count_map_of_injective bl Event.release hinj a
  have hnd : bl.Nodup := isPath_nodup hbl
  have hhead : s.pBlobHead ∉ bl := fun h => isBlobPath_mem_ne hbl h rfl
  refine ⟨_, rawClear_eq hbl hfuel, ?_, ?_, ?_, ?_, ?_, ?_⟩
  · intro a ha
    rw [hcount a]
    exact List.count_eq_one_of_mem hnd ha
  · intro a ha
    rw [hcount a]
    exact List.count_eq_zero_of_not_mem ha
  · rw [hcount]
    exact List.count_eq_zero_of_not_mem hhead
  · intro a ha
    simp [CUtlMemoryPool.Init, ha]
  · intro a ha
    simp [CUtlMemoryPool.Init, ha]
  · rw [rawClear_eq hbl hfuel]
    exact fun h => by cases h

/-- Witness for C17 on the concrete pool: the blobs at 2000 and 3000 are released once
each, with three of their four blocks live. -/
theorem rawClear_releases_each_blob_once_witness :
    (BlobList exPool [2000, 3000] ∧ [2000, 3000].length ≤ 2) ∧
    ∃ s1, CUtlMemoryPool.Clear 2 exPool = .ok ([2000, 3000].map Event.release, s1) ∧
      (∀ a ∈ [2000, 3000], ([2000, 3000].map Event.release).count (Event.release a) = 1) ∧
      (∀ a, a ∉ [2000, 3000] → ([2000, 3000].map Event.release).count (Event.release a) = 0) ∧
      ([2000, 3000].map Event.release).count (Event.release exPool.pBlobHead) = 0 ∧
      (∀ a ∈ [2000, 3000], s1.blobs a = none) ∧
      (∀ a, a ∉ [2000, 3000] → s1.blobs a = exPool.blobs a) ∧
      CUtlMemoryPool.Clear 2 exPool ≠ .error .badRead :=
  ⟨⟨by decide, by decide⟩,
    rawClear_releases_each_blob_once 2 exPool [2000, 3000] (by decide) (by decide)⟩

/-! ## C18: typed `Free` is typed `Clear` -/

/-- C18.  Typed `Free(p)` does not depend on `p` and is typed `Clear()`: for every element
size, fuel, pool state and pointer, null, live, free or foreign, it makes the same calls and
ends in the same pool state, or stops at the same fault, as `Clear()` run from that state. -/
theorem typedFree_eq_typedClear (sizeofT fuel : Nat) (s : CUtlMemoryPool) (p q : Int) :
    CClassMemoryPoolExt.Free sizeofT fuel s p = CClassMemoryPoolExt.Clear sizeofT fuel s ∧
    CClassMemoryPoolExt.Free sizeofT fuel s p = CClassMemoryPoolExt.Free sizeofT fuel s q :=
  ⟨rfl, rfl⟩

/-! ## C20: `PackedEntity::FreeData` -/

theorem freeData_of_null {e : PackedEntity} (h : e.m_pData = 0) :
    PackedEntity.FreeData e = ([], e) := by
  simp [PackedEntity.FreeData, h]

theorem freeData_data_null (e : PackedEntity) : (PackedEntity.FreeData e).2.m_pData = 0 := by
  unfold PackedEntity.FreeData
  by_cases h : e.m_pData = 0 <;> simp [h]

theorem freeDataTimes_of_null :
    ∀ (n : Nat) {e : PackedEntity}, e.m_pData = 0 → PackedEntity.freeDataTimes n e = ([], e)
  | 0, _, _ => rfl
  | n + 1, e, h => by
    simp only [PackedEntity.freeDataTimes, freeData_of_null h, freeDataTimes_of_null n h,
      List.append_nil]

theorem lifetime_events (n : Nat) (e : PackedEntity) :
    (PackedEntity.lifetime n e).1 =
      (if e.m_pData ≠ 0 then [PackedEvent.freeData e.m_pData] else []) ++
      (if e.m_pChangeFrameList ≠ 0 then [PackedEvent.releaseList e.m_pChangeFrameList]
        else []) := by
  cases n with
  | zero =>
    by_cases hd : e.m_pData = 0 <;> by_cases hl : e.m_pChangeFrameList = 0 <;>
      simp [PackedEntity.lifetime, PackedEntity.freeDataTimes, PackedEntity.destroy,
        PackedEntity.FreeData, hd, hl]
  | succ n =>
    have h0 := freeData_data_null e
    simp only [PackedEntity.lifetime, PackedEntity.freeDataTimes, freeDataTimes_of_null n h0,
      List.append_nil]
    by_cases hd : e.m_pData = 0 <;> by_cases hl : e.m_pChangeFrameList = 0 <;>
      simp [PackedEntity.destroy, PackedEntity.FreeData, hd, hl]

/-- C20.  `FreeData()` leaves the packed-data pointer null and is idempotent: a second
`FreeData()` makes no call and changes nothing, and the destructor run after a `FreeData()`
releases the data buffer zero further times.  Across any number `n` of `FreeData()` calls
followed by the destructor, the calls made are one `free` of the data buffer if the pointer was
non-null at the start, none otherwise, followed by one `Release()` of the change-frame list if
that pointer is non-null, none otherwise; so the buffer is released at most once and the list
exactly once when it is non-null and never when it is null.  A freshly constructed entity
releases nothing. -/
theorem freeData_idempotent_and_destructor_safe (n : Nat) (e : PackedEntity) :
    (PackedEntity.FreeData e).2.m_pData = 0 ∧
    PackedEntity.FreeData (PackedEntity.FreeData e).2 = ([], (PackedEntity.FreeData e).2) ∧
    (PackedEntity.destroy (PackedEntity.FreeData e).2).1.countP PackedEvent.isFreeData = 0 ∧
    (PackedEntity.lifetime n e).1 =
      (if e.m_pData ≠ 0 then [PackedEvent.freeData e.m_pData] else []) ++
      (if e.m_pChangeFrameList ≠ 0 then [PackedEvent.releaseList e.m_pChangeFrameList]
        else []) ∧
    (PackedEntity.lifetime n e).1.countP PackedEvent.isFreeData ≤ 1 ∧
    (PackedEntity.lifetime n e).1.countP PackedEvent.isReleaseList =
      (if e.m_pChangeFrameList ≠ 0 then 1 else 0) ∧
    (PackedEntity.lifetime n e).2.m_pData = 0 ∧
    (PackedEntity.lifetime n e).2.m_pChangeFrameList = 0 ∧
    (PackedEntity.lifetime n PackedEntity.construct).1 = [] := by
  have h0 := freeData_data_null e
  refine ⟨h0, freeData_of_null h0, ?_, lifetime_events n e, ?_, ?_, ?_, ?_, ?_⟩
  · have := lifetime_events 0 (PackedEntity.FreeData e).2
    simp only [PackedEntity.lifetime, PackedEntity.freeDataTimes, List.nil_append] at this
    rw [this, h0]
    by_cases hl : (PackedEntity.FreeData e).2.m_pChangeFrameList = 0 <;>
      simp [hl, PackedEvent.isFreeData]
  · rw [lifetime_events]
    by_cases hd : e.m_pData = 0 <;> by_cases hl : e.m_pChangeFrameList = 0 <;>
      simp [hd, hl, PackedEvent.isFreeData, List.countP_cons]
  · rw [lifetime_events]
    by_cases hd : e.m_pData = 0 <;> by_cases hl : e.m_pChangeFrameList = 0 <;>
      simp [hd, hl, PackedEvent.isReleaseList, List.countP_cons]
  · cases n with
    | zero =>
      by_cases hd : e.m_pData = 0 <;> by_cases hl : e.m_pChangeFrameList = 0 <;>
        simp [PackedEntity.lifetime, PackedEntity.freeDataTimes, PackedEntity.destroy,
          PackedEntity.FreeData, hd, hl]
    | succ n =>
      simp only [PackedEntity.lifetime, PackedEntity.freeDataTimes, freeDataTimes_of_null n h0]
      by_cases hd : e.m_pData = 0 <;> by_cases hl : e.m_pChangeFrameList = 0 <;>
        simp [PackedEntity.destroy, PackedEntity.FreeData, hd, hl]
  · cases n with
    | zero =>
      by_cases hd : e.m_pData = 0 <;> by_cases hl : e.m_pChangeFrameList = 0 <;>
        simp [PackedEntity.lifetime, PackedEntity.freeDataTimes, PackedEntity.destroy,
          PackedEntity.FreeData, hd, hl]
    | succ n =>
      simp only [PackedEntity.lifetime, PackedEntity.freeDataTimes, freeDataTimes_of_null n h0]
      by_cases hd : e.m_pData = 0 <;> by_cases hl : e.m_pChangeFrameList = 0 <;>
        simp [PackedEntity.destroy, PackedEntity.FreeData, hd, hl]
  · rw [lifetime_events]
    simp [PackedEntity.construct]

/-! ## C11: exhaustion under `GROW_NONE` -/

theorem allocAmount_state_cases (pBlob pData amount : Int) (s : CUtlMemoryPool) :
    ∃ (t : CUtlMemoryPool) (h c p : Int),
      (t = s ∨ t = CUtlMemoryPool.AddNewBlob pBlob pData s) ∧
      (CUtlMemoryPool.AllocAmount pBlob pData amount s).2 =
        { t with m_pHeadOfFreeList := h, m_BlocksAllocated := c, m_PeakAlloc := p } := by
  by_cases ha : amount > s.m_BlockSize
  · refine ⟨s, s.m_pHeadOfFreeList, s.m_BlocksAllocated, s.m_PeakAlloc, Or.inl rfl, ?_⟩
    have : CUtlMemoryPool.AllocAmount pBlob pData amount s = (0, s) := by
      simp [CUtlMemoryPool.AllocAmount, ha]
    rw [this]
  by_cases hh : s.m_pHeadOfFreeList = 0
  · by_cases hg : s.m_GrowMode = CUtlMemoryPool.GROW_NONE
    · refine ⟨s, s.m_pHeadOfFreeList, s.m_BlocksAllocated, s.m_PeakAlloc, Or.inl rfl, ?_⟩
      have : CUtlMemoryPool.AllocAmount pBlob pData amount s = (0, s) := by
        simp [CUtlMemoryPool.AllocAmount, ha, hh, hg]
      rw [this]
    · by_cases ht : (CUtlMemoryPool.AddNewBlob pBlob pData s).m_pHeadOfFreeList = 0
      · refine ⟨CUtlMemoryPool.AddNewBlob pBlob pData s,
          (CUtlMemoryPool.AddNewBlob pBlob pData s).m_pHeadOfFreeList,
          (CUtlMemoryPool.AddNewBlob pBlob pData s).m_BlocksAllocated,
          (CUtlMemoryPool.AddNewBlob pBlob pData s).m_PeakAlloc, Or.inr rfl, ?_⟩
        have : CUtlMemoryPool.AllocAmount pBlob pData amount s =
            (0, CUtlMemoryPool.AddNewBlob pBlob pData s) := by
          simp [CUtlMemoryPool.AllocAmount, ha, hh, hg, ht]
        rw [this]
      · exact ⟨CUtlMemoryPool.AddNewBlob pBlob pData s, _, _, _, Or.inr rfl,
          by rw [allocAmount_grow pBlob pData amount ha hh hg ht]⟩
  · exact ⟨s, _, _, _, Or.inl rfl, by rw [allocAmount_pop pBlob pData amount ha hh]⟩

theorem free_state_cases {debug : Bool} {fuel : Nat} {s s1 : CUtlMemoryPool} {b : Int}
    (h : CUtlMemoryPool.Free debug fuel s b = .ok s1) :
    ∃ (m : Int → Int) (hd c : Int),
      s1 = { s with mem := m, m_pHeadOfFreeList := hd, m_BlocksAllocated := c } := by
  by_cases hb : b = 0
  · subst hb
    rw [free_null] at h
    exact ⟨s.mem, s.m_pHeadOfFreeList, s.m_BlocksAllocated, (Except.ok.inj h).symm⟩
  · unfold CUtlMemoryPool.Free at h
    simp only [hb, if_false] at h
    cases debug with
    | false =>
      simp only [Bool.false_eq_true, if_false, Except.ok.injEq] at h
      exact ⟨_, _, _, h.symm⟩
    | true =>
      simp only [if_true] at h
      cases hscan : CUtlMemoryPool.rangeScan s b fuel s.m_BlobHead.m_pNext false with
      | error e => rw [hscan] at h; simp at h
      | ok bOK =>
        rw [hscan] at h
        cases bOK with
        | false => simp at h
        | true =>
          simp only [if_true, Except.ok.injEq] at h
          exact ⟨_, _, _, h.symm⟩

theorem clear_state_cases {fuel : Nat} {s s1 : CUtlMemoryPool} {ev : List Event}
    (h : CUtlMemoryPool.Clear fuel s = .ok (ev, s1)) :
    ∃ heap : Int → Option CBlob, s1 = CUtlMemoryPool.Init { s with blobs := heap } := by
  unfold CUtlMemoryPool.Clear at h
  cases hr : CUtlMemoryPool.releaseBlobs s.pBlobHead fuel s.m_BlobHead.m_pNext s.blobs [] with
  | error e => rw [hr] at h; simp at h
  | ok r =>
    rw [hr] at h
    simp only [Except.ok.injEq, Prod.mk.injEq] at h
    exact ⟨r.2, h.2.symm⟩

theorem blobList_some {s : CUtlMemoryPool} :
    ∀ {bl : List Int} {p a : Int}, IsBlobPath s.blobs s.pBlobHead p bl → a ∈ bl →
      ∃ blob, s.blobs a = some blob
  | [], _, _, _, ha => by simp at ha
  | b :: bl, p, a, h, ha => by
    rw [isBlobPath_cons] at h
    obtain ⟨-, -, blob, hb, h⟩ := h
    rcases List.mem_cons.1 ha with rfl | ha
    · exact ⟨blob, hb⟩
    · exact blobList_some h ha

theorem sizedBlobs_addNewBlob {s : CUtlMemoryPool} {pBlob : Int} (pData : Int) {bl : List Int}
    (hs : SizedBlobs s bl) (hfresh : pBlob ∉ bl) :
    SizedBlobs (CUtlMemoryPool.AddNewBlob pBlob pData s) (bl ++ [pBlob]) := by
  obtain ⟨hn, hmap⟩ := hs
  have hold : ∀ a ∈ bl,
      numBytesAt (CUtlMemoryPool.AddNewBlob pBlob pData s) a = numBytesAt s a := by
    intro a ha
    exact numBytesAt_addNewBlob (fun e => hfresh (e ▸ ha))
  have hnew : numBytesAt (CUtlMemoryPool.AddNewBlob pBlob pData s) pBlob =
      s.m_BlockSize * blobElements s bl.length := by
    simp only [numBytesAt, CUtlMemoryPool.AddNewBlob, Function.update_same,
      CUtlMemoryPool.newBlobElements, blobElements, hn]
  have hel : ∀ k, blobElements (CUtlMemoryPool.AddNewBlob pBlob pData s) k = blobElements s k :=
    fun _ => rfl
  have hbs : (CUtlMemoryPool.AddNewBlob pBlob pData s).m_BlockSize = s.m_BlockSize := rfl
  refine ⟨by simp [CUtlMemoryPool.AddNewBlob, hn], ?_⟩
  rw [List.map_append, List.map_congr_left hold, hmap, List.length_append, List.length_singleton,
    List.range_succ, List.map_append]
  simp only [List.map_cons, List.map_nil, hnew, hel, hbs]

theorem growthInv_alloc {s0 s : CUtlMemoryPool} {bl : List Int} (pBlob pData : Int)
    (h : GrowthInv s0 s bl) (hnone : s.blobs pBlob = none) (hne : pBlob ≠ s.pBlobHead) :
    ∃ bl1, GrowthInv s0 (CUtlMemoryPool.Alloc pBlob pData s).2 bl1 ∧
      bl1.length ≤ bl.length + 1 := by
  obtain ⟨hbl, hprev, hsz, h1, h2, h3⟩ := h
  have hfresh : pBlob ∉ bl := by
    intro hm
    obtain ⟨blob, hb⟩ := blobList_some hbl hm
    rw [hnone] at hb
    cases hb
  obtain ⟨t, hd, c, p, ht, hres⟩ := allocAmount_state_cases pBlob pData s.m_BlockSize s
  unfold CUtlMemoryPool.Alloc
  rw [hres]
  rcases ht with rfl | rfl
  · exact ⟨bl, ⟨hbl, hprev, hsz, h1, h2, h3⟩, by omega⟩
  · obtain ⟨hb1, hb2⟩ := blobList_addNewBlob pData hbl hprev hfresh hne
    exact ⟨bl ++ [pBlob], ⟨hb1, hb2, sizedBlobs_addNewBlob pData hsz hfresh, h1, h2, h3⟩,
      by simp⟩

theorem growthInv_free {s0 s s1 : CUtlMemoryPool} {bl : List Int} {debug : Bool} {fuel : Nat}
    {b : Int} (h : GrowthInv s0 s bl) (hf : CUtlMemoryPool.Free debug fuel s b = .ok s1) :
    GrowthInv s0 s1 bl := by
  obtain ⟨m, hd, c, rfl⟩ := free_state_cases hf
  exact h

theorem growthInv_clear {s0 s s1 : CUtlMemoryPool} {bl : List Int} {fuel : Nat}
    {ev : List Event} (h : GrowthInv s0 s bl)
    (hc : CUtlMemoryPool.Clear fuel s = .ok (ev, s1)) : GrowthInv s0 s1 [] := by
  obtain ⟨heap, rfl⟩ := clear_state_cases hc
  obtain ⟨-, -, -, h1, h2, h3⟩ := h
  refine ⟨isBlobPath_nil.2 rfl, rfl, ⟨rfl, rfl⟩, h1, h2, h3⟩

/-- Along a run with fresh header addresses the growth invariant is kept. -/
theorem growthInv_run (debug : Bool) (fuel : Nat) (s0 : CUtlMemoryPool) :
    ∀ (ops : List Op) (s s1 : CUtlMemoryPool) (bl : List Int), GrowthInv s0 s bl →
      freshRun debug fuel ops s = true → runOps debug fuel ops s = .ok s1 →
      ∃ bl1, GrowthInv s0 s1 bl1
  | [], s, s1, bl, h, _, hrun => by
    simp only [runOps, Except.ok.injEq] at hrun
    subst hrun
    exact ⟨bl, h⟩
  | .alloc pBlob pData :: ops, s, s1, bl, h, hfresh, hrun => by
    simp only [freshRun, Bool.and_eq_true, Option.isNone_iff_eq_none, decide_eq_true_eq]
      at hfresh
    obtain ⟨⟨hnone, hne⟩, hfresh⟩ := hfresh
    obtain ⟨bl1, h1, -⟩ := growthInv_alloc pBlob pData h hnone hne
    simp only [runOps, step] at hrun
    exact growthInv_run debug fuel s0 ops _ s1 bl1 h1 hfresh hrun
  | .free b :: ops, s, s1, bl, h, hfresh, hrun => by
    simp only [runOps, step] at hrun
    simp only [freshRun] at hfresh
    cases hf : CUtlMemoryPool.Free debug fuel s b with
    | error e => rw [hf] at hrun; simp at hrun
    | ok t =>
      rw [hf] at hrun hfresh
      exact growthInv_run debug fuel s0 ops t s1 bl (growthInv_free h hf) hfresh hrun
  | .clear :: ops, s, s1, bl, h, hfresh, hrun => by
    simp only [runOps, step] at hrun
    simp only [freshRun] at hfresh
    cases hc : CUtlMemoryPool.Clear fuel s with
    | error e => rw [hc] at hrun; simp at hrun
    | ok r =>
      obtain ⟨ev, t⟩ := r
      rw [hc] at hrun hfresh
      exact growthInv_run debug fuel s0 ops t s1 [] (growthInv_clear h hc) hfresh hrun

theorem runOps_release_returns (fuel : Nat) (s0 : CUtlMemoryPool) :
    ∀ (ops : List Op) (s : CUtlMemoryPool) (bl : List Int), GrowthInv s0 s bl →
      freshRun false fuel ops s = true → bl.length + ops.length ≤ fuel →
      ∃ s1, runOps false fuel ops s = .ok s1
  | [], s, _, _, _, _ => ⟨s, rfl⟩
  | .alloc pBlob pData :: ops, s, bl, h, hfresh, hfuel => by
    simp only [freshRun, Bool.and_eq_true, Option.isNone_iff_eq_none, decide_eq_true_eq]
      at hfresh
    obtain ⟨⟨hnone, hne⟩, hfresh⟩ := hfresh
    obtain ⟨bl1, h1, hlen⟩ := growthInv_alloc pBlob pData h hnone hne
    simp only [List.length_cons] at hfuel
    obtain ⟨s1, hrun⟩ := runOps_release_returns fuel s0 ops _ bl1 h1 hfresh (by omega)
    exact ⟨s1, by simpa [runOps, step] using hrun⟩
  | .free b :: ops, s, bl, h, hfresh, hfuel => by
    simp only [List.length_cons] at hfuel
    have hf : ∃ t, CUtlMemoryPool.Free false fuel s b = .ok t := by
      by_cases hb : b = 0
      · exact ⟨s, by rw [hb]; exact free_null false fuel s⟩
      · exact ⟨_, free_release_eq fuel s hb⟩
    obtain ⟨t, hf⟩ := hf
    simp only [freshRun, hf] at hfresh
    obtain ⟨s1, hrun⟩ :=
      runOps_release_returns fuel s0 ops t bl (growthInv_free h hf) hfresh (by omega)
    exact ⟨s1, by simpa [runOps, step, hf] using hrun⟩
  | .clear :: ops, s, bl, h, hfresh, hfuel => by
    simp only [List.length_cons] at hfuel
    have hc := rawClear_eq h.1 (show bl.length ≤ fuel by omega)
    simp only [freshRun, hc] at hfresh
    obtain ⟨s1, hrun⟩ :=
      runOps_release_returns fuel s0 ops _ [] (growthInv_clear h hc) hfresh
        (by simp only [List.length_nil]; omega)
    exact ⟨s1, by simpa [runOps, step, hc] using hrun⟩

theorem growthInv_construct {ptrSize : Nat} {pBlobHead : Int} {mem0 : Int → Int}
    {blockSize numElements growMode : Int} {nAlignment : Nat} {s0 : CUtlMemoryPool}
    (hnew : CUtlMemoryPool.construct ptrSize pBlobHead mem0 blockSize numElements growMode
      nAlignment = some s0) :
    GrowthInv s0 s0 [] ∧ (ptrSize : Int) ≤ s0.m_BlockSize ∧ 0 < s0.m_BlocksPerBlob ∧
      s0.m_BlocksPerBlob = numElements ∧ s0.m_GrowMode = growMode := by
  unfold CUtlMemoryPool.construct at hnew
  split at hnew
  · simp at hnew
  · rename_i hcond
    simp only [Option.some.injEq] at hnew
    subst hnew
    simp only [not_or, not_lt, not_le] at hcond
    exact ⟨⟨isBlobPath_nil.2 rfl, rfl, ⟨rfl, rfl⟩, rfl, rfl, rfl⟩, hcond.1, hcond.2, rfl, rfl⟩

theorem sizedBlobs_get {s : CUtlMemoryPool} {bl : List Int} (hs : SizedBlobs s bl) {k : Nat}
    {a : Int} (hk : bl[k]? = some a) :
    numBytesAt s a = s.m_BlockSize * blobElements s k := by
  have hlt : k < bl.length := by
    rcases Nat.lt_or_ge k bl.length with h | h
    · exact h
    · rw [List.getElem?_eq_none h] at hk
      cases hk
  have h1 : (bl.map (numBytesAt s))[k]? = some (numBytesAt s a) := by
    rw [List.getElem?_map, hk]
    rfl
  rw [hs.2, List.getElem?_map, List.getElem?_range hlt] at h1
  simpa using h1.symm

/-- C12.  Take a pool `s0` freshly constructed with element count `numElements` and run any
sequence of allocate, `Free` and `Clear` calls in which the heap hands every allocation a
header address that is not in use.  In every state `s` the run reaches, the blob list is a
well-formed list of `m_NumBlobs` blobs and, for every `k`, its `k`-th blob (0-indexed) has
`numElements * (k+1)` blocks if the pool is `GROW_FAST` and exactly `numElements` blocks if it
is `GROW_SLOW`.  Each blob gets this size when it is created: the blob that `AddNewBlob` adds
to a pool holding `k` blobs has `blockSize * blobElements s k` bytes.  In a release build the
run returns whenever the fuel is at least the number of calls. -/
theorem blob_sizes_follow_growth_mode (debug : Bool) (fuel ptrSize : Nat) (pBlobHead : Int)
    (mem0 : Int → Int) (blockSize numElements growMode : Int) (nAlignment : Nat)
    (s0 : CUtlMemoryPool) (ops : List Op) (hptr : 0 < ptrSize)
    (hnew : CUtlMemoryPool.construct ptrSize pBlobHead mem0 blockSize numElements growMode
      nAlignment = some s0)
    (hfresh : freshRun debug fuel ops s0 = true) :
    (∀ s, runOps debug fuel ops s0 = .ok s →
      ∃ bl, BlobList s bl ∧ s.m_NumBlobs = bl.length ∧
        ∀ (k : Nat) (a : Int), bl[k]? = some a →
          (growMode = CUtlMemoryPool.GROW_FAST → blocksIn s a = numElements * (k + 1)) ∧
          (growMode = CUtlMemoryPool.GROW_SLOW → blocksIn s a = numElements)) ∧
    (∀ (s : CUtlMemoryPool) (pBlob pData : Int),
      numBytesAt (CUtlMemoryPool.AddNewBlob pBlob pData s) pBlob =
        s.m_BlockSize * blobElements s s.m_NumBlobs) ∧
    (debug = false → ops.length ≤ fuel → ∃ s, runOps debug fuel ops s0 = .ok s) := by
  obtain ⟨h0, hbs, -, hbpb, hmode⟩ := growthInv_construct hnew
  have hbs0 : (0 : Int) < s0.m_BlockSize := by
    have : (0 : Int) < ptrSize := by exact_mod_cast hptr
    omega
  refine ⟨?_, ?_, ?_⟩
  · intro s hrun
    obtain ⟨bl, hbl, -, hsz, h1, h2, h3⟩ := growthInv_run debug fuel s0 ops s0 s [] h0 hfresh hrun
    refine ⟨bl, hbl, hsz.1, fun k a hk => ?_⟩
    have hnb := sizedBlobs_get hsz hk
    have hbsne : s.m_BlockSize ≠ 0 := by rw [h1]; omega
    have hblocks : blocksIn s a = blobElements s k := by
      unfold blocksIn
      rw [hnb]
      exact Int.mul_ediv_cancel_left _ hbsne
    constructor
    · intro hfast
      rw [hblocks]
      simp [blobElements, h3, hmode, hfast, h2, hbpb]
    · intro hslow
      rw [hblocks]
      have hne : s.m_GrowMode ≠ CUtlMemoryPool.GROW_FAST := by
        rw [h3, hmode, hslow]
        decide
      simp [blobElements, hne, h2, hbpb]
  · intro s pBlob pData
    simp only [numBytesAt, CUtlMemoryPool.AddNewBlob, Function.update_same,
      CUtlMemoryPool.newBlobElements, blobElements]
  · intro hd hfuel
    subst hd
    exact runOps_release_returns fuel s0 ops s0 [] h0 hfresh (by simpa using hfuel)

/-- Witness for C12: a fresh `GROW_FAST` pool with element count 1 grows three times; its
third blob (index 2, header at 4000) has 3 blocks. -/
theorem blob_sizes_follow_growth_mode_witness :
    (0 < 8 ∧
      CUtlMemoryPool.construct 8 1000 (fun _ => 0) 8 1 CUtlMemoryPool.GROW_FAST 0 =
        some exFastFresh ∧
      freshRun false 4 exFastOps exFastFresh = true) ∧
    ∃ s, runOps false 4 exFastOps exFastFresh = .ok s ∧
      ∃ bl, BlobList s bl ∧ s.m_NumBlobs = bl.length ∧
        ∀ (k : Nat) (a : Int), bl[k]? = some a →
          (CUtlMemoryPool.GROW_FAST = CUtlMemoryPool.GROW_FAST →
            blocksIn s a = 1 * (k + 1)) ∧
          (CUtlMemoryPool.GROW_FAST = CUtlMemoryPool.GROW_SLOW → blocksIn s a = 1) :=
  have h := blob_sizes_follow_growth_mode false 4 8 1000 (fun _ => 0) 8 1
    CUtlMemoryPool.GROW_FAST 0 exFastFresh exFastOps (by decide) rfl (by decide)
  ⟨⟨by decide, rfl, by decide⟩,
    (h.2.2 rfl (by decide)).elim fun s hs => ⟨s, hs, h.1 s hs⟩⟩

theorem sum_range_fast (c : Int) :
    ∀ n : Nat, 2 * ((List.range n).map fun k : Nat => c * ((k : Int) + 1)).sum =
      c * ((n : Int) * ((n : Int) + 1))
  | 0 => by simp
  | n + 1 => by
    rw [List.range_succ, List.map_append, List.sum_append, mul_add, sum_range_fast c n]
    simp only [List.map_cons, List.map_nil, List.sum_cons, List.sum_nil, add_zero]
    push_cast
    ring

theorem sum_range_const (c : Int) :
    ∀ n : Nat, ((List.range n).map fun _ : Nat => c).sum = (n : Int) * c
  | 0 => by simp
  | n + 1 => by
    rw [List.range_succ, List.map_append, List.sum_append, sum_range_const c n]
    simp only [List.map_cons, List.map_nil, List.sum_cons, List.sum_nil, add_zero]
    push_cast
    ring

theorem toInt_of_range {x : Int} (h0 : -2147483648 ≤ x) (h1 : x < 2147483648) :
    CUtlMemoryPool.toInt x = x := by
  unfold CUtlMemoryPool.toInt
  omega

/-- C16 as stated fails: a fresh `GROW_FAST` pool of 8-byte blocks with element count 1 that
has grown three times holds blobs of 8, 16 and 24 bytes, a capacity of 48 bytes, while
`Size()` returns 3 * 1 * 8 = 24: `Size()` is below the capacity, not an upper bound of it. -/
theorem size_below_capacity_counterexample :
    CUtlMemoryPool.construct 8 1000 (fun _ => 0) 8 1 CUtlMemoryPool.GROW_FAST 0 =
      some exFastFresh ∧
    ∃ s, runOps false 4 exFastOps exFastFresh = .ok s ∧ BlobList s [2000, 3000, 4000] ∧
      [2000, 3000, 4000].map (numBytesAt s) = [8, 16, 24] ∧
      capacity s [2000, 3000, 4000] = 48 ∧ s.Size = 24 ∧
      ¬ capacity s [2000, 3000, 4000] ≤ s.Size :=
  ⟨rfl,
    (CUtlMemoryPool.Alloc 4000 4020 (CUtlMemoryPool.Alloc 0 0 (CUtlMemoryPool.Alloc 3000 3020
      (CUtlMemoryPool.Alloc 2000 2020 exFastFresh).2).2).2).2,
    rfl, by decide, by decide, by decide, by decide, by decide⟩

/-- C16, amended.  `Size()` returns `numBlobs * blocksPerBlob * blockSize`, computed in `int`
from the `unsigned short` blob counter.  Take any state reached from a freshly constructed
pool by allocate, `Free` and `Clear` calls (the heap handing out header addresses that are not
in use), `bl` being its blob list.  The pool's true capacity, the sum of `byteLength` over all
blobs, is `bl.length * blocksPerBlob * blockSize` when the pool is not `GROW_FAST`, so that all
blobs have `blocksPerBlob` blocks (`GROW_SLOW`), and `blockSize * blocksPerBlob * n * (n+1) / 2`
for the `n` blobs of a `GROW_FAST` pool, whose blob of index `i` holds `blocksPerBlob * (i+1)`
blocks.  As long as the pool holds fewer than `2^16` blobs and its capacity is below `2^31`
bytes, so that neither the blob counter nor the product wraps around, `Size()` never exceeds
the capacity: it is equal to it when the pool is not `GROW_FAST`, it is a lower bound of it
under `GROW_FAST`, and it is strictly below it as soon as a `GROW_FAST` pool holds two blobs. -/
theorem size_never_exceeds_capacity (debug : Bool) (fuel ptrSize : Nat) (pBlobHead : Int)
    (mem0 : Int → Int) (blockSize numElements growMode : Int) (nAlignment : Nat)
    (s0 : CUtlMemoryPool) (ops : List Op) (hptr : 0 < ptrSize)
    (hnew : CUtlMemoryPool.construct ptrSize pBlobHead mem0 blockSize numElements growMode
      nAlignment = some s0)
    (hfresh : freshRun debug fuel ops s0 = true) :
    (∀ s, runOps debug fuel ops s0 = .ok s →
      ∃ bl, BlobList s bl ∧ s.m_NumBlobs = bl.length ∧
        s.Size = CUtlMemoryPool.toInt (CUtlMemoryPool.toInt
          (((s.m_NumBlobs % 65536 : Nat) : Int) * s.m_BlocksPerBlob) * s.m_BlockSize) ∧
        (growMode ≠ CUtlMemoryPool.GROW_FAST →
          capacity s bl = (bl.length : Int) * numElements * s.m_BlockSize) ∧
        (growMode = CUtlMemoryPool.GROW_FAST →
          2 * capacity s bl =
            s.m_BlockSize * numElements * ((bl.length : Int) * ((bl.length : Int) + 1))) ∧
        (bl.length < 65536 → capacity s bl < 2147483648 →
          s.Size = (bl.length : Int) * numElements * s.m_BlockSize ∧
          s.Size ≤ capacity s bl ∧
          (growMode ≠ CUtlMemoryPool.GROW_FAST → s.Size = capacity s bl) ∧
          (growMode = CUtlMemoryPool.GROW_FAST → 2 ≤ bl.length → s.Size < capacity s bl))) ∧
    (debug = false → ops.length ≤ fuel → ∃ s, runOps debug fuel ops s0 = .ok s) := by
  obtain ⟨h0, hbs, hpos, hbpb, hmode⟩ := growthInv_construct hnew
  have hbs0 : (0 : Int) < s0.m_BlockSize := by
    have : (0 : Int) < ptrSize := by exact_mod_cast hptr
    omega
  refine ⟨?_, ?_⟩
  · intro s hrun
    obtain ⟨bl, hbl, -, hsz, h1, h2, h3⟩ := growthInv_run debug fuel s0 ops s0 s [] h0 hfresh hrun
    have hbsS : (0 : Int) < s.m_BlockSize := by rw [h1]; exact hbs0
    have hbpbS : s.m_BlocksPerBlob = numElements := by rw [h2, hbpb]
    have hne0 : (0 : Int) < numElements := by rw [← hbpb]; exact hpos
    have hcap : capacity s bl =
        ((List.range bl.length).map fun k => s.m_BlockSize * blobElements s k).sum := by
      unfold capacity
      rw [hsz.2]
    have hprod : (0 : Int) < s.m_BlockSize * numElements := Int.mul_pos hbsS hne0
    have hn0 : (0 : Int) ≤ (bl.length : Int) := Int.ofNat_nonneg _
    -- the product of `Size()` when nothing wraps around
    have hsize : bl.length < 65536 →
        (bl.length : Int) * numElements * s.m_BlockSize < 2147483648 →
        s.Size = (bl.length : Int) * numElements * s.m_BlockSize := by
      intro hlen hM
      have hmod : bl.length % 65536 = bl.length := Nat.mod_eq_of_lt hlen
      have hP0 : (0 : Int) ≤ (bl.length : Int) * numElements := mul_nonneg hn0 (le_of_lt hne0)
      have hPM : (bl.length : Int) * numElements ≤
          (bl.length : Int) * numElements * s.m_BlockSize :=
        le_mul_of_one_le_right hP0 (by omega)
      simp only [CUtlMemoryPool.Size, hsz.1, hbpbS, hmod]
      have hin : CUtlMemoryPool.toInt ((bl.length : Int) * numElements) =
          (bl.length : Int) * numElements := toInt_of_range (by omega) (by omega)
      rw [hin, toInt_of_range (by omega) hM]
    by_cases hfast : growMode = CUtlMemoryPool.GROW_FAST
    · have hmodeS : s.m_GrowMode = CUtlMemoryPool.GROW_FAST := by rw [h3, hmode, hfast]
      have hel : (fun k : Nat => s.m_BlockSize * blobElements s k) =
          fun k : Nat => (s.m_BlockSize * numElements) * ((k : Int) + 1) := by
        funext k
        simp only [blobElements, hmodeS, if_true, hbpbS]
        ring
      have h2cap : 2 * capacity s bl =
          s.m_BlockSize * numElements * ((bl.length : Int) * ((bl.length : Int) + 1)) := by
        rw [hcap, hel, sum_range_fast]
      have key : 2 * capacity s bl - 2 * ((bl.length : Int) * numElements * s.m_BlockSize) =
          s.m_BlockSize * numElements * ((bl.length : Int) * ((bl.length : Int) - 1)) := by
        rw [h2cap]
        ring
      have hnn : (0 : Int) ≤ (bl.length : Int) * ((bl.length : Int) - 1) := by
        rcases Nat.eq_zero_or_pos bl.length with hz | hp
        · rw [hz]
          simp
        · have : (1 : Int) ≤ (bl.length : Int) := by exact_mod_cast hp
          exact mul_nonneg hn0 (by omega)
      have hle : (bl.length : Int) * numElements * s.m_BlockSize ≤ capacity s bl := by
        have := mul_nonneg (le_of_lt hprod) hnn
        omega
      refine ⟨bl, hbl, hsz.1, rfl, fun h => absurd hfast h, fun _ => h2cap, ?_⟩
      intro hlen hbound
      have hS := hsize hlen (by omega)
      refine ⟨hS, by rw [hS]; exact hle, fun h => absurd hfast h, ?_⟩
      intro _ h2
      have hn2 : (2 : Int) ≤ (bl.length : Int) := by exact_mod_cast h2
      have hpos2 : (0 : Int) < (bl.length : Int) * ((bl.length : Int) - 1) :=
        mul_pos (by omega) (by omega)
      have := mul_pos hprod hpos2
      rw [hS]
      omega
    · have hmodeS : s.m_GrowMode ≠ CUtlMemoryPool.GROW_FAST := by rw [h3, hmode]; exact hfast
      have hel : (fun k : Nat => s.m_BlockSize * blobElements s k) =
          fun _ : Nat => s.m_BlockSize * numElements := by
        funext k
        simp only [blobElements, hmodeS, if_false, hbpbS]
      have heq : capacity s bl = (bl.length : Int) * numElements * s.m_BlockSize := by
        rw [hcap, hel, sum_range_const]
        ring
      refine ⟨bl, hbl, hsz.1, rfl, fun _ => heq, fun h => absurd h hfast, ?_⟩
      intro hlen hbound
      have hS := hsize hlen (by omega)
      exact ⟨hS, by rw [hS, heq], fun _ => by rw [hS, heq], fun h => absurd h hfast⟩
  · intro hd hfuel
    subst hd
    exact runOps_release_returns fuel s0 ops s0 [] h0 hfresh (by simpa using hfuel)

/-- Witness for the amended C16 on the fresh `GROW_FAST` pool that grows three times: its
three blobs hold 48 bytes, and `Size()` is 24. -/
theorem size_never_exceeds_capacity_witness :
    (0 < 8 ∧
      CUtlMemoryPool.construct 8 1000 (fun _ => 0) 8 1 CUtlMemoryPool.GROW_FAST 0 =
        some exFastFresh ∧
      freshRun false 4 exFastOps exFastFresh = true) ∧
    ∃ s, runOps false 4 exFastOps exFastFresh = .ok s ∧
      ∃ bl, BlobList s bl ∧ s.m_NumBlobs = bl.length ∧
        s.Size = CUtlMemoryPool.toInt (CUtlMemoryPool.toInt
          (((s.m_NumBlobs % 65536 : Nat) : Int) * s.m_BlocksPerBlob) * s.m_BlockSize) ∧
        (CUtlMemoryPool.GROW_FAST ≠ CUtlMemoryPool.GROW_FAST →
          capacity s bl = (bl.length : Int) * 1 * s.m_BlockSize) ∧
        (CUtlMemoryPool.GROW_FAST = CUtlMemoryPool.GROW_FAST →
          2 * capacity s bl =
            s.m_BlockSize * 1 * ((bl.length : Int) * ((bl.length : Int) + 1))) ∧
        (bl.length < 65536 → capacity s bl < 2147483648 →
          s.Size = (bl.length : Int) * 1 * s.m_BlockSize ∧
          s.Size ≤ capacity s bl ∧
          (CUtlMemoryPool.GROW_FAST ≠ CUtlMemoryPool.GROW_FAST → s.Size = capacity s bl) ∧
          (CUtlMemoryPool.GROW_FAST = CUtlMemoryPool.GROW_FAST → 2 ≤ bl.length →
            s.Size < capacity s bl)) :=
  have h := size_never_exceeds_capacity false 4 8 1000 (fun _ => 0) 8 1
    CUtlMemoryPool.GROW_FAST 0 exFastFresh exFastOps (by decide) rfl (by decide)
  ⟨⟨by decide, rfl, by decide⟩,
    (h.2 rfl (by decide)).elim fun s hs => ⟨s, hs, h.1 s hs⟩⟩

/-! ## C19: termination of typed `Clear` -/

theorem collectFree_short {mem : Int → Int} :
    ∀ {l : List Int} {f : Nat} {p : Int} (acc : List Int), IsFreeChain mem p l →
      f < l.length → CClassMemoryPoolExt.collectFree mem f p acc = .error .outOfFuel
  | [], _, _, _, _, hf => by simp at hf
  | a :: l, 0, p, acc, h, _ => by
    rw [isFreeChain_cons] at h
    obtain ⟨rfl, hp, -⟩ := h
    simp [CClassMemoryPoolExt.collectFree, hp]
  | a :: l, f + 1, p, acc, h, hf => by
    rw [isFreeChain_cons] at h
    obtain ⟨rfl, hp, h⟩ := h
    have hf1 : f < l.length := by simpa using hf
    simp only [CClassMemoryPoolExt.collectFree, ne_eq, hp, not_false_eq_true, if_true]
    exact collectFree_short _ h hf1

theorem collectFree_self_loop {mem : Int → Int} {b : Int} (hb : b ≠ 0) (hself : mem b = b) :
    ∀ (f : Nat) (acc : List Int),
      CClassMemoryPoolExt.collectFree mem f b acc = .error .outOfFuel
  | 0, _ => by simp [CClassMemoryPoolExt.collectFree, hb]
  | f + 1, acc => by
    simp only [CClassMemoryPoolExt.collectFree, ne_eq, hb, not_false_eq_true, if_true, hself]
    exact collectFree_self_loop hb hself f _

theorem no_chain_of_self_loop {mem : Int → Int} {b : Int} (hb : b ≠ 0) (hself : mem b = b) :
    ∀ l : List Int, ¬ IsFreeChain mem b l
  | [] => fun h => hb (isFreeChain_nil.1 h)
  | a :: l => fun h => by
    rw [isFreeChain_cons] at h
    obtain ⟨rfl, -, h⟩ := h
    rw [hself] at h
    exact no_chain_of_self_loop hb hself l h

theorem free_block_returns (debug : Bool) (fuel : Nat) (s : CUtlMemoryPool) (bl : List Int)
    (b : Int) (hb : b ≠ 0)
    (hdbg : debug = true →
      BlobList s bl ∧ bl.length ≤ fuel ∧ ∃ a ∈ bl, inBlob s a b = true) :
    ∃ s1, CUtlMemoryPool.Free debug fuel s b = .ok s1 ∧ s1.m_pHeadOfFreeList = b ∧
      s1.mem b = s.m_pHeadOfFreeList ∧ s1.blobs = s.blobs ∧ s1.pBlobHead = s.pBlobHead ∧
      s1.m_BlobHead = s.m_BlobHead := by
  cases debug with
  | false =>
    exact ⟨CUtlMemoryPool.pushFree s b, free_release_eq fuel s hb, rfl,
      by simp [CUtlMemoryPool.pushFree], rfl, rfl, rfl⟩
  | true =>
    obtain ⟨hbl, hfuel, a, ha, hab⟩ := hdbg rfl
    have hany : (bl.any fun a => inBlob s a b) = true := List.any_eq_true.2 ⟨a, ha, hab⟩
    exact ⟨CUtlMemoryPool.pushFree
        { s with mem := CUtlMemoryPool.memsetDD s.mem b s.m_BlockSize } b,
      by rw [free_debug_eq hbl hfuel hb, if_pos hany], rfl,
      by simp [CUtlMemoryPool.pushFree], rfl, rfl, rfl⟩

/-- C19.  On a pool whose free list is the finite null-terminated chain `fl` and whose blob
list is the finite circular list `bl`, with `sizeof(T) > 0`, typed `Clear()` and typed `Free`
terminate: they return as soon as the fuel reaches `fuelBound`.  The free-list walk makes
exactly one step per free-list entry: it finishes with fuel `fl.length` and with no less.  The
walk of a blob finishes within `m_NumBytes` steps.  Two successive raw `Free(b)` calls on the
same non-null block (in a debug build, a block in a blob, so that both calls pass the range
check) break the precondition: both return, and they leave `b` at the head of the free list
with its link word holding `b` itself, so that no finite chain starts at the head and typed
`Clear()` and typed `Free` run out of fuel however much they are given. -/
theorem typedClear_terminates_unless_double_free (sizeofT fuel : Nat) (s : CUtlMemoryPool)
    (fl bl : List Int) (hT : 0 < sizeofT)
    (hfl : IsFreeChain s.mem s.m_pHeadOfFreeList fl) (hbl : BlobList s bl) :
    (fuelBound s fl bl ≤ fuel → ∃ r, CClassMemoryPoolExt.Clear sizeofT fuel s = .ok r ∧
      ∀ p, CClassMemoryPoolExt.Free sizeofT fuel s p = .ok r) ∧
    (∀ f, fl.length ≤ f →
      CClassMemoryPoolExt.collectFree s.mem f s.m_pHeadOfFreeList [] = .ok fl) ∧
    (∀ f, f < fl.length →
      CClassMemoryPoolExt.collectFree s.mem f s.m_pHeadOfFreeList [] = .error .outOfFuel) ∧
    (∀ a ∈ bl, ∀ blob, s.blobs a = some blob → ∀ (free : List Int) (ev : List Event) (f : Nat),
      blob.m_NumBytes.toNat ≤ f →
      ∃ ev1, CClassMemoryPoolExt.destructSlots sizeofT free (blob.m_Data + blob.m_NumBytes) f
        blob.m_Data ev = .ok ev1) ∧
    (∀ (debug : Bool) (b : Int), b ≠ 0 →
      (debug = true → bl.length ≤ fuel ∧ ∃ a ∈ bl, inBlob s a b = true) →
      ∃ s1 s2, CUtlMemoryPool.Free debug fuel s b = .ok s1 ∧
        CUtlMemoryPool.Free debug fuel s1 b = .ok s2 ∧
        s2.m_pHeadOfFreeList = b ∧ s2.mem b = b ∧
        (∀ l, ¬ IsFreeChain s2.mem s2.m_pHeadOfFreeList l) ∧
        ∀ (sz f : Nat) (q : Int),
          CClassMemoryPoolExt.Clear sz f s2 = .error .outOfFuel ∧
          CClassMemoryPoolExt.Free sz f s2 q = .error .outOfFuel) := by
  refine ⟨?_, ?_, ?_, ?_, ?_⟩
  · intro hfuel
    have hf1 : fl.length ≤ fuel := le_trans (fuelBound_free_le s fl bl) hfuel
    have hf2 : bl.length ≤ fuel := le_trans (fuelBound_blob_le s fl bl) hfuel
    have hf3 : ∀ a ∈ bl, (numBytesAt s a).toNat ≤ fuel := fun a ha =>
      le_trans (fuelBound_slot_le s fl bl a ha) hfuel
    obtain ⟨evD, hrun, -, -⟩ := destructBlobs_spec s sizeofT hT fl fuel [] hbl hf2 hf3
    have hclear := rawClear_eq hbl hf2
    have hres : CClassMemoryPoolExt.Clear sizeofT fuel s =
        .ok (evD ++ bl.map Event.release,
          CUtlMemoryPool.Init
            { s with blobs := fun a => if a ∈ bl then none else s.blobs a }) := by
      unfold CClassMemoryPoolExt.Clear
      rw [collectFree_eq [] hfl hf1, List.nil_append]
      simp only [hrun, List.nil_append, hclear]
    exact ⟨_, hres, fun p => hres⟩
  · intro f hf
    have := collectFree_eq [] hfl hf
    simpa using this
  · intro f hf
    exact collectFree_short [] hfl hf
  · intro a _ blob _ free ev f hf
    have hf' : (blob.m_Data + blob.m_NumBytes - blob.m_Data).toNat ≤ f := by
      simpa using hf
    obtain ⟨ev1, hrun, -, -⟩ :=
      destructSlots_spec sizeofT hT free (blob.m_Data + blob.m_NumBytes) f blob.m_Data ev hf'
    exact ⟨_, hrun⟩
  · intro debug b hb hdbg
    obtain ⟨s1, hf1, hhead1, -, hblobs1, hhd1, hsent1⟩ :=
      free_block_returns debug fuel s bl b hb
        (fun hd => ⟨hbl, (hdbg hd).1, (hdbg hd).2⟩)
    have hbl1 : BlobList s1 bl := by
      unfold BlobList at hbl ⊢
      rw [hblobs1, hhd1, hsent1]
      exact hbl
    obtain ⟨s2, hf2, hhead2, hmem2, -, -, -⟩ :=
      free_block_returns debug fuel s1 bl b hb (fun hd => by
        obtain ⟨hfuel, a, ha, hab⟩ := hdbg hd
        refine ⟨hbl1, hfuel, a, ha, ?_⟩
        unfold inBlob at hab ⊢
        rw [hblobs1]
        exact hab)
    have hself : s2.mem b = b := by rw [hmem2, hhead1]
    refine ⟨s1, s2, hf1, hf2, hhead2, hself, ?_, ?_⟩
    · intro l
      rw [hhead2]
      exact no_chain_of_self_loop hb hself l
    · intro sz f q
      have hcol : CClassMemoryPoolExt.collectFree s2.mem f s2.m_pHeadOfFreeList [] =
          .error .outOfFuel := by
        rw [hhead2]
        exact collectFree_self_loop hb hself f []
      constructor
      · unfold CClassMemoryPoolExt.Clear
        rw [hcol]
      · unfold CClassMemoryPoolExt.Free
        rw [hcol]

/-- Witness for C19 on the concrete pool: typed `Clear` returns with fuel 40, and two debug
`Free(2020)` calls leave a free list on which it runs out of any fuel. -/
theorem typedClear_terminates_unless_double_free_witness :
    (0 < 8 ∧ IsFreeChain exPool.mem exPool.m_pHeadOfFreeList [3028] ∧
      BlobList exPool [2000, 3000] ∧ fuelBound exPool [3028] [2000, 3000] ≤ 40) ∧
    (∃ r, CClassMemoryPoolExt.Clear 8 40 exPool = .ok r ∧
      ∀ p, CClassMemoryPoolExt.Free 8 40 exPool p = .ok r) ∧
    ∃ s1 s2, CUtlMemoryPool.Free true 40 exPool 2020 = .ok s1 ∧
      CUtlMemoryPool.Free true 40 s1 2020 = .ok s2 ∧
      s2.m_pHeadOfFreeList = 2020 ∧ s2.mem 2020 = 2020 ∧
      (∀ l, ¬ IsFreeChain s2.mem s2.m_pHeadOfFreeList l) ∧
      ∀ (sz f : Nat) (q : Int),
        CClassMemoryPoolExt.Clear sz f s2 = .error .outOfFuel ∧
        CClassMemoryPoolExt.Free sz f s2 q = .error .outOfFuel :=
  have h := typedClear_terminates_unless_double_free 8 40 exPool [3028] [2000, 3000]
    (by decide) (by decide) (by decide)
  ⟨⟨by decide, by decide, by decide, by decide⟩, h.1 (by decide),
    h.2.2.2.2 true 2020 (by decide) (fun _ => ⟨by decide, 2000, by decide, by decide⟩)⟩

/-! ## C14: typed `Clear` makes `Count()` destructor calls -/

theorem destructSlots_list (sz : Nat) (free : List Int) :
    ∀ (n fuel : Nat) (p : Int) (ev : List Event), 0 < sz → n ≤ fuel →
      CClassMemoryPoolExt.destructSlots sz free (p + n * sz) fuel p ev =
        .ok (ev ++ ((blockList sz n p).filter fun q =>
          CClassMemoryPoolExt.notFound free q).map Event.destruct)
  | 0, fuel, p, ev, _, _ => by
    cases fuel <;> simp [CClassMemoryPoolExt.destructSlots, blockList]
  | n + 1, 0, _, _, _, hf => by simp at hf
  | n + 1, fuel + 1, p, ev, hsz, hf => by
    have hszI : (0 : Int) < sz := by exact_mod_cast hsz
    have hlt : p < p + ((n + 1 : Nat) : Int) * sz := by
      have : (0 : Int) < ((n + 1 : Nat) : Int) * sz := Int.mul_pos (by omega) hszI
      omega
    have hlim : p + ((n + 1 : Nat) : Int) * sz = (p + sz) + (n : Int) * sz := by
      push_cast
      ring
    simp only [CClassMemoryPoolExt.destructSlots, hlt, if_true]
    rw [hlim, destructSlots_list sz free n fuel (p + sz) _ hsz (by omega)]
    by_cases hnf : CClassMemoryPoolExt.notFound free p = true
    · simp [blockList, List.filter_cons, hnf]
    · simp [blockList, List.filter_cons, hnf]

theorem destructBlobs_list (s : CUtlMemoryPool) (sz : Nat) (hsz : 0 < sz) (free : List Int)
    (slotFuel : Nat) :
    ∀ {l : List Int} {fuel : Nat} {p : Int} (ev : List Event),
      IsBlobPath s.blobs s.pBlobHead p l → l.length ≤ fuel →
      (∀ a ∈ l, 0 ≤ numBytesAt s a ∧ numBytesAt s a % sz = 0 ∧
        (numBytesAt s a).toNat ≤ slotFuel) →
      CClassMemoryPoolExt.destructBlobs s sz free slotFuel fuel p ev =
        .ok (ev ++ (l.flatMap fun a => ((slotsOf sz s a).filter fun q =>
          CClassMemoryPoolExt.notFound free q).map Event.destruct))
  | [], fuel, p, ev, h, _, _ => by
    rw [isBlobPath_nil] at h
    subst h
    cases fuel <;> simp [CClassMemoryPoolExt.destructBlobs]
  | a :: l, 0, _, _, _, hf, _ => by simp at hf
  | a :: l, fuel + 1, p, ev, h, hf, hs => by
    rw [isBlobPath_cons] at h
    obtain ⟨rfl, hp, blob, hb, h⟩ := h
    have hf1 : l.length ≤ fuel := by simpa using hf
    obtain ⟨h0, hmod, hfuel⟩ := hs p (List.mem_cons_self _ _)
    simp only [numBytesAt, hb] at h0 hmod hfuel
    have hszI : (0 : Int) < sz := by exact_mod_cast hsz
    have hdiv : (0 : Int) ≤ blob.m_NumBytes / sz := Int.ediv_nonneg h0 (le_of_lt hszI)
    have hmul : blob.m_NumBytes = ((blob.m_NumBytes / sz).toNat : Int) * sz := by
      rw [Int.toNat_of_nonneg hdiv]
      exact (Int.ediv_mul_cancel (Int.dvd_of_emod_eq_zero hmod)).symm
    have hn : (blob.m_NumBytes / sz).toNat ≤ slotFuel := by
      have h1 : blob.m_NumBytes / sz ≤ blob.m_NumBytes :=
        Int.ediv_le_self _ h0
      omega
    have hslots := destructSlots_list sz free (blob.m_NumBytes / sz).toNat slotFuel blob.m_Data
      ev hsz hn
    rw [← hmul] at hslots
    have ih := destructBlobs_list s sz hsz free slotFuel
      (ev ++ ((blockList sz (blob.m_NumBytes / sz).toNat blob.m_Data).filter fun q =>
          CClassMemoryPoolExt.notFound free q).map Event.destruct) h hf1
      (fun x hx => hs x (List.mem_cons_of_mem _ hx))
    simp only [CClassMemoryPoolExt.destructBlobs, ne_eq, hp, not_false_eq_true, if_true, hb,
      hslots, ih]
    simp [List.flatMap_cons, slotsOf, numBytesAt, dataAt, hb]

theorem blockList_lt (bs : Int) (hbs : 0 < bs) :
    ∀ (n : Nat) (p c : Int), c ∈ blockList bs n p → c < p + n * bs
  | 0, _, _, h => by simp [blockList] at h
  | n + 1, p, c, h => by
    simp only [blockList, List.mem_cons] at h
    have hpos : (0 : Int) ≤ (n : Int) * bs := mul_nonneg (Int.ofNat_nonneg n) (le_of_lt hbs)
    have hexp : p + ((n + 1 : Nat) : Int) * bs = p + bs + (n : Int) * bs := by
      push_cast
      ring
    rcases h with rfl | h
    · rw [hexp]
      omega
    · have := blockList_lt bs hbs n (p + bs) c h
      rw [hexp]
      exact this

theorem blockList_nodup (bs : Int) (hbs : 0 < bs) :
    ∀ (n : Nat) (p : Int), (blockList bs n p).Nodup
  | 0, _ => by simp [blockList]
  | n + 1, p => by
    simp only [blockList, List.nodup_cons]
    refine ⟨fun h => ?_, blockList_nodup bs hbs n (p + bs)⟩
    have := blockList_ge bs hbs n (p + bs) p h
    omega

theorem countP_mem_eq_length {S F : List Int} (hS : S.Nodup) (hF : F.Nodup)
    (hsub : ∀ c ∈ F, c ∈ S) : S.countP (fun q => decide (q ∈ F)) = F.length := by
  rw [List.countP_eq_length_filter]
  apply List.Perm.length_eq
  rw [List.perm_ext_iff_of_nodup (hS.filter _) hF]
  intro a
  simp only [List.mem_filter, decide_eq_true_eq]
  exact ⟨fun h => h.2, fun h => ⟨hsub a h, h⟩⟩

theorem slots_length_total (sz : Nat) (hsz : 0 < sz) (s : CUtlMemoryPool)
    (hbs : s.m_BlockSize = sz) :
    ∀ bl : List Int, (∀ a ∈ bl, 0 ≤ numBytesAt s a) →
      (((bl.flatMap (slotsOf sz s)).length : Nat) : Int) = totalBlocks s bl
  | [], _ => by simp [totalBlocks]
  | a :: bl, h => by
    have ih := slots_length_total sz hsz s hbs bl (fun x hx => h x (List.mem_cons_of_mem _ hx))
    have h0 := h a (List.mem_cons_self _ _)
    have hszI : (0 : Int) < sz := by exact_mod_cast hsz
    have hdiv : (0 : Int) ≤ numBytesAt s a / sz := Int.ediv_nonneg h0 (le_of_lt hszI)
    simp only [List.flatMap_cons, List.length_append, totalBlocks, List.map_cons, List.sum_cons]
      at ih ⊢
    push_cast
    rw [ih]
    simp only [slotsOf, blockList_length, blocksIn, hbs, Int.toNat_of_nonneg hdiv, totalBlocks]

/-- C14.  Let a typed pool for elements of `sizeofT` bytes, `sizeofT > 0`, satisfy the
`blocksAllocated` invariant, with block size `sizeofT`; let its free list be a finite chain
(its entries are then pairwise distinct) of block addresses lying in blobs, let every blob
have a non-negative `byteLength` that is a multiple of `sizeofT`, its blocks being the
addresses `data + k * sizeofT`, and let no address be a block of two blobs, blobs being
distinct regions of the heap.  Then typed `Clear()` returns once it has enough fuel and the
number of destructor calls it makes equals `Count()` as it was before the call. -/
theorem typedClear_destructor_count (sizeofT fuel : Nat) (s : CUtlMemoryPool)
    (fl bl : List Int) (hT : 0 < sizeofT)
    (hfl : IsFreeChain s.mem s.m_pHeadOfFreeList fl) (hbl : BlobList s bl)
    (hbs : s.m_BlockSize = sizeofT) (hinv : CountInv s fl bl)
    (hmult : ∀ a ∈ bl, 0 ≤ numBytesAt s a ∧ numBytesAt s a % sizeofT = 0)
    (hblocks : ∀ c ∈ fl, ∃ a ∈ bl, c ∈ slotsOf sizeofT s a)
    (hdisj : bl.Pairwise fun a a1 =>
      List.Disjoint (slotsOf sizeofT s a) (slotsOf sizeofT s a1))
    (hfuel : fuelBound s fl bl ≤ fuel) :
    ∃ ev s1, CClassMemoryPoolExt.Clear sizeofT fuel s = .ok (ev, s1) ∧
      ((ev.countP Event.isDestruct : Nat) : Int) = s.Count := by
  have hf1 : fl.length ≤ fuel := le_trans (fuelBound_free_le s fl bl) hfuel
  have hf2 : bl.length ≤ fuel := le_trans (fuelBound_blob_le s fl bl) hfuel
  have hf3 : ∀ a ∈ bl, 0 ≤ numBytesAt s a ∧ numBytesAt s a % sizeofT = 0 ∧
      (numBytesAt s a).toNat ≤ fuel := fun a ha =>
    ⟨(hmult a ha).1, (hmult a ha).2, le_trans (fuelBound_slot_le s fl bl a ha) hfuel⟩
  have hszI : (0 : Int) < sizeofT := by exact_mod_cast hT
  have hrun := destructBlobs_list s sizeofT hT fl fuel [] hbl hf2 hf3
  have hclear := rawClear_eq hbl hf2
  refine ⟨(bl.flatMap fun a => ((slotsOf sizeofT s a).filter fun q =>
        CClassMemoryPoolExt.notFound fl q).map Event.destruct) ++ bl.map Event.release,
    CUtlMemoryPool.Init { s with blobs := fun a => if a ∈ bl then none else s.blobs a },
    ?_, ?_⟩
  · unfold CClassMemoryPoolExt.Clear
    rw [collectFree_eq [] hfl hf1, List.nil_append]
    simp only [hrun, List.nil_append, hclear]
  · have hS : (bl.flatMap (slotsOf sizeofT s)).Nodup :=
      List.nodup_flatMap.2 ⟨fun a _ => blockList_nodup _ hszI _ _, hdisj⟩
    have hsub : ∀ c ∈ fl, c ∈ bl.flatMap (slotsOf sizeofT s) := fun c hc =>
      List.mem_flatMap.2 (hblocks c hc)
    have hin := countP_mem_eq_length hS (isPath_nodup hfl) hsub
    have hlen := slots_length_total sizeofT hT s hbs bl (fun a ha => (hmult a ha).1)
    have hsplit := List.length_eq_countP_add_countP (fun q => decide (q ∈ fl))
      (bl.flatMap (slotsOf sizeofT s))
    have hnf : (fun a : Int => decide ¬ (decide (a ∈ fl)) = true) =
        fun q => CClassMemoryPoolExt.notFound fl q := by
      funext q
      simp [CClassMemoryPoolExt.notFound]
    rw [hnf, hin] at hsplit
    have hev : (bl.flatMap fun a => ((slotsOf sizeofT s a).filter fun q =>
        CClassMemoryPoolExt.notFound fl q).map Event.destruct) =
        ((bl.flatMap (slotsOf sizeofT s)).filter fun q =>
          CClassMemoryPoolExt.notFound fl q).map Event.destruct := by
      rw [List.filter_flatMap, List.map_flatMap]
    have hD : ∀ l : List Int, (l.map Event.destruct).countP Event.isDestruct = l.length := by
      intro l
      induction l with
      | nil => rfl
      | cons a l ih => simp [List.countP_cons, Event.isDestruct, ih]
    have hR : ∀ l : List Int, (l.map Event.release).countP Event.isDestruct = 0 := by
      intro l
      induction l with
      | nil => rfl
      | cons a l ih => simp [List.countP_cons, Event.isDestruct, ih]
    rw [List.countP_append, hev, hD, hR, add_zero, ← List.countP_eq_length_filter]
    unfold CountInv at hinv
    simp only [CUtlMemoryPool.Count, hinv, ← hlen]
    omega

/-- Witness for C14 on the concrete pool: three of its four 8-byte blocks are live and typed
`Clear` makes three destructor calls. -/
theorem typedClear_destructor_count_witness :
    (0 < 8 ∧ IsFreeChain exPool.mem exPool.m_pHeadOfFreeList [3028] ∧
      BlobList exPool [2000, 3000] ∧ exPool.m_BlockSize = (8 : Nat) ∧
      CountInv exPool [3028] [2000, 3000] ∧ exPool.Count = 3) ∧
    ∃ ev s1, CClassMemoryPoolExt.Clear 8 40 exPool = .ok (ev, s1) ∧
      ((ev.countP Event.isDestruct : Nat) : Int) = exPool.Count :=
  have h1 : slotsOf 8 exPool 2000 = [2020, 2028] := by decide
  have h2 : slotsOf 8 exPool 3000 = [3020, 3028] := by decide
  have hdisj : [2000, 3000].Pairwise fun a a1 =>
      List.Disjoint (slotsOf 8 exPool a) (slotsOf 8 exPool a1) := by
    refine List.Pairwise.cons (fun a1 ha1 => ?_) (List.Pairwise.cons (fun _ h => by simp at h)
      List.Pairwise.nil)
    rw [List.mem_singleton.1 ha1, h1, h2]
    intro x hx hx1
    simp only [List.mem_cons, List.mem_singleton, List.not_mem_nil, or_false] at hx hx1
    omega
  ⟨⟨by decide, by decide, by decide, by decide, by decide, by decide⟩,
    typedClear_destructor_count 8 40 exPool [3028] [2000, 3000] (by decide) (by decide)
      (by decide) (by decide) (by decide) (by decide) (by decide) hdisj (by decide)⟩

/-! ## C15: the slots that typed `Clear` examines -/

/-- C15 (evaluation of the code at the failing input).  A typed pool for elements of 24
bytes (or of 32 bytes) with alignment 16 has block size 32.  Its first blob, with data area at
2020, has the two blocks 2032 and 2064, which two allocations return.  On this pool, whose free
list is empty so that every slot examined is destructed, typed `Clear()` for 24-byte elements
examines the three addresses 2020, 2044 and 2068, none of which is a block, and the last slot
ends at 2092, past the end 2084 of the data area; for 32-byte elements it examines 2020 and
2052, again no block.  The live elements at 2032 and 2064 are never destructed. -/
theorem typedClear_misses_aligned_blocks :
    CUtlMemoryPool.construct 8 1000 (fun _ => 0) 24 2 CUtlMemoryPool.GROW_SLOW 16 =
      some exAlignedFresh ∧
    CUtlMemoryPool.construct 8 1000 (fun _ => 0) 32 2 CUtlMemoryPool.GROW_SLOW 16 =
      some exAlignedFresh ∧
    (CUtlMemoryPool.Alloc 2000 2020 exAlignedFresh).1 = 2032 ∧
    (CUtlMemoryPool.Alloc 0 0 (CUtlMemoryPool.Alloc 2000 2020 exAlignedFresh).2).1 = 2064 ∧
    BlobList exAligned [2000] ∧ exAligned.m_pHeadOfFreeList = 0 ∧ exAligned.Count = 2 ∧
    dataAt exAligned 2000 = 2020 ∧ numBytesAt exAligned 2000 = 64 ∧
    blocksIn exAligned 2000 = 2 ∧ blobBlocks exAligned 2000 = [2032, 2064] ∧
    (∃ s1, CClassMemoryPoolExt.Clear 24 100 exAligned =
      .ok ([Event.destruct 2020, Event.destruct 2044, Event.destruct 2068,
            Event.release 2000], s1)) ∧
    (∃ s1, CClassMemoryPoolExt.Clear 32 100 exAligned =
      .ok ([Event.destruct 2020, Event.destruct 2052, Event.release 2000], s1)) ∧
    (2068 : Int) + 24 > dataAt exAligned 2000 + numBytesAt exAligned 2000 :=
  ⟨rfl, rfl, by decide, by decide, by decide, by decide, by decide, by decide, by decide,
    by decide, by decide, ⟨_, rfl⟩, ⟨_, rfl⟩, by decide⟩

end Mempool
